import Mathlib

/-!
# Access control of the project / task tracker

A shallow embedding of the Express backend under `src/Backend`:

* `models/Project.js`, `models/Task.js`: the documents and the two
  membership predicates `isMember` and `isAdmin`;
* `middleware/projectAuth.js`: `checkProjectAdmin`;
* `controllers/projectController.js`, `controllers/taskController.js`:
  the request handlers, as functions from a store to a new store and a response;
* `routes/projects.js`, `routes/tasks.js`: which handler runs behind which middleware.

Modelling conventions.

* An `ObjectId` is a natural number; `toString` on ids is injective, so the
  source's comparisons of `x.toString()` with `y.toString()` are equalities of ids.
  Route parameters and body fields that carry ids are taken to be well-formed ids.
* A body field is `Option String`: `none` is `undefined`. A value is falsy
  (`!x`) when it is absent or the empty string.
* A collection is the list of its documents in insertion order. `findById` returns the
  first document with the given `_id`; saving a document replaces the documents with its
  `_id`; deleting a document removes the documents with its `_id`.
* New ids come from the counter `nextId` of the store.
* A handler's `try / catch` turns every thrown error into a 500 response. The errors
  modelled are the dereference of a `null` lookup result and the rejection of a document
  by the schema (`trim` followed by `required`) for the paths assigned in the request.
  Stored documents are taken to satisfy their schema.
* Responses carry the status code, the `success` flag, the message and the document sent
  back. The `populate` calls that follow a save only expand references in the response
  copy; the payload recorded here is the document as persisted.
* `createdAt` is kept (queries sort on it); `updatedAt` is never read by the code and is
  left out.
-/

namespace TaskManager

/-! ## Documents -/

/-- An `ObjectId`. -/
abbrev Id := Nat

/-- The `role` enum of a member sub-document (`models/Project.js`, lines 26-30). -/
inductive Role
  | admin
  | member
deriving DecidableEq, Repr

/--
Modelled from the spec: the `User` model (`models/User.js`) is not part of the sources;
the spec's `UserStore` resolves users by id and by email, and the controllers select
`name` and `email` when populating.
-/
structure User where
  _id : Id
  name : String
  email : String
deriving DecidableEq, Repr

/-- A reference to a user held by a member sub-document: the bare `ObjectId` as stored,
or the user document after `populate`. -/
inductive UserRef
  | bare (id : Id)
  | populated (u : User)
deriving DecidableEq, Repr

/-- The normalisation used by `isMember` and `isAdmin`:
`member.user._id ? member.user._id.toString() : member.user.toString()`. -/
def UserRef.id : UserRef → Id
  | .bare i => i
  | .populated u => u._id

/-- The comparison `m.user.toString() === userId` used by `addMember`, `promoteMember` and
`removeMember`. A bare id prints as its id string; a populated document prints as a dump
of the document, which is never an id string. -/
def UserRef.toStringEq : UserRef → Id → Bool
  | .bare i, userId => i == userId
  | .populated _, _ => false

/-- A member sub-document (`models/Project.js`, lines 19-36). -/
structure Member where
  user : UserRef
  role : Role
  addedAt : Nat
deriving DecidableEq, Repr

/-- A project document (`models/Project.js`). -/
structure Project where
  _id : Id
  name : String
  description : Option String
  createdBy : Id
  members : List Member
  createdAt : Nat
deriving DecidableEq, Repr

/-- A task document (`models/Task.js`). -/
structure Task where
  _id : Id
  title : String
  description : Option String
  status : String
  project : Id
  assignedTo : Id
  createdBy : Id
  createdAt : Nat
deriving DecidableEq, Repr

/-- The persistent state: the three collections and the id generator. -/
structure Store where
  users : List User
  projects : List Project
  tasks : List Task
  nextId : Nat
deriving DecidableEq, Repr

/-! ## Membership predicates (`models/Project.js`) -/

/-- `projectSchema.methods.isMember` (lines 44-56). -/
def Project.isMember (p : Project) (userId : Id) : Bool :=
  p.members.any fun member => member.user.id == userId

/-- `projectSchema.methods.isAdmin` (lines 59-71). -/
def Project.isAdmin (p : Project) (userId : Id) : Bool :=
  p.members.any fun member => member.user.id == userId && member.role == Role.admin

/-! ## Strings, schema setters and validators -/

/-- ECMAScript `WhiteSpace` and `LineTerminator` code points, the characters removed by
`String.prototype.trim`. -/
def isWhiteSpace (c : Char) : Bool :=
  let n := c.toNat
  (9 ≤ n && n ≤ 13) || n == 32 || n == 160 || n == 5760 || (8192 ≤ n && n ≤ 8202) ||
    n == 8232 || n == 8233 || n == 8239 || n == 8287 || n == 12288 || n == 65279

/-- The `trim: true` setter of the schemas. -/
def trim (s : String) : String :=
  String.mk ((s.data.dropWhile isWhiteSpace).reverse.dropWhile isWhiteSpace).reverse

/-- JavaScript falsiness of an optional string field: `undefined` or `""`. -/
def falsy : Option String → Bool
  | none => true
  | some v => v == ""

/-- The `enum` of `status` in `models/Task.js`, also the `validStatuses` array of
`updateTaskStatus`. -/
def validStatuses : List String := ["todo", "in-progress", "done"]

/-! ## Responses -/

/-- The document sent back in the `data` field. -/
inductive Payload
  | none
  | empty
  | project (p : Project)
  | task (t : Task)
deriving DecidableEq, Repr

/-- A JSON response: `res.status(status).json(success, message, data)`. -/
structure Response where
  status : Nat
  success : Bool
  message : String
  data : Payload
deriving DecidableEq, Repr

/-- A rejection: `res.status(status).json(success: false, message)`. -/
def reject (status : Nat) (message : String) : Response :=
  ⟨status, false, message, Payload.none⟩

/-! ## Collections -/

/-- `User.findOne` on the `email` field. -/
def User.findOne (s : Store) (email : String) : Option User :=
  s.users.find? fun u => u.email == email

/-- `User.findById`, as used by `populate` on a user reference. -/
def User.findById (s : Store) (id : Id) : Option User :=
  s.users.find? fun u => u._id == id

/-- `Project.findById`. -/
def Project.findById (s : Store) (id : Id) : Option Project :=
  s.projects.find? fun p => p._id == id

/-- `Task.findById`. -/
def Task.findById (s : Store) (id : Id) : Option Task :=
  s.tasks.find? fun t => t._id == id

/-- The write of an existing project document (`project.save()` after validation). -/
def Project.save (s : Store) (p : Project) : Store :=
  { s with projects := s.projects.map fun q => if q._id == p._id then p else q }

/-- The write of an existing task document (`task.save()` after validation). -/
def Task.save (s : Store) (t : Task) : Store :=
  { s with tasks := s.tasks.map fun q => if q._id == t._id then t else q }

/-- `project.deleteOne()`. -/
def Project.deleteOne (s : Store) (p : Project) : Store :=
  { s with projects := s.projects.filter fun q => q._id != p._id }

/-- `task.deleteOne()`. -/
def Task.deleteOne (s : Store) (t : Task) : Store :=
  { s with tasks := s.tasks.filter fun q => q._id != t._id }

/-- `Task.deleteMany` on the `project` field. -/
def Task.deleteMany (s : Store) (project : Id) : Store :=
  { s with tasks := s.tasks.filter fun q => q.project != project }

/-! ## Request bodies -/

/-- The body of `createProject` and `updateProject`. -/
structure ProjectBody where
  name : Option String
  description : Option String
deriving DecidableEq, Repr

/-- The body of `addMember`. -/
structure MemberBody where
  email : Option String
deriving DecidableEq, Repr

/-- The body of `createTask`. -/
structure CreateTaskBody where
  title : Option String
  description : Option String
  project : Option Id
  assignToEmail : Option String
deriving DecidableEq, Repr

/-- The body of `updateTask`. -/
structure UpdateTaskBody where
  title : Option String
  description : Option String
  assignToEmail : Option String
deriving DecidableEq, Repr

/-- The body of `updateTaskStatus`. -/
structure StatusBody where
  status : Option String
deriving DecidableEq, Repr

/-! ## Middleware (`middleware/projectAuth.js`) -/

/-- `checkProjectAdmin` (lines 4-44). `projectId` is `req.params.projectId || req.body.project`.
The result is the response sent, or the project attached to the request when `next()`
is called. -/
def checkProjectAdmin (s : Store) (user : Id) (projectId : Option Id) : Except Response Project :=
  match projectId with
  | none => .error (reject 400 "Project ID is required")
  | some id =>
    match Project.findById s id with
    | none => .error (reject 404 "Project not found")
    | some project =>
      if !project.isAdmin user then
        .error (reject 403 "Access denied. Only project admins can perform this action.")
      else .ok project

/-! ## Project handlers (`controllers/projectController.js`) -/

/-- `createProject` (lines 7-48). -/
def createProject (s : Store) (user : Id) (body : ProjectBody) (now : Nat) : Store × Response :=
  if falsy body.name then (s, reject 400 "Please provide a project name")
  else
    let name := trim (body.name.getD "")
    if name == "" then (s, reject 500 "Server error during project creation")
    else
      let project : Project :=
        { _id := s.nextId
          name := name
          description := body.description.map trim
          createdBy := user
          members := [{ user := .bare user, role := .admin, addedAt := now }]
          createdAt := now }
      ({ s with projects := s.projects ++ [project], nextId := s.nextId + 1 },
        ⟨201, true, "Project created successfully", .project project⟩)

/-- `addMember` (lines 144-201), running on the `req.project` attached by the middleware. -/
def addMember (s : Store) (project : Project) (body : MemberBody) (now : Nat) : Store × Response :=
  if falsy body.email then (s, reject 400 "Please provide user email")
  else
    match User.findOne s (body.email.getD "") with
    | none => (s, reject 404 "User not found with this email")
    | some userToAdd =>
      match project.members.find? fun m => m.user.toStringEq userToAdd._id with
      | some _ => (s, reject 400 "User is already a member of this project")
      | none =>
        let project :=
          { project with
            members := project.members ++ [{ user := .bare userToAdd._id, role := .member, addedAt := now }] }
        (Project.save s project, ⟨200, true, "Member added successfully", .project project⟩)

/-- `promoteMember` (lines 206-247). `find` returns the first matching entry; assigning
`member.role` updates that entry in place, at the index of the first match. -/
def promoteMember (s : Store) (project : Project) (userId : Id) : Store × Response :=
  match project.members.find? fun m => m.user.toStringEq userId with
  | none => (s, reject 404 "User is not a member of this project")
  | some member =>
    if member.role == Role.admin then (s, reject 400 "User is already an admin")
    else
      let i := project.members.findIdx fun m => m.user.toStringEq userId
      let project := { project with members := project.members.set i { member with role := .admin } }
      (Project.save s project, ⟨200, true, "Member promoted to admin successfully", .project project⟩)

/-- `deleteProject` (lines 252-290). -/
def deleteProject (s : Store) (user : Id) (id : Id) : Store × Response :=
  match Project.findById s id with
  | none => (s, reject 404 "Project not found")
  | some project =>
    if project.createdBy != user then
      (s, reject 403 "Only the project creator can delete this project")
    else
      (Project.deleteOne (Task.deleteMany s project._id) project,
        ⟨200, true, "Project and all associated tasks deleted successfully", .empty⟩)

/-- `removeMember` (lines 295-337). -/
def removeMember (s : Store) (project : Project) (userId : Id) : Store × Response :=
  match project.members.findIdx? fun m => m.user.toStringEq userId with
  | none => (s, reject 404 "User is not a member of this project")
  | some memberIndex =>
    if project.createdBy == userId then (s, reject 400 "Cannot remove the project creator")
    else
      let project := { project with members := project.members.eraseIdx memberIndex }
      (Project.save s project, ⟨200, true, "Member removed successfully", .project project⟩)

/-- `updateProject` (lines 342-382). A supplied name that trims to the empty string is
rejected by the `required` validator when the document is saved. -/
def updateProject (s : Store) (user : Id) (id : Id) (body : ProjectBody) : Store × Response :=
  match Project.findById s id with
  | none => (s, reject 404 "Project not found")
  | some project =>
    if !project.isAdmin user then (s, reject 403 "Only project admins can update this project")
    else
      let project := if falsy body.name then project else { project with name := trim (body.name.getD "") }
      let project :=
        match body.description with
        | none => project
        | some description => { project with description := some (trim description) }
      if !falsy body.name && trim (body.name.getD "") == "" then (s, reject 500 "Server error")
      else (Project.save s project, ⟨200, true, "Project updated successfully", .project project⟩)

/-! ## Task handlers (`controllers/taskController.js`) -/

/-- `createTask` (lines 8-69). A `null` project lookup makes `projectDoc.isMember` throw; a
title that trims to the empty string is rejected by the `required` validator. -/
def createTask (s : Store) (user : Id) (body : CreateTaskBody) (now : Nat) : Store × Response :=
  match body.project with
  | none => (s, reject 400 "Please provide title, project, and user email to assign")
  | some project =>
    if falsy body.title || falsy body.assignToEmail then
      (s, reject 400 "Please provide title, project, and user email to assign")
    else
      match User.findOne s (body.assignToEmail.getD "") with
      | none => (s, reject 404 "User not found with this email")
      | some assignUser =>
        match Project.findById s project with
        | none => (s, reject 500 "Server error during task creation")
        | some projectDoc =>
          if !projectDoc.isMember assignUser._id then
            (s, reject 400 "Cannot assign task to user who is not a project member")
          else
            let title := trim (body.title.getD "")
            if title == "" then (s, reject 500 "Server error during task creation")
            else
              let task : Task :=
                { _id := s.nextId
                  title := title
                  description := body.description.map trim
                  status := "todo"
                  project := project
                  assignedTo := assignUser._id
                  createdBy := user
                  createdAt := now }
              ({ s with tasks := s.tasks ++ [task], nextId := s.nextId + 1 },
                ⟨201, true, "Task created successfully", .task task⟩)

/-- `getTask` (lines 145-191). The task is loaded with its references populated: a
reference to a missing document is `null`, and reading `_id` from it throws. -/
def getTask (s : Store) (user : Id) (id : Id) : Response :=
  match Task.findById s id with
  | none => reject 404 "Task not found"
  | some task =>
    match Project.findById s task.project with
    | none => reject 500 "Server error"
    | some project =>
      if !project.isMember user then reject 403 "Access denied"
      else if project.isAdmin user then ⟨200, true, "", .task task⟩
      else
        match User.findById s task.assignedTo with
        | none => reject 500 "Server error"
        | some assignedTo =>
          if assignedTo._id != user then reject 403 "You can only view your own tasks"
          else ⟨200, true, "", .task task⟩

/-- `updateTaskStatus` (lines 196-254). -/
def updateTaskStatus (s : Store) (user : Id) (id : Id) (body : StatusBody) : Store × Response :=
  if falsy body.status then (s, reject 400 "Please provide status")
  else
    let status := body.status.getD ""
    if !validStatuses.contains status then
      (s, reject 400 "Invalid status. Must be: todo, in-progress, or done")
    else
      match Task.findById s id with
      | none => (s, reject 404 "Task not found")
      | some task =>
        if task.assignedTo != user then
          (s, reject 403 "You can only update status of tasks assigned to you")
        else
          let task := { task with status := status }
          (Task.save s task, ⟨200, true, "Task status updated successfully", .task task⟩)

/-- `deleteTask` (lines 259-297). A `null` project lookup makes `project.isAdmin` throw. -/
def deleteTask (s : Store) (user : Id) (id : Id) : Store × Response :=
  match Task.findById s id with
  | none => (s, reject 404 "Task not found")
  | some task =>
    match Project.findById s task.project with
    | none => (s, reject 500 "Server error")
    | some project =>
      let isAdmin := project.isAdmin user
      let isOwner := task.assignedTo == user
      if !isAdmin && !isOwner then
        (s, reject 403
          "You can only delete tasks that are assigned to you or if you are a project admin")
      else (Task.deleteOne s task, ⟨200, true, "Task deleted successfully", .empty⟩)

/-- The tail of `updateTask` (lines 351-362): `task.save()` and the success response. A
supplied title that trims to the empty string is rejected by the `required` validator. -/
def updateTaskSave (s : Store) (body : UpdateTaskBody) (task : Task) : Store × Response :=
  if !falsy body.title && trim (body.title.getD "") == "" then (s, reject 500 "Server error")
  else (Task.save s task, ⟨200, true, "Task updated successfully", .task task⟩)

/-- `updateTask` (lines 302-370). -/
def updateTask (s : Store) (user : Id) (id : Id) (body : UpdateTaskBody) : Store × Response :=
  match Task.findById s id with
  | none => (s, reject 404 "Task not found")
  | some task =>
    match Project.findById s task.project with
    | none => (s, reject 500 "Server error")
    | some project =>
      let isAdmin := project.isAdmin user
      let isOwner := task.assignedTo == user
      if !isAdmin && !isOwner then
        (s, reject 403
          "You can only update tasks assigned to you or if you are a project admin")
      else
        let task := if falsy body.title then task else { task with title := trim (body.title.getD "") }
        let task :=
          match body.description with
          | none => task
          | some description => { task with description := some (trim description) }
        if !falsy body.assignToEmail && isAdmin then
          match User.findOne s (body.assignToEmail.getD "") with
          | none => (s, reject 404 "User not found with this email")
          | some newAssignee =>
            if !project.isMember newAssignee._id then
              (s, reject 400 "Cannot assign task to user who is not a project member")
            else updateTaskSave s body { task with assignedTo := newAssignee._id }
        else updateTaskSave s body task

/-! ## Routes (`routes/projects.js`, `routes/tasks.js`) -/

/-- Runs a handler behind `checkProjectAdmin`. -/
def behindAdmin (s : Store) (user : Id) (projectId : Option Id)
    (handler : Project → Store × Response) : Store × Response :=
  match checkProjectAdmin s user projectId with
  | .error res => (s, res)
  | .ok project => handler project

/-- A state-changing request: the authenticated caller `user` (set by `protect`), the
route parameters, the body, and the clock reading used for `Date.now()`. -/
inductive Request
  | createProject (user : Id) (body : ProjectBody) (now : Nat)
  | updateProject (user : Id) (id : Id) (body : ProjectBody)
  | deleteProject (user : Id) (id : Id)
  | addMember (user : Id) (projectId : Id) (body : MemberBody) (now : Nat)
  | promoteMember (user : Id) (projectId : Id) (userId : Id)
  | removeMember (user : Id) (projectId : Id) (userId : Id)
  | createTask (user : Id) (body : CreateTaskBody) (now : Nat)
  | updateTask (user : Id) (id : Id) (body : UpdateTaskBody)
  | updateTaskStatus (user : Id) (id : Id) (body : StatusBody)
  | deleteTask (user : Id) (id : Id)
deriving DecidableEq, Repr

/-- The router: dispatches a request to its middleware chain. -/
def handle (s : Store) : Request → Store × Response
  | .createProject user body now => createProject s user body now
  | .updateProject user id body => updateProject s user id body
  | .deleteProject user id => deleteProject s user id
  | .addMember user projectId body now =>
      behindAdmin s user (some projectId) fun project => addMember s project body now
  | .promoteMember user projectId userId =>
      behindAdmin s user (some projectId) fun project => promoteMember s project userId
  | .removeMember user projectId userId =>
      behindAdmin s user (some projectId) fun project => removeMember s project userId
  | .createTask user body now =>
      behindAdmin s user body.project fun _ => createTask s user body now
  | .updateTask user id body => updateTask s user id body
  | .updateTaskStatus user id body => updateTaskStatus s user id body
  | .deleteTask user id => deleteTask s user id

/-- The store after a sequence of requests. -/
def run (s : Store) : List Request → Store
  | [] => s
  | r :: rs => run (handle s r).1 rs

/-- The stores the application can be in: it starts with no project and no task, and
changes only through requests. -/
inductive Reachable : Store → Prop
  | init (users : List User) (nextId : Nat) : Reachable ⟨users, [], [], nextId⟩
  | step {s : Store} (r : Request) : Reachable s → Reachable (handle s r).1

/-! ## A worked scenario

Alice (id 1) creates a project, adds Bob (id 2) and assigns him a task; Carol (id 3) is
a registered user who never joins. -/

/-- The three registered users. -/
def demoUsers : List User :=
  [⟨1, "Alice", "alice@example.com"⟩, ⟨2, "Bob", "bob@example.com"⟩,
    ⟨3, "Carol", "carol@example.com"⟩]

/-- The empty application with the three users; the next id is 10. -/
def demoInit : Store := ⟨demoUsers, [], [], 10⟩

/-- Alice creates project 10, adds Bob, and creates task 11 assigned to Bob. -/
def demoSetup : List Request :=
  [ .createProject 1 ⟨some "Apollo", none⟩ 100,
    .addMember 1 10 ⟨some "bob@example.com"⟩ 101,
    .createTask 1 ⟨some "Write report", none, some 10, some "bob@example.com"⟩ 102 ]

/-- The store after the setup. -/
def demoStore : Store := run demoInit demoSetup


/-- The project of the scenario, as stored after the setup. -/
def demoProject : Project :=
  ⟨10, "Apollo", none, 1,
    [⟨UserRef.bare 1, Role.admin, 100⟩, ⟨UserRef.bare 2, Role.member, 101⟩], 100⟩

/-- The task of the scenario, as stored after the setup. -/
def demoTask : Task := ⟨11, "Write report", none, "todo", 10, 2, 1, 102⟩

/-- The scenario after Alice has removed Bob from the project. -/
def demoStale : Store := run demoStore [Request.removeMember 1 10 2]

/-- The scenario after Alice has promoted Bob to admin. -/
def demoPromoted : Store := run demoStore [Request.promoteMember 1 10 2]

/-- A store whose only project has a creator entry of role member next to an admin entry of
another user (a state no request sequence produces, used to exercise the creator guard of
`removeMember` on a non-admin creator entry). -/
def demoDemoted : Store :=
  ⟨demoUsers,
    [⟨10, "Apollo", none, 1,
      [⟨UserRef.bare 1, Role.member, 100⟩, ⟨UserRef.bare 2, Role.admin, 101⟩], 100⟩],
    [], 11⟩

/-- The scenario after Alice has also added Carol: project 10 has one task, assigned to
Bob, and Carol is a plain member with no task. -/
def demoShared : Store :=
  run demoStore [Request.addMember 1 10 ⟨some "carol@example.com"⟩ 103]

/-! ## Invariants -/

/-- A property of project documents that holds of a new project and is kept by each of the
writes the handlers perform: appending a member entry for a user without entry, turning an
entry into an admin entry, erasing the entry of a user other than the creator, and changing
name and description. -/
structure ProjectInvariant (I : Project → Prop) : Prop where
  create : ∀ (id : Id) (name : String) (description : Option String) (user : Id) (now : Nat),
    I ⟨id, name, description, user, [⟨UserRef.bare user, Role.admin, now⟩], now⟩
  add : ∀ (p : Project) (a : Id) (now : Nat), I p →
    p.members.find? (fun m => m.user.toStringEq a) = none →
    I { p with members := p.members ++ [⟨UserRef.bare a, Role.member, now⟩] }
  promote : ∀ (p : Project) (i : Nat) (m : Member), I p → p.members[i]? = some m →
    I { p with members := p.members.set i { m with role := Role.admin } }
  remove : ∀ (p : Project) (i : Nat) (m : Member), I p → p.members[i]? = some m →
    m.user.id ≠ p.createdBy → I { p with members := p.members.eraseIdx i }
  update : ∀ (p : Project) (name : String) (description : Option String), I p →
    I { p with name := name, description := description }

/-- Every stored project lists its creator as an admin. -/
def CreatorAdmin (s : Store) : Prop :=
  ∀ p ∈ s.projects, p.isAdmin p.createdBy = true

/-- Every member reference of every stored project is a bare id. -/
def Unpopulated (s : Store) : Prop :=
  ∀ p ∈ s.projects, ∀ m ∈ p.members, ∃ i : Id, m.user = UserRef.bare i

/-- Document ids are unique within each collection and were all issued by the id generator
(the primary key guarantee of the document store). -/
def UniqueIds (s : Store) : Prop :=
  (s.projects.map fun p => p._id).Nodup ∧ (s.tasks.map fun t => t._id).Nodup ∧
    (∀ p ∈ s.projects, p._id < s.nextId) ∧ (∀ t ∈ s.tasks, t._id < s.nextId)

/-- The effect of one request on the ids of the store: documents are kept or removed, or
one document with the next id is appended to one collection. -/
def IdsStep (s t : Store) : Prop :=
  (t.nextId = s.nextId ∧
      (t.projects.map fun p => p._id).Sublist (s.projects.map fun p => p._id) ∧
      (t.tasks.map fun q => q._id).Sublist (s.tasks.map fun q => q._id)) ∨
    (t.nextId = s.nextId + 1 ∧
      (t.projects.map fun p => p._id) = (s.projects.map fun p => p._id) ++ [s.nextId] ∧
      t.tasks = s.tasks) ∨
    (t.nextId = s.nextId + 1 ∧
      (t.tasks.map fun q => q._id) = (s.tasks.map fun q => q._id) ++ [s.nextId] ∧
      t.projects = s.projects)

/-! ## Read handlers -/

/-- `populate('members.user', 'name email')` on one member entry: the reference is replaced
by the user document it points to; `none` is the `null` left for a missing user. -/
def populateMember (s : Store) (m : Member) : Option Member :=
  (User.findById s m.user.id).map fun u => { m with user := UserRef.populated u }

/-- `isMember` on a populated members list. `Array.prototype.some` visits the entries in
order and stops at the first match; reading `_id` from a `null` reference throws, which is
the result `none`. -/
def isMemberOrThrow : List (Option Member) → Id → Option Bool
  | [], _ => some false
  | none :: _, _ => none
  | some member :: rest, userId =>
    if member.user.id == userId then some true else isMemberOrThrow rest userId

/-- `getProject` (`controllers/projectController.js`, lines 95-139): the project is loaded
with its member references populated, and `isMember` runs on the populated list. -/
def getProject (s : Store) (user : Id) (id : Id) : Response :=
  match Project.findById s id with
  | none => reject 404 "Project not found"
  | some project =>
    match isMemberOrThrow (project.members.map (populateMember s)) user with
    | none => reject 500 "Server error"
    | some false => reject 403 "Access denied. You are not a member of this project."
    | some true => ⟨200, true, "", Payload.project project⟩

/-- The value of a character as a digit in the given radix. -/
def digitValue (radix : Nat) (c : Char) : Option Nat :=
  let v :=
    if 48 ≤ c.toNat ∧ c.toNat ≤ 57 then some (c.toNat - 48)
    else if 97 ≤ c.toNat ∧ c.toNat ≤ 122 then some (c.toNat - 87)
    else if 65 ≤ c.toNat ∧ c.toNat ≤ 90 then some (c.toNat - 55)
    else none
  v.bind fun d => if d < radix then some d else none

/-- The number of low bits an integer loses when it is stored with the 53 significant bits
of a double: the number of halvings that bring it below `2 ^ 53` (the first argument bounds
the number of halvings). -/
def droppedBits : Nat → Nat → Nat
  | 0, _ => 0
  | fuel + 1, n => if n < 2 ^ 53 then 0 else droppedBits fuel (n / 2) + 1

/-- The Number value of a non-negative integer: the nearest IEEE 754 double, ties to the
even significand. Integers below `2 ^ 53` are doubles; a larger one keeps its 53 leading
bits, rounded; past the largest finite double, `(2 ^ 53 - 1) * 2 ^ 971`, the result is
`Infinity`, for which `2 ^ 1024` stands. -/
def roundToDouble (n : Nat) : Nat :=
  if n < 2 ^ 53 then n
  else
    let shift := droppedBits n n
    let q := n / 2 ^ shift
    let r := n % 2 ^ shift
    let half := 2 ^ (shift - 1)
    let significand := if half < r ∨ (r = half ∧ q % 2 = 1) then q + 1 else q
    if 971 < shift ∨ (shift = 971 ∧ significand = 2 ^ 53) then 2 ^ 1024
    else significand * 2 ^ shift

/-- The number written by the longest prefix of digits, `none` (NaN) when that prefix is
empty: the mathematical value of the digits, rounded to a Number. -/
def parseDigits (radix : Nat) (cs : List Char) : Option Int :=
  let ds := cs.takeWhile fun c => (digitValue radix c).isSome
  if ds.isEmpty then none
  else
    some (Int.ofNat
      (roundToDouble (ds.foldl (fun acc c => acc * radix + (digitValue radix c).getD 0) 0)))

/-- ECMAScript `parseInt(string)` without radix argument, on an optional query value:
leading white space is skipped, a sign is read, a `0x` or `0X` prefix selects radix 16, and
the longest prefix of digits is converted; `none` is NaN (`undefined` parses to NaN). The
result is an integer-valued Number: the value of the digits rounded to the nearest double
(`-0` is 0, and `2 ^ 1024` stands for `Infinity`). -/
def parseInt (input : Option String) : Option Int :=
  match input with
  | none => none
  | some str =>
    let cs := str.data.dropWhile isWhiteSpace
    let signed : Int × List Char :=
      match cs with
      | '-' :: rest => (-1, rest)
      | '+' :: rest => (1, rest)
      | _ => (1, cs)
    let value :=
      match signed.2 with
      | '0' :: 'x' :: rest => parseDigits 16 rest
      | '0' :: 'X' :: rest => parseDigits 16 rest
      | rest => parseDigits 10 rest
    value.map fun v => signed.1 * v

/-- The expression `parseInt(x) || d`: NaN and 0 are falsy. -/
def parseIntOr (input : Option String) (d : Int) : Int :=
  match parseInt input with
  | none => d
  | some v => if v == 0 then d else v

/-- The query string of `GET /api/tasks`. -/
structure TasksQuery where
  project : Option Id
  page : Option String
  limit : Option String
deriving DecidableEq, Repr

/-- The filter document built by `getTasks`: `project`, and `assignedTo` when set. -/
structure TaskFilter where
  project : Id
  assignedTo : Option Id
deriving DecidableEq, Repr

/-- Whether a task matches a filter document. -/
def TaskFilter.matches (q : TaskFilter) (t : Task) : Bool :=
  t.project == q.project &&
    match q.assignedTo with
    | none => true
    | some userId => t.assignedTo == userId

/-- `Task.find(query)`. -/
def Task.find (s : Store) (q : TaskFilter) : List Task :=
  s.tasks.filter q.matches

/-- `Task.countDocuments(query)`. -/
def Task.countDocuments (s : Store) (q : TaskFilter) : Nat :=
  (s.tasks.filter q.matches).length

/-- `sort` on `createdAt` descending: newest first, documents with equal `createdAt` in
collection order. -/
def newestFirst (tasks : List Task) : List Task :=
  tasks.insertionSort fun a b => a.createdAt ≥ b.createdAt

/-- `Math.ceil(total / limit)` for a non-zero `limit`. -/
def ceilDiv (total : Nat) (limit : Int) : Int :=
  -(Int.fdiv (-(Int.ofNat total)) limit)

/-- The success body of a listing: `count`, `total`, `page`, `totalPages` and `data`. -/
structure Page (α : Type) where
  count : Nat
  total : Nat
  page : Int
  totalPages : Int
  data : List α
deriving DecidableEq, Repr

/-- `getTasks` (`controllers/taskController.js`, lines 74-140). The result is the rejection
sent, or the body of the 200 response. The store rejects a negative `skip` (the handler then
answers 500) and reads a negative `limit` as its absolute value. `page`, `limit` and `skip`
are the integer values of the Numbers; the product `skip` is exact, as in JavaScript when it
is below `2 ^ 53`. -/
def getTasks (s : Store) (user : Id) (query : TasksQuery) : Except Response (Page Task) :=
  match query.project with
  | none => .error (reject 400 "Please provide project ID")
  | some project =>
    match Project.findById s project with
    | none => .error (reject 404 "Project not found")
    | some projectDoc =>
      if !projectDoc.isMember user then .error (reject 403 "Access denied")
      else
        let page := parseIntOr query.page 1
        let limit := parseIntOr query.limit 10
        let skip := (page - 1) * limit
        let filter : TaskFilter :=
          { project := project
            assignedTo := if !projectDoc.isAdmin user then some user else none }
        let total := Task.countDocuments s filter
        if skip < 0 then .error (reject 500 "Server error")
        else
          let tasks := ((newestFirst (Task.find s filter)).drop skip.toNat).take limit.natAbs
          .ok ⟨tasks.length, total, page, ceilDiv total limit, tasks⟩

/-- The page that `getTasks` builds from the tasks matching a filter document: `total` counts
the matching tasks and `data` is the slice of them, newest first, selected by `skip` and
`limit`. -/
def tasksPage (s : Store) (filter : TaskFilter) (page limit : Int) :
    Except Response (Page Task) :=
  if (page - 1) * limit < 0 then .error (reject 500 "Server error")
  else
    let tasks :=
      ((newestFirst (Task.find s filter)).drop ((page - 1) * limit).toNat).take limit.natAbs
    .ok ⟨tasks.length, Task.countDocuments s filter, page, ceilDiv (Task.countDocuments s filter) limit,
      tasks⟩

/-- The member entries of a stored project are as the handlers write them: every reference
is a bare id and no two entries have the same user id. -/
def Project.Canonical (p : Project) : Prop :=
  (∀ m ∈ p.members, ∃ i : Id, m.user = UserRef.bare i) ∧
    (p.members.map fun m => m.user.id).Nodup

/-- Every member reference of every stored project points to a registered user. -/
def MembersRegistered (s : Store) : Prop :=
  ∀ p ∈ s.projects, ∀ m ∈ p.members, (User.findById s m.user.id).isSome = true

/-! ## Project listing and the frontend -/

/-- The query string of `GET /api/projects`. -/
structure ProjectsQuery where
  page : Option String
  limit : Option String
deriving DecidableEq, Repr

/-- `Project.find` with the filter `members.user = user`: the projects with a member entry
whose stored reference is the id of the user. -/
def Project.find (s : Store) (user : Id) : List Project :=
  s.projects.filter fun p => p.members.any fun m => m.user.id == user

/-- `Project.countDocuments` with the filter `members.user = user`. -/
def Project.countDocuments (s : Store) (user : Id) : Nat :=
  (s.projects.filter fun p => p.members.any fun m => m.user.id == user).length

/-- `sort` on `createdAt` descending for projects: newest first, documents with equal
`createdAt` in collection order. -/
def newestProjectsFirst (projects : List Project) : List Project :=
  projects.insertionSort fun a b => a.createdAt ≥ b.createdAt

/-- `getProjects` (`controllers/projectController.js`, lines 53-90). The result is the
rejection sent, or the body of the 200 response. The store rejects a negative `skip` (the
handler then answers 500) and reads a negative `limit` as its absolute value. `page`, `limit`
and `skip` are the integer values of the Numbers; the product `skip` is exact, as in
JavaScript when it is below `2 ^ 53`. -/
def getProjects (s : Store) (user : Id) (query : ProjectsQuery) :
    Except Response (Page Project) :=
  let page := parseIntOr query.page 1
  let limit := parseIntOr query.limit 10
  let skip := (page - 1) * limit
  let total := Project.countDocuments s user
  if skip < 0 then .error (reject 500 "Server error")
  else
    let projects :=
      ((newestProjectsFirst (Project.find s user)).drop skip.toNat).take limit.natAbs
    .ok ⟨projects.length, total, page, ceilDiv total limit, projects⟩

/-- The `data` of a listing answer, empty for a rejection. -/
def pageData {α : Type} : Except Response (Page α) → List α
  | .ok body => body.data
  | .error _ => []

/-- The status requested by `handleUpdateStatus` (`frontend1/src/pages/Tasks.jsx`, lines
116-119): the entry after the current one in `['todo', 'in-progress', 'done']`, cyclically;
`indexOf` is -1 for an unknown status, which gives the first entry. -/
def nextStatus (currentStatus : String) : String :=
  let statuses := ["todo", "in-progress", "done"]
  match statuses.indexOf? currentStatus with
  | some currentIndex => statuses.getD ((currentIndex + 1) % statuses.length) ""
  | none => statuses.getD 0 ""

/-- The admin test of the frontend (`ProjectDetails.jsx`, line 174, and
`isUserProjectAdmin` in `Tasks.jsx`, lines 189-192), on the members list of a project
received from the API: `members.find(m => m.user._id === currentUserId)?.role === 'admin'`.
Reading `_id` from a reference that is a bare id string gives `undefined`, which equals no
user id. -/
def frontendIsAdmin (members : List Member) (currentUserId : Id) : Bool :=
  match members.find? fun m =>
      match m.user with
      | UserRef.populated u => u._id == currentUserId
      | UserRef.bare _ => false with
  | some m => m.role == Role.admin
  | none => false

/-- The members list sent by the API: every reference populated with its user document;
`none` when some reference does not resolve (the list then holds a `null`). -/
def populatedMembers (s : Store) : List Member → Option (List Member)
  | [] => some []
  | m :: rest =>
    match populateMember s m, populatedMembers s rest with
    | some a, some b => some (a :: b)
    | _, _ => none

/-- Every task has one of the three statuses of the schema. -/
def StatusValid (s : Store) : Prop :=
  ∀ t ∈ s.tasks, t.status ∈ validStatuses

/-- The scenario after Bob has moved task 11 to done. -/
def demoDone : Store :=
  run demoStore [Request.updateTaskStatus 2 11 ⟨some "done"⟩]


/-- The scenario after Alice has created two more tasks for Bob in project 10 and a second
project: Alice sees three tasks in project 10 and two projects. -/
def demoBusy : Store :=
  run demoStore
    [ Request.createTask 1 ⟨some "Review", none, some 10, some "bob@example.com"⟩ 103,
      Request.createTask 1 ⟨some "Publish", none, some 10, some "bob@example.com"⟩ 104,
      Request.createProject 1 ⟨some "Gemini", none⟩ 105 ]

/-! ## List lemmas used by the handlers -/

/-- Replacing an entry by one that satisfies `q` whenever the old entry did keeps `any q`. -/
theorem any_set_of_imp {α : Type} (q : α → Bool) (a : α) :
    ∀ (l : List α) (i : Nat), (∀ x, l[i]? = some x → q x = true → q a = true) →
      l.any q = true → (l.set i a).any q = true
  | [], _, _, h => by simp at h
  | x :: xs, 0, hi, h => by
    simp only [List.set_cons_zero, List.any_cons, Bool.or_eq_true] at h ⊢
    rcases h with h | h
    · exact Or.inl (hi x (by simp) h)
    · exact Or.inr h
  | x :: xs, i + 1, hi, h => by
    simp only [List.set_cons_succ, List.any_cons, Bool.or_eq_true] at h ⊢
    rcases h with h | h
    · exact Or.inl h
    · exact Or.inr (any_set_of_imp q a xs i (fun y hy => hi y (by simpa using hy)) h)

/-- Erasing an entry that does not satisfy `q` does not change `any q`. -/
theorem any_eraseIdx_of_false {α : Type} (q : α → Bool) :
    ∀ (l : List α) (i : Nat), (∀ x, l[i]? = some x → q x = false) →
      (l.eraseIdx i).any q = l.any q
  | [], _, _ => by simp
  | x :: xs, 0, hi => by
    have hx : q x = false := hi x (by simp)
    simp [hx]
  | x :: xs, i + 1, hi => by
    simp only [List.eraseIdx_cons_succ, List.any_cons]
    rw [any_eraseIdx_of_false q xs i (fun y hy => hi y (by simpa using hy))]

/-- The index returned by `findIdx?` holds an entry that satisfies the predicate. -/
theorem getElem?_of_findIdx?_eq_some {α : Type} (p : α → Bool) (l : List α) (i : Nat)
    (h : l.findIdx? p = some i) : ∃ x, l[i]? = some x ∧ p x = true := by
  rw [List.findIdx?_eq_some_iff_getElem] at h
  obtain ⟨hlt, hp, _⟩ := h
  exact ⟨l[i], by simp [hlt], hp⟩

/-- The entry returned by `find?` sits at index `findIdx`. -/
theorem getElem?_findIdx_of_find? {α : Type} (p : α → Bool) :
    ∀ (l : List α) (a : α), l.find? p = some a → l[l.findIdx p]? = some a
  | [], _, h => by simp at h
  | x :: xs, a, h => by
    rw [List.find?_cons] at h
    rw [List.findIdx_cons]
    cases hx : p x with
    | true => simp [hx] at h; simp [h]
    | false =>
      simp only [hx] at h
      simpa using getElem?_findIdx_of_find? p xs a h

/-! ## Membership predicates -/

/-- A member entry for `u`, after normalisation of the reference. -/
theorem isMember_eq_true_iff (p : Project) (u : Id) :
    p.isMember u = true ↔ ∃ m ∈ p.members, m.user.id = u := by
  simp [Project.isMember]

/-- An admin entry for `u`, after normalisation of the reference. -/
theorem isAdmin_eq_true_iff (p : Project) (u : Id) :
    p.isAdmin u = true ↔ ∃ m ∈ p.members, m.user.id = u ∧ m.role = Role.admin := by
  simp [Project.isAdmin]

/-- An admin is a member. -/
theorem isMember_of_isAdmin (p : Project) (u : Id) (h : p.isAdmin u = true) :
    p.isMember u = true := by
  rw [isAdmin_eq_true_iff] at h
  rw [isMember_eq_true_iff]
  obtain ⟨m, hm, hu, _⟩ := h
  exact ⟨m, hm, hu⟩

/-- A reference that compares equal by `toString` has that id. -/
theorem id_eq_of_toStringEq (r : UserRef) (u : Id) (h : r.toStringEq u = true) : r.id = u := by
  cases r with
  | bare i => simpa [UserRef.toStringEq, UserRef.id] using h
  | populated v => simp [UserRef.toStringEq] at h


/-! ## The creator invariant -/

/-- A project found by id is a document of the collection with that id. -/
theorem mem_of_findById {s : Store} {id : Id} {p : Project} (h : Project.findById s id = some p) :
    p ∈ s.projects ∧ p._id = id := by
  unfold Project.findById at h
  exact ⟨List.mem_of_find?_eq_some h, by simpa using List.find?_some h⟩

/-- A project that passed `checkProjectAdmin` is a stored project with the requested id of
which the caller is an admin. -/
theorem checkProjectAdmin_ok {s : Store} {user : Id} {projectId : Option Id} {project : Project}
    (h : checkProjectAdmin s user projectId = Except.ok project) :
    ∃ id, projectId = some id ∧ Project.findById s id = some project ∧
      project.isAdmin user = true := by
  unfold checkProjectAdmin at h
  split at h
  · cases h
  · rename_i id
    split at h
    · cases h
    · rename_i p hp
      split at h
      · cases h
      · rename_i hA
        cases h
        exact ⟨id, rfl, hp, by simpa using hA⟩

/-- The outcome of `addMember`: nothing is written, or the project is saved with one more
entry at the end, a bare reference with role member to a user who had no entry. -/
theorem addMember_store (s : Store) (project : Project) (body : MemberBody) (now : Nat) :
    (addMember s project body now).1 = s ∨
      ∃ a : User, User.findOne s (body.email.getD "") = some a ∧
        project.members.find? (fun m => m.user.toStringEq a._id) = none ∧
        (addMember s project body now).1 =
          Project.save s
            { project with
              members := project.members ++ [⟨UserRef.bare a._id, Role.member, now⟩] } := by
  unfold addMember
  split
  · exact Or.inl rfl
  · split
    · exact Or.inl rfl
    · rename_i a ha
      split
      · exact Or.inl rfl
      · rename_i hnone
        exact Or.inr ⟨a, ha, hnone, rfl⟩

/-- The outcome of `promoteMember`: nothing is written, or the project is saved with the
first entry of the target turned into an admin entry. -/
theorem promoteMember_store (s : Store) (project : Project) (userId : Id) :
    (promoteMember s project userId).1 = s ∨
      ∃ (i : Nat) (member : Member), project.members[i]? = some member ∧
        member.user.toStringEq userId = true ∧
        (promoteMember s project userId).1 =
          Project.save s
            { project with members := project.members.set i { member with role := Role.admin } } := by
  unfold promoteMember
  split
  · exact Or.inl rfl
  · rename_i member hfind
    split
    · exact Or.inl rfl
    · exact Or.inr ⟨_, member, getElem?_findIdx_of_find? _ _ _ hfind,
        by simpa using List.find?_some hfind, rfl⟩

/-- The outcome of `removeMember`: nothing is written, or the project is saved without the
first entry of the target, who is not the creator. -/
theorem removeMember_store (s : Store) (project : Project) (userId : Id) :
    (removeMember s project userId).1 = s ∨
      ∃ (i : Nat) (member : Member), project.members[i]? = some member ∧
        member.user.id = userId ∧ project.createdBy ≠ userId ∧
        (removeMember s project userId).1 =
          Project.save s { project with members := project.members.eraseIdx i } := by
  unfold removeMember
  split
  · exact Or.inl rfl
  · rename_i i hfind
    split
    · exact Or.inl rfl
    · rename_i hne
      obtain ⟨m, hm, hp⟩ := getElem?_of_findIdx?_eq_some _ _ _ hfind
      exact Or.inr ⟨i, m, hm, id_eq_of_toStringEq _ _ hp, by simpa using hne, rfl⟩

/-- The outcome of `updateProject`: nothing is written, or the project is saved with a new
name and description and nothing else changed. -/
theorem updateProject_store (s : Store) (user id : Id) (body : ProjectBody) :
    (updateProject s user id body).1 = s ∨
      ∃ (p : Project) (name : String) (description : Option String),
        Project.findById s id = some p ∧ p.isAdmin user = true ∧
        (updateProject s user id body).1 =
          Project.save s { p with name := name, description := description } := by
  unfold updateProject
  split
  · exact Or.inl rfl
  · rename_i p hp
    split
    · exact Or.inl rfl
    · rename_i hA
      have hA1 : p.isAdmin user = true := by simpa using hA
      split <;> split <;> split <;>
        first
          | exact Or.inl rfl
          | exact Or.inr ⟨p, _, _, hp, hA1, rfl⟩

/-- Adding an entry keeps every admin. -/
theorem isAdmin_append (p : Project) (m : Member) (u : Id) (h : p.isAdmin u = true) :
    Project.isAdmin { p with members := p.members ++ [m] } u = true := by
  simp only [Project.isAdmin, List.any_append, Bool.or_eq_true] at h ⊢
  exact Or.inl h

/-- Promoting an entry keeps every admin. -/
theorem isAdmin_set_admin (p : Project) (i : Nat) (member : Member) (u : Id)
    (hi : p.members[i]? = some member) (h : p.isAdmin u = true) :
    Project.isAdmin { p with members := p.members.set i { member with role := Role.admin } } u
      = true := by
  unfold Project.isAdmin at h ⊢
  refine any_set_of_imp _ _ _ _ (fun x hx hq => ?_) h
  have hxm : x = member := by rw [hi] at hx; exact (Option.some.inj hx).symm
  subst hxm
  simp only [Bool.and_eq_true, beq_iff_eq] at hq ⊢
  simp [hq.1]

/-- Removing an entry of another user keeps the admin status of `u`. -/
theorem isAdmin_eraseIdx (p : Project) (i : Nat) (member : Member) (u : Id)
    (hi : p.members[i]? = some member) (hu : member.user.id ≠ u) :
    Project.isAdmin { p with members := p.members.eraseIdx i } u = p.isAdmin u := by
  unfold Project.isAdmin
  refine any_eraseIdx_of_false _ _ _ (fun x hx => ?_)
  have hxm : x = member := by rw [hi] at hx; exact (Option.some.inj hx).symm
  subst hxm
  simp [hu]

/-- The task handlers do not write to the project collection. -/
theorem createTask_projects (s : Store) (user : Id) (body : CreateTaskBody) (now : Nat) :
    (createTask s user body now).1.projects = s.projects := by
  simp only [createTask]
  repeat' split
  all_goals rfl

/-- The task update does not write to the project collection. -/
theorem updateTask_projects (s : Store) (user id : Id) (body : UpdateTaskBody) :
    (updateTask s user id body).1.projects = s.projects := by
  simp only [updateTask, updateTaskSave]
  repeat' split
  all_goals rfl

/-- The status update does not write to the project collection. -/
theorem updateTaskStatus_projects (s : Store) (user id : Id) (body : StatusBody) :
    (updateTaskStatus s user id body).1.projects = s.projects := by
  simp only [updateTaskStatus]
  repeat' split
  all_goals rfl

/-- The task deletion does not write to the project collection. -/
theorem deleteTask_projects (s : Store) (user id : Id) :
    (deleteTask s user id).1.projects = s.projects := by
  simp only [deleteTask]
  repeat' split
  all_goals rfl

/-- Saving a project that satisfies `I` keeps `I` on the collection. -/
theorem projectInvariant_save {I : Project → Prop} {s : Store}
    (hs : ∀ p ∈ s.projects, I p) {p : Project} (hp : I p) :
    ∀ q ∈ (Project.save s p).projects, I q := by
  intro q hq
  simp only [Project.save, List.mem_map] at hq
  obtain ⟨q0, hq0, rfl⟩ := hq
  split
  · exact hp
  · exact hs q0 hq0

/-- Every request keeps a project invariant on the collection. -/
theorem projectInvariant_handle {I : Project → Prop} (hI : ProjectInvariant I) {s : Store}
    (hs : ∀ p ∈ s.projects, I p) (r : Request) : ∀ p ∈ (handle s r).1.projects, I p := by
  cases r with
  | createProject user body now =>
    simp only [TaskManager.handle, createProject]
    split
    · exact hs
    · split
      · exact hs
      · intro p hp
        simp only [List.mem_append, List.mem_singleton] at hp
        rcases hp with hp | rfl
        · exact hs p hp
        · exact hI.create _ _ _ _ _
  | updateProject user id body =>
    simp only [TaskManager.handle]
    rcases updateProject_store s user id body with h | ⟨p, name, description, hp, _, h⟩
    · rw [h]; exact hs
    · rw [h]
      exact projectInvariant_save hs (hI.update p name description (hs p (mem_of_findById hp).1))
  | deleteProject user id =>
    simp only [TaskManager.handle, deleteProject]
    split
    · exact hs
    · split
      · exact hs
      · intro p hp
        simp only [Project.deleteOne, Task.deleteMany, List.mem_filter] at hp
        exact hs p hp.1
  | addMember user projectId body now =>
    simp only [TaskManager.handle, behindAdmin]
    split
    · exact hs
    · rename_i project hok
      obtain ⟨id, _, hfind, _⟩ := checkProjectAdmin_ok hok
      have hmem : project ∈ s.projects := (mem_of_findById hfind).1
      rcases addMember_store s project body now with h | ⟨a, _, hnone, h⟩
      · rw [h]; exact hs
      · rw [h]; exact projectInvariant_save hs (hI.add project a._id now (hs project hmem) hnone)
  | promoteMember user projectId userId =>
    simp only [TaskManager.handle, behindAdmin]
    split
    · exact hs
    · rename_i project hok
      obtain ⟨id, _, hfind, _⟩ := checkProjectAdmin_ok hok
      have hmem : project ∈ s.projects := (mem_of_findById hfind).1
      rcases promoteMember_store s project userId with h | ⟨i, m, hi, _, h⟩
      · rw [h]; exact hs
      · rw [h]; exact projectInvariant_save hs (hI.promote project i m (hs project hmem) hi)
  | removeMember user projectId userId =>
    simp only [TaskManager.handle, behindAdmin]
    split
    · exact hs
    · rename_i project hok
      obtain ⟨id, _, hfind, _⟩ := checkProjectAdmin_ok hok
      have hmem : project ∈ s.projects := (mem_of_findById hfind).1
      rcases removeMember_store s project userId with h | ⟨i, m, hi, hu, hne, h⟩
      · rw [h]; exact hs
      · rw [h]
        exact projectInvariant_save hs
          (hI.remove project i m (hs project hmem) hi (by rw [hu]; exact Ne.symm hne))
  | createTask user body now =>
    simp only [TaskManager.handle, behindAdmin]
    split
    · exact hs
    · rw [createTask_projects]; exact hs
  | updateTask user id body =>
    simp only [TaskManager.handle]; rw [updateTask_projects]; exact hs
  | updateTaskStatus user id body =>
    simp only [TaskManager.handle]; rw [updateTaskStatus_projects]; exact hs
  | deleteTask user id =>
    simp only [TaskManager.handle]; rw [deleteTask_projects]; exact hs

/-- A project invariant holds of every project of every reachable store. -/
theorem projectInvariant_of_reachable {I : Project → Prop} (hI : ProjectInvariant I)
    {s : Store} (h : Reachable s) : ∀ p ∈ s.projects, I p := by
  induction h with
  | init users nextId => intro p hp; simp at hp
  | step r _ ih => exact projectInvariant_handle hI ih r

/-- Having the creator as an admin is a project invariant. -/
theorem creatorAdmin_invariant : ProjectInvariant fun p => p.isAdmin p.createdBy = true where
  create := by intros; simp [Project.isAdmin, UserRef.id]
  add := fun p a now h _ => isAdmin_append p _ _ h
  promote := fun p i m h hi => isAdmin_set_admin p i m _ hi h
  remove := fun p i m h hi hne => by
    have := isAdmin_eraseIdx p i m p.createdBy hi hne
    simpa [this] using h
  update := fun p name description h => by simpa [Project.isAdmin] using h

/-- Having only bare member references is a project invariant. -/
theorem unpopulated_invariant :
    ProjectInvariant fun p => ∀ m ∈ p.members, ∃ i : Id, m.user = UserRef.bare i where
  create := by
    intro id name description user now m hm
    simp only [List.mem_singleton] at hm
    exact ⟨user, by rw [hm]⟩
  add := by
    intro p a now h _ m hm
    simp only [List.mem_append, List.mem_singleton] at hm
    rcases hm with hm | rfl
    · exact h m hm
    · exact ⟨a, rfl⟩
  promote := by
    intro p i m h hi x hx
    rcases List.mem_or_eq_of_mem_set hx with hx | rfl
    · exact h x hx
    · exact h m (List.getElem?_mem hi)
  remove := by
    intro p i m h _ _ x hx
    exact h x (List.eraseIdx_subset _ _ hx)
  update := fun p name description h => h

/-- Every request keeps the creator invariant. -/
theorem creatorAdmin_handle {s : Store} (hs : CreatorAdmin s) (r : Request) :
    CreatorAdmin (handle s r).1 :=
  projectInvariant_handle creatorAdmin_invariant hs r

/-- Member references are bare in every reachable store. -/
theorem unpopulated_of_reachable {s : Store} (h : Reachable s) : Unpopulated s :=
  projectInvariant_of_reachable unpopulated_invariant h

/-- The creator invariant holds along every sequence of requests. -/
theorem creatorAdmin_run {s : Store} (hs : CreatorAdmin s) (rs : List Request) :
    CreatorAdmin (run s rs) := by
  induction rs generalizing s with
  | nil => exact hs
  | cons r rs ih => exact ih (creatorAdmin_handle hs r)

/-- The creator invariant holds in every reachable store. -/
theorem creatorAdmin_of_reachable {s : Store} (h : Reachable s) : CreatorAdmin s := by
  induction h with
  | init users nextId => intro p hp; simp at hp
  | step r _ ih => exact creatorAdmin_handle ih r

/-- Running requests from a reachable store gives a reachable store. -/
theorem reachable_run {s : Store} (h : Reachable s) (rs : List Request) :
    Reachable (run s rs) := by
  induction rs generalizing s with
  | nil => exact h
  | cons r rs ih => exact ih (Reachable.step r h)

/-- The scenario store is reachable. -/
theorem demoStore_reachable : Reachable demoStore :=
  reachable_run (Reachable.init demoUsers 10) demoSetup

/-! ## Claims -/

/-- C1. Creator invariant: a successful `createProject` appends a project whose members
list is exactly the single entry of the creator with role admin; from any store in which
every project has its creator as admin, every sequence of requests (by any callers, of any
kind, in particular `addMember`, `promoteMember`, `removeMember` and `updateProject`) leads
to a store in which every project still has its creator in `members` with role admin; so
this holds in every reachable store, and every project has at least one admin. -/
theorem creator_always_admin :
    (∀ (s : Store) (user : Id) (body : ProjectBody) (now : Nat),
      (createProject s user body now).2.success = true →
        ∃ P : Project, (createProject s user body now).2.data = Payload.project P ∧
          (createProject s user body now).1.projects = s.projects ++ [P] ∧
          P.createdBy = user ∧
          P.members = [{ user := UserRef.bare user, role := Role.admin, addedAt := now }] ∧
          P.isAdmin P.createdBy = true) ∧
    (∀ (s : Store), (∀ P ∈ s.projects, P.isAdmin P.createdBy = true) →
      ∀ (rs : List Request), ∀ P ∈ (run s rs).projects,
        P.isAdmin P.createdBy = true ∧
          ∃ m ∈ P.members, m.user.id = P.createdBy ∧ m.role = Role.admin) ∧
    (∀ (s : Store), Reachable s → ∀ P ∈ s.projects, P.isAdmin P.createdBy = true) := by
  refine ⟨?_, ?_, ?_⟩
  · intro s user body now h
    simp only [createProject] at h ⊢
    split at h
    · simp [reject] at h
    · split at h
      · simp [reject] at h
      · rename_i h1 h2
        simp only [h1, h2, if_false, Bool.false_eq_true]
        exact ⟨_, rfl, rfl, rfl, rfl, by simp [Project.isAdmin, UserRef.id]⟩
  · intro s hs rs P hP
    have h := creatorAdmin_run hs rs P hP
    exact ⟨h, (isAdmin_eq_true_iff P P.createdBy).1 h⟩
  · intro s hs
    exact creatorAdmin_of_reachable hs

/-- C1, on the scenario: the project Alice created still has her as admin after Bob was
added and a task was created. -/
theorem creator_always_admin_witness :
    Reachable demoStore ∧ demoProject.isAdmin demoProject.createdBy = true :=
  ⟨demoStore_reachable,
    creator_always_admin.2.2 demoStore demoStore_reachable demoProject (by decide)⟩

/-- C2. `isMember(P, u)` is true exactly when some member entry, with its user reference
normalised to the bare id (`_id` of a populated reference, the reference itself
otherwise), has id `u`; so two copies of a members list that carry the same ids, one
populated and one not, give the same result. -/
theorem isMember_iff_normalised_entry (P : Project) (u : Id) :
    (P.isMember u = true ↔ ∃ m ∈ P.members, m.user.id = u) ∧
    (∀ (v : User), (UserRef.populated v).id = v._id) ∧ (∀ (i : Id), (UserRef.bare i).id = i) ∧
    (∀ Q : Project,
      Q.members.map (fun m => m.user.id) = P.members.map (fun m => m.user.id) →
        Q.isMember u = P.isMember u) := by
  refine ⟨isMember_eq_true_iff P u, fun _ => rfl, fun _ => rfl, ?_⟩
  intro Q h
  have key : ∀ l : List Member,
      l.any (fun member => member.user.id == u)
        = (l.map (fun m => m.user.id)).any (fun i => i == u) := by
    intro l
    induction l with
    | nil => rfl
    | cons a t ih => simp only [List.any_cons, List.map_cons, ih]
  unfold Project.isMember
  rw [key Q.members, key P.members, h]

/-- C2, on a populated copy of the members list of the scenario project. -/
theorem isMember_iff_normalised_entry_witness :
    Project.isMember
        ⟨10, "Apollo", none, 1,
          [⟨UserRef.populated ⟨1, "Alice", "alice@example.com"⟩, Role.admin, 100⟩,
            ⟨UserRef.populated ⟨2, "Bob", "bob@example.com"⟩, Role.member, 101⟩], 100⟩ 2
      = demoProject.isMember 2 :=
  (isMember_iff_normalised_entry demoProject 2).2.2.2 _ (by decide)

/-- C3. `isAdmin(P, u)` is true exactly when some member entry has user id `u` and role
admin; an admin is a member; a member all of whose entries have role member is not an
admin. -/
theorem isAdmin_iff_admin_entry (P : Project) (u : Id) :
    (P.isAdmin u = true ↔ ∃ m ∈ P.members, m.user.id = u ∧ m.role = Role.admin) ∧
    (P.isAdmin u = true → P.isMember u = true) ∧
    (P.isMember u = true → (∀ m ∈ P.members, m.user.id = u → m.role = Role.member) →
      P.isAdmin u = false) := by
  refine ⟨isAdmin_eq_true_iff P u, isMember_of_isAdmin P u, ?_⟩
  intro _ hall
  cases h : P.isAdmin u with
  | false => rfl
  | true =>
    obtain ⟨m, hm, hu, hr⟩ := (isAdmin_eq_true_iff P u).1 h
    have := hall m hm hu
    rw [hr] at this
    cases this

/-- C3, on the scenario project: Alice is admin and hence member; Bob is a member with
role member and hence not an admin. -/
theorem isAdmin_iff_admin_entry_witness :
    demoProject.isMember 1 = true ∧ demoProject.isAdmin 2 = false :=
  ⟨(isAdmin_iff_admin_entry demoProject 1).2.1 (by decide),
    (isAdmin_iff_admin_entry demoProject 2).2.2 (by decide) (by decide)⟩

/-! ## Lookups after a write -/

/-- After a task is saved, looking up its id returns the saved document. -/
theorem task_findById_save {s : Store} {id : Id} {T t : Task}
    (hT : Task.findById s id = some T) (ht : t._id = id) :
    Task.findById (Task.save s t) id = some t := by
  have key : ∀ l : List Task, l.find? (fun q => q._id == id) = some T →
      (l.map fun q => if q._id == t._id then t else q).find? (fun q => q._id == id) = some t := by
    intro l
    induction l with
    | nil => intro h; simp at h
    | cons x xs ih =>
      intro h
      rw [List.find?_cons] at h
      rw [List.map_cons, List.find?_cons]
      by_cases hx : x._id = id
      · simp [hx, ht]
      · have hx1 : (x._id == id) = false := by simpa using hx
        have hx2 : (x._id == t._id) = false := by simpa [ht] using hx
        rw [hx1] at h
        simp only [hx2, hx1, Bool.false_eq_true, if_false]
        exact ih h
  exact key s.tasks hT

/-- A task found by id is a document of the collection with that id. -/
theorem mem_of_task_findById {s : Store} {id : Id} {T : Task} (h : Task.findById s id = some T) :
    T ∈ s.tasks ∧ T._id = id := by
  unfold Task.findById at h
  exact ⟨List.mem_of_find?_eq_some h, by simpa using List.find?_some h⟩

/-! ## Claims on task updates -/

/-- C4, as stated, fails: in the reachable scenario store Bob (id 2) is the assignee of
task 11 and not an admin of its project 10, his `updateTask` request carries an
`assignToEmail`, and the answer is a success (200), not 403; the task stays assigned to
him. -/
theorem updateTask_reassign_by_assignee_succeeds :
    Reachable demoStore ∧
    (Task.findById demoStore 11).map (fun T => T.assignedTo) = some 2 ∧
    (Project.findById demoStore 10).map (fun P => P.isAdmin 2) = some false ∧
    (updateTask demoStore 2 11 ⟨none, none, some "alice@example.com"⟩).2.status = 200 ∧
    (updateTask demoStore 2 11 ⟨none, none, some "alice@example.com"⟩).2.success = true ∧
    (Task.findById (updateTask demoStore 2 11 ⟨none, none, some "alice@example.com"⟩).1 11).map
      (fun T => T.assignedTo) = some 2 :=
  ⟨demoStore_reachable, by decide⟩

/-- C4, amended. For an existing task `T` of an existing project `P` and a caller `B` who
is the assignee of `T` and not an admin of `P`, an `updateTask` request that carries an
`assignToEmail` is never answered with 403: the reassignment is ignored. The stored task
keeps `assignedTo = B`, and when the supplied title, if any, is not blank the answer is
the success response 200 carrying the task with its new title and description. -/
theorem updateTask_by_assignee_ignores_reassignment (s : Store) (B id : Id)
    (body : UpdateTaskBody) (T : Task) (P : Project)
    (hT : Task.findById s id = some T) (hP : Project.findById s T.project = some P)
    (hB : T.assignedTo = B) (hA : P.isAdmin B = false)
    (_hE : falsy body.assignToEmail = false) :
    (updateTask s B id body).2.status ≠ 403 ∧
    (∃ T1, Task.findById (updateTask s B id body).1 id = some T1 ∧ T1.assignedTo = B) ∧
    ((falsy body.title = true ∨ trim (body.title.getD "") ≠ "") →
      (updateTask s B id body).2.status = 200 ∧ (updateTask s B id body).2.success = true ∧
      ∃ T1, (updateTask s B id body).2.data = Payload.task T1 ∧
        Task.findById (updateTask s B id body).1 id = some T1 ∧
        T1.assignedTo = B ∧
        T1.title = (if falsy body.title then T.title else trim (body.title.getD "")) ∧
        T1.description = (match body.description with
          | none => T.description
          | some d => some (trim d)) ∧
        T1.status = T.status ∧ T1.project = T.project ∧ T1.createdBy = T.createdBy) := by
  have hid : T._id = id := (mem_of_task_findById hT).2
  have hown : (T.assignedTo == B) = true := by simp [hB]
  simp only [updateTask, hT, hP, hA, hown, updateTaskSave]
  simp only [Bool.not_false, Bool.not_true, Bool.and_false, Bool.false_eq_true, if_false]
  by_cases hv : (!falsy body.title && trim (body.title.getD "") == "") = true
  · simp only [hv, if_true]
    refine ⟨by simp [reject], ⟨T, hT, hB⟩, ?_⟩
    intro h
    exfalso
    simp only [Bool.and_eq_true, Bool.not_eq_true', beq_iff_eq] at hv
    rcases h with h | h
    · rw [hv.1] at h; cases h
    · exact h hv.2
  · simp only [hv, if_false]
    have hsave : ∀ t : Task, t._id = id → t.assignedTo = B →
        Task.findById (Task.save s t) id = some t := fun t ht _ => task_findById_save hT ht
    cases hd : body.description <;> cases hf : falsy body.title <;>
      simp only [if_true, if_false, Bool.false_eq_true] <;>
      refine ⟨by decide, ⟨_, hsave _ hid hB, hB⟩, fun _ => ?_⟩
    all_goals exact ⟨trivial, trivial, _, rfl, hsave _ hid hB, hB, rfl, rfl, rfl, rfl, rfl⟩

/-- C4 amended, on the scenario: Bob renames his task while asking for a reassignment to
Alice; the answer is 200, the title changes and the task stays his. -/
theorem updateTask_by_assignee_ignores_reassignment_witness :
    (updateTask demoStore 2 11 ⟨some "Draft", none, some "alice@example.com"⟩).2.status ≠ 403 ∧
    (∃ T1, Task.findById
        (updateTask demoStore 2 11 ⟨some "Draft", none, some "alice@example.com"⟩).1 11 = some T1 ∧
      T1.assignedTo = 2) :=
  let h := updateTask_by_assignee_ignores_reassignment demoStore 2 11
    ⟨some "Draft", none, some "alice@example.com"⟩
    demoTask demoProject
    (by decide) (by decide) (by decide) (by decide) (by decide)
  ⟨h.1, h.2.1⟩

/-! ## Claims on membership gating and status updates -/

/-- The scenario after Alice has removed Bob from the project: task 11 is still assigned to
Bob, who is no longer a member. -/
theorem demoStale_reachable : Reachable demoStale :=
  reachable_run demoStore_reachable [Request.removeMember 1 10 2]

/-- C5, as stated, fails: in the reachable store where Bob (id 2) has been removed from
project 10 while task 11 is still assigned to him, Bob is not a member of the project of
the task, yet his `updateTaskStatus`, `updateTask` and `deleteTask` requests succeed and
change the task. -/
theorem non_member_assignee_still_acts :
    Reachable demoStale ∧
    (Task.findById demoStale 11).map (fun T => (T.project, T.assignedTo, T.status))
      = some (10, 2, "todo") ∧
    (Project.findById demoStale 10).map (fun P => P.isMember 2) = some false ∧
    (updateTaskStatus demoStale 2 11 ⟨some "done"⟩).2.success = true ∧
    (Task.findById (updateTaskStatus demoStale 2 11 ⟨some "done"⟩).1 11).map (fun T => T.status)
      = some "done" ∧
    (updateTask demoStale 2 11 ⟨some "Mine", none, none⟩).2.success = true ∧
    (Task.findById (updateTask demoStale 2 11 ⟨some "Mine", none, none⟩).1 11).map
      (fun T => T.title) = some "Mine" ∧
    (deleteTask demoStale 2 11).2.success = true ∧
    Task.findById (deleteTask demoStale 2 11).1 11 = none :=
  ⟨demoStale_reachable, by decide⟩

/-- C5, amended. For an existing task `T` of an existing project `P` and a user `u` who is
not a member of `P`: `getTask` by `u` is rejected with 403; and when `u` is moreover not
the assignee of `T`, `updateTask` and `deleteTask` by `u` are rejected with 403 and
`updateTaskStatus` by `u` is rejected (400 or 403), each leaving the store unchanged. -/
theorem non_member_non_assignee_rejected (s : Store) (u id : Id) (T : Task) (P : Project)
    (hT : Task.findById s id = some T) (hP : Project.findById s T.project = some P)
    (hM : P.isMember u = false) :
    (getTask s u id).status = 403 ∧ (getTask s u id).success = false ∧
    (T.assignedTo ≠ u →
      (∀ body, (updateTask s u id body).1 = s ∧ (updateTask s u id body).2.status = 403 ∧
        (updateTask s u id body).2.success = false) ∧
      (∀ body, (updateTaskStatus s u id body).1 = s ∧
        ((updateTaskStatus s u id body).2.status = 400 ∨
          (updateTaskStatus s u id body).2.status = 403) ∧
        (updateTaskStatus s u id body).2.success = false) ∧
      ((deleteTask s u id).1 = s ∧ (deleteTask s u id).2.status = 403 ∧
        (deleteTask s u id).2.success = false)) := by
  have hA : P.isAdmin u = false := by
    cases h : P.isAdmin u with
    | false => rfl
    | true => rw [isMember_of_isAdmin P u h] at hM; cases hM
  refine ⟨by simp [getTask, hT, hP, hM, reject], by simp [getTask, hT, hP, hM, reject], ?_⟩
  intro hne
  have hown : (T.assignedTo == u) = false := by simpa using hne
  have hown2 : (T.assignedTo != u) = true := by simpa using hne
  refine ⟨?_, ?_, ?_⟩
  · intro body
    simp [updateTask, hT, hP, hA, hown, reject]
  · intro body
    simp only [updateTaskStatus]
    split
    · simp [reject]
    · split
      · simp [reject]
      · simp [hT, hown2, reject]
  · simp [deleteTask, hT, hP, hA, hown, reject]

/-- C5 amended, on the scenario: Carol (id 3), who never joined project 10, is rejected
with 403 when reading task 11 and when deleting it. -/
theorem non_member_non_assignee_rejected_witness :
    (getTask demoStore 3 11).status = 403 ∧ (deleteTask demoStore 3 11).2.status = 403 :=
  let h := non_member_non_assignee_rejected demoStore 3 11
    demoTask demoProject
    (by decide) (by decide) (by decide)
  ⟨h.1, (h.2.2 (by decide)).2.2.2.1⟩

/-- C6. For an existing task `T`, a caller `c` and a status `st` among todo, in-progress
and done, `updateTaskStatus` succeeds exactly when `c` is the assignee of `T`. Any other
caller, whatever their role in the project of `T` (admin, creator), is rejected with 403
and the store, hence the status of `T`, is unchanged. On success the answer is 200 and the
stored task is `T` with status `st`. -/
theorem updateTaskStatus_assignee_only (s : Store) (c id : Id) (st : String) (T : Task)
    (hT : Task.findById s id = some T) (hst : st ∈ validStatuses) :
    ((updateTaskStatus s c id ⟨some st⟩).2.success = true ↔ c = T.assignedTo) ∧
    (c ≠ T.assignedTo →
      (updateTaskStatus s c id ⟨some st⟩).2.status = 403 ∧
      (updateTaskStatus s c id ⟨some st⟩).1 = s ∧
      Task.findById (updateTaskStatus s c id ⟨some st⟩).1 id = some T) ∧
    (c = T.assignedTo →
      (updateTaskStatus s c id ⟨some st⟩).2.status = 200 ∧
      (updateTaskStatus s c id ⟨some st⟩).2.data = Payload.task { T with status := st } ∧
      Task.findById (updateTaskStatus s c id ⟨some st⟩).1 id = some { T with status := st }) := by
  have hne : st ≠ "" := by
    rintro rfl
    simp [validStatuses] at hst
  have hfalsy : falsy (some st) = false := by simpa [falsy] using hne
  have hvalid : validStatuses.contains st = true := by simpa using hst
  have hid : T._id = id := (mem_of_task_findById hT).2
  simp only [updateTaskStatus, hfalsy, hvalid, hT, Option.getD_some, Bool.not_true,
    Bool.false_eq_true, if_false]
  by_cases hc : c = T.assignedTo
  · have h1 : (T.assignedTo != c) = false := by simp [hc]
    simp only [h1, Bool.false_eq_true, if_false]
    refine ⟨by simp [hc], fun h => absurd hc h, fun _ => ⟨trivial, trivial, ?_⟩⟩
    exact task_findById_save hT hid
  · have h1 : (T.assignedTo != c) = true := by simpa using Ne.symm hc
    simp only [h1, if_true]
    exact ⟨by simp [reject, hc], fun _ => ⟨rfl, trivial, hT⟩, fun h => absurd h hc⟩

/-- C6, on the scenario: Alice (id 1), creator and admin of project 10, is rejected with
403 when she changes the status of task 11, which is assigned to Bob. -/
theorem updateTaskStatus_assignee_only_witness :
    (updateTaskStatus demoStore 1 11 ⟨some "done"⟩).2.status = 403 ∧
    (updateTaskStatus demoStore 1 11 ⟨some "done"⟩).1 = demoStore ∧
    Task.findById (updateTaskStatus demoStore 1 11 ⟨some "done"⟩).1 11
      = some demoTask :=
  (updateTaskStatus_assignee_only demoStore 1 11 "done" demoTask (by decide) (by decide)).2.1
    (by decide)

/-! ## Claims on task creation and project deletion -/

/-- C7. `createTask` behind `checkProjectAdmin`: the store changes or the answer is a
success only if the caller is an admin of the named project and `assignToEmail` resolves
to a user who is a member of that project, and then exactly one task is appended, assigned
to that user, with status todo. When the resolved assignee is not a member of the named
project the request fails and the store is unchanged, with 400 once the admin check has
passed. A caller who is not an admin of the named project is rejected with 403 and the
store is unchanged. -/
theorem createTask_admin_and_member_assignee (s : Store) (user : Id) (body : CreateTaskBody)
    (now : Nat) :
    (((handle s (Request.createTask user body now)).1 ≠ s ∨
        (handle s (Request.createTask user body now)).2.success = true) →
      ∃ (pid : Id) (P : Project) (a : User) (task : Task),
        body.project = some pid ∧ Project.findById s pid = some P ∧ P.isAdmin user = true ∧
        User.findOne s (body.assignToEmail.getD "") = some a ∧ P.isMember a._id = true ∧
        (handle s (Request.createTask user body now)).1.tasks = s.tasks ++ [task] ∧
        (handle s (Request.createTask user body now)).1.projects = s.projects ∧
        (handle s (Request.createTask user body now)).2.status = 201 ∧
        task.project = pid ∧ task.assignedTo = a._id ∧ task.createdBy = user ∧
        task.status = "todo") ∧
    (∀ (pid : Id) (P : Project) (a : User),
      body.project = some pid → Project.findById s pid = some P →
      User.findOne s (body.assignToEmail.getD "") = some a → P.isMember a._id = false →
        (handle s (Request.createTask user body now)).1 = s ∧
        (handle s (Request.createTask user body now)).2.success = false ∧
        (P.isAdmin user = true →
          (handle s (Request.createTask user body now)).2.status = 400)) ∧
    (∀ (pid : Id) (P : Project),
      body.project = some pid → Project.findById s pid = some P → P.isAdmin user = false →
        (handle s (Request.createTask user body now)).1 = s ∧
        (handle s (Request.createTask user body now)).2.status = 403 ∧
        (handle s (Request.createTask user body now)).2.success = false) := by
  refine ⟨?_, ?_, ?_⟩
  · intro h
    simp only [handle, behindAdmin, checkProjectAdmin, createTask] at h ⊢
    cases hp : body.project with
    | none => simp [hp, reject] at h
    | some pid =>
      simp only [hp] at h ⊢
      cases hP : Project.findById s pid with
      | none => simp [hP, reject] at h
      | some P =>
        simp only [hP] at h ⊢
        cases hA : P.isAdmin user with
        | false => simp [hA, reject] at h
        | true =>
          simp only [hA, Bool.not_true, Bool.false_eq_true, if_false] at h ⊢
          by_cases hf : (falsy body.title || falsy body.assignToEmail) = true
          · simp [hf, reject] at h
          · simp only [hf, if_false] at h ⊢
            cases ha : User.findOne s (body.assignToEmail.getD "") with
            | none => simp [ha, reject] at h
            | some a =>
              simp only [ha] at h ⊢
              cases hM : P.isMember a._id with
              | false => simp [hM, reject] at h
              | true =>
                simp only [hM, Bool.not_true, Bool.false_eq_true, if_false] at h ⊢
                by_cases ht : (trim (body.title.getD "") == "") = true
                · simp [ht, reject] at h
                · simp only [ht, if_false]
                  exact ⟨pid, P, a, _, rfl, hP, hA, rfl, hM, rfl, rfl, rfl, rfl, rfl, rfl, rfl⟩
  · intro pid P a hp hP ha hM
    simp only [handle, behindAdmin, checkProjectAdmin, createTask, hp, hP]
    cases hA : P.isAdmin user with
    | false => simp [reject]
    | true =>
      simp only [Bool.not_true, Bool.false_eq_true, if_false]
      by_cases hf : (falsy body.title || falsy body.assignToEmail) = true
      · simp [hf, reject]
      · simp [hf, ha, hM, reject]
  · intro pid P hp hP hA
    simp [handle, behindAdmin, checkProjectAdmin, hp, hP, hA, reject]

/-- C7, on the scenario: Alice, admin of project 10, cannot assign a task to Carol, who is
not a member (400, store unchanged), and Bob, a plain member, cannot create a task (403,
store unchanged). -/
theorem createTask_admin_and_member_assignee_witness :
    ((handle demoStore
        (Request.createTask 1 ⟨some "Plan", none, some 10, some "carol@example.com"⟩ 103)).1
        = demoStore ∧
      (handle demoStore
        (Request.createTask 1 ⟨some "Plan", none, some 10, some "carol@example.com"⟩ 103)).2.status
        = 400) ∧
    ((handle demoStore
        (Request.createTask 2 ⟨some "Plan", none, some 10, some "bob@example.com"⟩ 103)).1
        = demoStore ∧
      (handle demoStore
        (Request.createTask 2 ⟨some "Plan", none, some 10, some "bob@example.com"⟩ 103)).2.status
        = 403) :=
  let hA := (createTask_admin_and_member_assignee demoStore 1
    ⟨some "Plan", none, some 10, some "carol@example.com"⟩ 103).2.1 10 demoProject
    ⟨3, "Carol", "carol@example.com"⟩ (by decide) (by decide) (by decide) (by decide)
  let hB := (createTask_admin_and_member_assignee demoStore 2
    ⟨some "Plan", none, some 10, some "bob@example.com"⟩ 103).2.2 10 demoProject
    (by decide) (by decide) (by decide)
  ⟨⟨hA.1, hA.2.2 (by decide)⟩, ⟨hB.1, hB.2.1⟩⟩

/-- C8. `deleteProject` on an unknown id is rejected with 404. On an existing project `P`
it succeeds exactly when the caller is `P.createdBy`; any other caller, admin of `P` or
not, is rejected with 403 and the store (projects and tasks) is unchanged. -/
theorem deleteProject_creator_only (s : Store) (c id : Id) :
    (Project.findById s id = none →
      (deleteProject s c id).2.status = 404 ∧ (deleteProject s c id).2.success = false ∧
      (deleteProject s c id).1 = s) ∧
    (∀ P : Project, Project.findById s id = some P →
      ((deleteProject s c id).2.success = true ↔ c = P.createdBy) ∧
      (c ≠ P.createdBy →
        (deleteProject s c id).2.status = 403 ∧ (deleteProject s c id).1 = s) ∧
      (P.isAdmin c = true → c ≠ P.createdBy →
        (deleteProject s c id).2.status = 403 ∧
        (deleteProject s c id).1.projects = s.projects ∧
        (deleteProject s c id).1.tasks = s.tasks) ∧
      (c = P.createdBy → (deleteProject s c id).2.status = 200)) := by
  refine ⟨?_, ?_⟩
  · intro h
    simp [deleteProject, h, reject]
  · intro P hP
    by_cases hc : c = P.createdBy
    · have h1 : (P.createdBy != c) = false := by simp [hc]
      simp [deleteProject, hP, h1, hc]
    · have h1 : (P.createdBy != c) = true := by simpa using Ne.symm hc
      simp [deleteProject, hP, h1, hc, reject]

/-- C8, on the scenario after Bob has been promoted to admin: Bob, admin but not creator of
project 10, is rejected with 403 and nothing is deleted, and an unknown project id gives
404. -/
theorem deleteProject_creator_only_witness :
    ((deleteProject demoPromoted 2 10).2.status = 403 ∧
      (deleteProject demoPromoted 2 10).1.projects = demoPromoted.projects ∧
      (deleteProject demoPromoted 2 10).1.tasks = demoPromoted.tasks) ∧
    (deleteProject demoPromoted 2 99).2.status = 404 :=
  ⟨((deleteProject_creator_only demoPromoted 2 10).2
      ⟨10, "Apollo", none, 1,
        [⟨UserRef.bare 1, Role.admin, 100⟩, ⟨UserRef.bare 2, Role.admin, 101⟩], 100⟩
      (by decide)).2.2.1 (by decide) (by decide),
    ((deleteProject_creator_only demoPromoted 2 99).1 (by decide)).1⟩

/-! ## Uniqueness of document ids -/

/-- A request that writes nothing. -/
theorem idsStep_refl (s : Store) : IdsStep s s :=
  Or.inl ⟨rfl, List.Sublist.refl _, List.Sublist.refl _⟩

/-- Saving a project keeps the ids of the collection. -/
theorem project_save_ids (s : Store) (p : Project) :
    (Project.save s p).projects.map (fun q => q._id) = s.projects.map (fun q => q._id) := by
  simp only [Project.save, List.map_map]
  apply List.map_congr_left
  intro q _
  simp only [Function.comp]
  split
  · rename_i h; exact (beq_iff_eq.1 h).symm
  · rfl

/-- Saving a task keeps the ids of the collection. -/
theorem task_save_ids (s : Store) (t : Task) :
    (Task.save s t).tasks.map (fun q => q._id) = s.tasks.map (fun q => q._id) := by
  simp only [Task.save, List.map_map]
  apply List.map_congr_left
  intro q _
  simp only [Function.comp]
  split
  · rename_i h; exact (beq_iff_eq.1 h).symm
  · rfl

/-- Saving a project is an id-preserving step. -/
theorem idsStep_projectSave (s : Store) (p : Project) : IdsStep s (Project.save s p) :=
  Or.inl ⟨rfl, by rw [project_save_ids], List.Sublist.refl _⟩

/-- Saving a task is an id-preserving step. -/
theorem idsStep_taskSave (s : Store) (t : Task) : IdsStep s (Task.save s t) :=
  Or.inl ⟨rfl, List.Sublist.refl _, by rw [task_save_ids]⟩

/-- Deleting a task only removes ids. -/
theorem idsStep_taskDeleteOne (s : Store) (t : Task) : IdsStep s (Task.deleteOne s t) :=
  Or.inl ⟨rfl, List.Sublist.refl _, (List.filter_sublist _).map _⟩

/-- Deleting a project and its tasks only removes ids. -/
theorem idsStep_projectDelete (s : Store) (p : Project) (id : Id) :
    IdsStep s (Project.deleteOne (Task.deleteMany s id) p) :=
  Or.inl ⟨rfl, (List.filter_sublist _).map _, (List.filter_sublist _).map _⟩

/-- The effect of each request on the ids of the store. -/
theorem idsStep_handle (s : Store) (r : Request) : IdsStep s (handle s r).1 := by
  cases r with
  | createProject user body now =>
    simp only [TaskManager.handle, createProject]
    repeat' split
    · exact idsStep_refl s
    · exact idsStep_refl s
    · exact Or.inr (Or.inl ⟨rfl, by simp, rfl⟩)
  | updateProject user id body =>
    simp only [TaskManager.handle]
    rcases updateProject_store s user id body with h | ⟨p, name, description, _, _, h⟩
    · rw [h]; exact idsStep_refl s
    · rw [h]; exact idsStep_projectSave s _
  | deleteProject user id =>
    simp only [TaskManager.handle, deleteProject]
    repeat' split
    · exact idsStep_refl s
    · exact idsStep_refl s
    · exact idsStep_projectDelete s _ _
  | addMember user projectId body now =>
    simp only [TaskManager.handle, behindAdmin]
    split
    · exact idsStep_refl s
    · rename_i project _
      rcases addMember_store s project body now with h | ⟨a, _, _, h⟩
      · rw [h]; exact idsStep_refl s
      · rw [h]; exact idsStep_projectSave s _
  | promoteMember user projectId userId =>
    simp only [TaskManager.handle, behindAdmin]
    split
    · exact idsStep_refl s
    · rename_i project _
      rcases promoteMember_store s project userId with h | ⟨i, m, _, _, h⟩
      · rw [h]; exact idsStep_refl s
      · rw [h]; exact idsStep_projectSave s _
  | removeMember user projectId userId =>
    simp only [TaskManager.handle, behindAdmin]
    split
    · exact idsStep_refl s
    · rename_i project _
      rcases removeMember_store s project userId with h | ⟨i, m, _, _, _, h⟩
      · rw [h]; exact idsStep_refl s
      · rw [h]; exact idsStep_projectSave s _
  | createTask user body now =>
    simp only [TaskManager.handle, behindAdmin]
    split
    · exact idsStep_refl s
    · simp only [createTask]
      repeat' split
      all_goals first
        | exact idsStep_refl s
        | exact Or.inr (Or.inr ⟨rfl, by simp, rfl⟩)
  | updateTask user id body =>
    simp only [TaskManager.handle, updateTask, updateTaskSave]
    repeat' split
    all_goals first
      | exact idsStep_refl s
      | exact idsStep_taskSave s _
  | updateTaskStatus user id body =>
    simp only [TaskManager.handle, updateTaskStatus]
    repeat' split
    all_goals first
      | exact idsStep_refl s
      | exact idsStep_taskSave s _
  | deleteTask user id =>
    simp only [TaskManager.handle, deleteTask]
    repeat' split
    all_goals first
      | exact idsStep_refl s
      | exact idsStep_taskDeleteOne s _

/-- Appending the next id to a duplicate-free list of smaller ids keeps it duplicate-free. -/
theorem nodup_append_next {α : Type} (f : α → Id) (l : List α) (n : Nat)
    (hn : (l.map f).Nodup) (hlt : ∀ a ∈ l, f a < n) : (l.map f ++ [n]).Nodup := by
  rw [List.nodup_append]
  refine ⟨hn, List.nodup_singleton n, ?_⟩
  intro x hx hx2
  simp only [List.mem_singleton] at hx2
  subst hx2
  obtain ⟨a, ha, rfl⟩ := List.mem_map.1 hx
  exact absurd (hlt a ha) (lt_irrefl _)

/-- Members of a list whose ids form a sublist of bounded ids are bounded. -/
theorem lt_of_map_sublist {α : Type} (f : α → Id) (l1 l2 : List α) (n : Nat)
    (hsub : (l1.map f).Sublist (l2.map f)) (hlt : ∀ a ∈ l2, f a < n) : ∀ a ∈ l1, f a < n := by
  intro a ha
  have : f a ∈ l2.map f := hsub.subset (List.mem_map_of_mem f ha)
  obtain ⟨b, hb, hab⟩ := List.mem_map.1 this
  rw [← hab]
  exact hlt b hb

/-- Ids stay unique across a step. -/
theorem uniqueIds_step {s t : Store} (hs : UniqueIds s) (h : IdsStep s t) : UniqueIds t := by
  obtain ⟨hp, ht, hpl, htl⟩ := hs
  rcases h with ⟨hn, h1, h2⟩ | ⟨hn, h1, h2⟩ | ⟨hn, h1, h2⟩
  · refine ⟨hp.sublist h1, ht.sublist h2, ?_, ?_⟩
    · rw [hn]; exact lt_of_map_sublist _ _ _ _ h1 hpl
    · rw [hn]; exact lt_of_map_sublist _ _ _ _ h2 htl
  · refine ⟨?_, ?_, ?_, ?_⟩
    · rw [h1]; exact nodup_append_next _ _ _ hp hpl
    · rw [h2]; exact ht
    · intro p hp1
      have : p._id ∈ t.projects.map (fun p => p._id) := List.mem_map_of_mem _ hp1
      rw [h1, List.mem_append, List.mem_singleton] at this
      rw [hn]
      rcases this with h | h
      · obtain ⟨b, hb, hab⟩ := List.mem_map.1 h
        have hlt := hpl b hb
        rw [hab] at hlt
        exact Nat.lt_succ_of_lt hlt
      · rw [h]; exact Nat.lt_succ_self _
    · intro q hq
      rw [h2] at hq
      rw [hn]
      exact Nat.lt_succ_of_lt (htl q hq)
  · refine ⟨?_, ?_, ?_, ?_⟩
    · rw [h2]; exact hp
    · rw [h1]; exact nodup_append_next _ _ _ ht htl
    · intro p hp1
      rw [h2] at hp1
      rw [hn]
      exact Nat.lt_succ_of_lt (hpl p hp1)
    · intro q hq
      have : q._id ∈ t.tasks.map (fun q => q._id) := List.mem_map_of_mem _ hq
      rw [h1, List.mem_append, List.mem_singleton] at this
      rw [hn]
      rcases this with h | h
      · obtain ⟨b, hb, hab⟩ := List.mem_map.1 h
        have hlt := htl b hb
        rw [hab] at hlt
        exact Nat.lt_succ_of_lt hlt
      · rw [h]; exact Nat.lt_succ_self _

/-- Ids are unique in every reachable store. -/
theorem uniqueIds_of_reachable {s : Store} (h : Reachable s) : UniqueIds s := by
  induction h with
  | init users nextId => exact ⟨List.nodup_nil, List.nodup_nil, by simp, by simp⟩
  | step r _ ih => exact uniqueIds_step ih (idsStep_handle _ r)

/-! ## Claims on the cascade and on the creator guard -/

/-- A lookup result that passes a filter is still the lookup result after filtering. -/
theorem find?_filter_of_find? {α : Type} (p q : α → Bool) :
    ∀ (l : List α) (a : α), l.find? p = some a → q a = true → (l.filter q).find? p = some a
  | [], _, h, _ => by simp at h
  | x :: xs, a, h, hq => by
    rw [List.find?_cons] at h
    cases hx : p x with
    | true =>
      simp only [hx] at h
      cases h
      simp [List.filter_cons, hq, hx]
    | false =>
      simp only [hx] at h
      have ih := find?_filter_of_find? p q xs a h hq
      cases hqx : q x with
      | true => simp [List.filter_cons, hqx, hx, ih]
      | false => simp [List.filter_cons, hqx, ih]

/-- With unique ids, a lookup by id returns the only document with that id. -/
theorem eq_of_task_findById {s : Store} (hU : UniqueIds s) {id : Id} {T T1 : Task}
    (hT : Task.findById s id = some T) (h1 : T1 ∈ s.tasks) (hid : T1._id = id) : T1 = T := by
  have hT2 := mem_of_task_findById hT
  exact List.inj_on_of_nodup_map hU.2.1 h1 hT2.1 (by rw [hid, hT2.2])

/-- C9. Cascade delete. After the creator of an existing project `P` deletes it, the answer
is 200, `P` is absent from the store, the tasks left are exactly the former tasks that
reference another project (in their former order, unchanged) and the projects left are
exactly the former projects other than `P` (unchanged); so no task of `P` remains, tasks of
other projects and other projects are still found by id, and, ids being unique, `getTask`
on the id of any task that referenced `P` answers 404. -/
theorem deleteProject_cascades (s : Store) (c id : Id) (P : Project)
    (hP : Project.findById s id = some P) (hc : c = P.createdBy) :
    (deleteProject s c id).2.status = 200 ∧
    Project.findById (deleteProject s c id).1 id = none ∧
    (deleteProject s c id).1.projects = s.projects.filter (fun q => q._id != id) ∧
    (deleteProject s c id).1.tasks = s.tasks.filter (fun t => t.project != id) ∧
    (deleteProject s c id).1.users = s.users ∧
    (∀ t ∈ (deleteProject s c id).1.tasks, t.project ≠ id) ∧
    (∀ t ∈ s.tasks, t.project ≠ id → t ∈ (deleteProject s c id).1.tasks) ∧
    (∀ q ∈ s.projects, q._id ≠ id → q ∈ (deleteProject s c id).1.projects) ∧
    (∀ (tid : Id) (T : Task), Task.findById s tid = some T → T.project ≠ id →
      Task.findById (deleteProject s c id).1 tid = some T) ∧
    (∀ (pid : Id) (Q : Project), Project.findById s pid = some Q → pid ≠ id →
      Project.findById (deleteProject s c id).1 pid = some Q) ∧
    (UniqueIds s → ∀ (u tid : Id) (T : Task), Task.findById s tid = some T → T.project = id →
      getTask (deleteProject s c id).1 u tid = reject 404 "Task not found") := by
  have hid : P._id = id := (mem_of_findById hP).2
  have h1 : (P.createdBy != c) = false := by simp [hc]
  have hstore : (deleteProject s c id).1 =
      { s with projects := s.projects.filter (fun q => q._id != id),
               tasks := s.tasks.filter (fun t => t.project != id) } := by
    simp [deleteProject, hP, h1, Project.deleteOne, Task.deleteMany, hid]
  have hstatus : (deleteProject s c id).2.status = 200 := by
    simp [deleteProject, hP, h1]
  rw [hstore]
  refine ⟨hstatus, ?_, rfl, rfl, rfl, ?_, ?_, ?_, ?_, ?_, ?_⟩
  · simp [Project.findById, List.find?_eq_none]
  · intro t ht
    simpa using (List.mem_filter.1 ht).2
  · intro t ht hne
    exact List.mem_filter.2 ⟨ht, by simpa using hne⟩
  · intro q hq hne
    exact List.mem_filter.2 ⟨hq, by simpa using hne⟩
  · intro tid T hT hne
    exact find?_filter_of_find? _ _ _ _ hT (by simpa using hne)
  · intro pid Q hQ hne
    have hQid : Q._id = pid := (mem_of_findById hQ).2
    exact find?_filter_of_find? _ _ _ _ hQ (by simpa [hQid] using hne)
  · intro hU u tid T hT hTp
    have hnone : Task.findById
        { s with projects := s.projects.filter (fun q => q._id != id),
                 tasks := s.tasks.filter (fun t => t.project != id) } tid = none := by
      simp only [Task.findById, List.find?_eq_none, List.mem_filter]
      intro x hx hxid
      have hxT : x = T := eq_of_task_findById hU hT hx.1 (by simpa using hxid)
      rw [hxT, hTp] at hx
      simp at hx
    simp [getTask, hnone]

/-- C9, on the scenario: after Alice deletes project 10, reading task 11 answers 404. -/
theorem deleteProject_cascades_witness :
    Project.findById (deleteProject demoStore 1 10).1 10 = none ∧
    (deleteProject demoStore 1 10).1.tasks = [] ∧
    getTask (deleteProject demoStore 1 10).1 2 11 = reject 404 "Task not found" :=
  let h := deleteProject_cascades demoStore 1 10 demoProject (by decide) (by decide)
  ⟨h.2.1, h.2.2.2.1, h.2.2.2.2.2.2.2.2.2.2 (uniqueIds_of_reachable demoStore_reachable) 2 11
    demoTask (by decide) (by decide)⟩

/-- C10. A `removeMember` request whose target is the creator of an existing project `P`
always fails and leaves the store unchanged, whoever the caller is: a caller who is not an
admin of `P` gets 403, and an admin gets 400 (cannot remove the project creator) whenever
the creator has a member entry, whatever the role of that entry. In every reachable store
the answer is therefore 403 or 400. -/
theorem removeMember_creator_rejected (s : Store) (c pid : Id) (P : Project)
    (hP : Project.findById s pid = some P) :
    (handle s (Request.removeMember c pid P.createdBy)).1 = s ∧
    (handle s (Request.removeMember c pid P.createdBy)).2.success = false ∧
    (P.isAdmin c = false →
      (handle s (Request.removeMember c pid P.createdBy)).2.status = 403) ∧
    (P.isAdmin c = true → ∀ m ∈ P.members, m.user = UserRef.bare P.createdBy →
      (handle s (Request.removeMember c pid P.createdBy)).2
        = reject 400 "Cannot remove the project creator") ∧
    (Reachable s →
      (handle s (Request.removeMember c pid P.createdBy)).2.status = 403 ∨
      (handle s (Request.removeMember c pid P.createdBy)).2.status = 400) := by
  have hform : handle s (Request.removeMember c pid P.createdBy) =
      if P.isAdmin c = true then
        (match P.members.findIdx? (fun m => m.user.toStringEq P.createdBy) with
          | none => (s, reject 404 "User is not a member of this project")
          | some _ => (s, reject 400 "Cannot remove the project creator"))
      else (s, reject 403 "Access denied. Only project admins can perform this action.") := by
    simp only [handle, behindAdmin, checkProjectAdmin, hP]
    cases hA : P.isAdmin c
    · simp
    · simp [removeMember]
  have hadmin : P.isAdmin c = true → ∀ m ∈ P.members, m.user = UserRef.bare P.createdBy →
      handle s (Request.removeMember c pid P.createdBy)
        = (s, reject 400 "Cannot remove the project creator") := by
    intro hA m hm hmu
    rw [hform]
    cases hf : P.members.findIdx? (fun m => m.user.toStringEq P.createdBy) with
    | none =>
      rw [List.findIdx?_eq_none_iff] at hf
      have := hf m hm
      simp [hmu, UserRef.toStringEq] at this
    | some i => simp [hA]
  have hnon : P.isAdmin c = false →
      handle s (Request.removeMember c pid P.createdBy)
        = (s, reject 403 "Access denied. Only project admins can perform this action.") := by
    intro hA
    rw [hform]
    simp [hA]
  have hany : (handle s (Request.removeMember c pid P.createdBy)).1 = s ∧
      (handle s (Request.removeMember c pid P.createdBy)).2.success = false := by
    rw [hform]
    cases hA : P.isAdmin c with
    | false => simp [reject]
    | true =>
      cases hf : P.members.findIdx? (fun m => m.user.toStringEq P.createdBy) with
      | none => simp [reject]
      | some i => simp [reject]
  refine ⟨hany.1, hany.2, ?_, ?_, ?_⟩
  · intro hA
    rw [hnon hA]
    rfl
  · intro hA m hm hmu
    rw [hadmin hA m hm hmu]
  · intro hR
    cases hA : P.isAdmin c with
    | false => left; rw [hnon hA]; rfl
    | true =>
      right
      have hPmem : P ∈ s.projects := (mem_of_findById hP).1
      obtain ⟨m, hm, hmid, _⟩ :=
        (isAdmin_eq_true_iff P P.createdBy).1 (creatorAdmin_of_reachable hR P hPmem)
      obtain ⟨i, hi⟩ := unpopulated_of_reachable hR P hPmem m hm
      have hmu : m.user = UserRef.bare P.createdBy := by
        rw [hi] at hmid ⊢
        simp only [UserRef.id] at hmid
        rw [hmid]
      rw [hadmin hA m hm hmu]
      rfl

/-- C10, on a project whose creator entry has role member: Bob, an admin, asks to remove
the creator Alice and gets 400, and nothing changes. -/
theorem removeMember_creator_rejected_witness :
    (handle demoDemoted (Request.removeMember 2 10 1)).1 = demoDemoted ∧
    (handle demoDemoted (Request.removeMember 2 10 1)).2
      = reject 400 "Cannot remove the project creator" :=
  let h := removeMember_creator_rejected demoDemoted 2 10
    ⟨10, "Apollo", none, 1,
      [⟨UserRef.bare 1, Role.member, 100⟩, ⟨UserRef.bare 2, Role.admin, 101⟩], 100⟩
    (by decide)
  ⟨h.1, h.2.2.2.1 (by decide) ⟨UserRef.bare 1, Role.member, 100⟩ (by decide) (by decide)⟩

/-! ## Canonical member lists -/

/-- On a bare reference the `toString` comparison is the comparison of normalised ids. -/
theorem toStringEq_of_bare {r : UserRef} (h : ∃ i : Id, r = UserRef.bare i) (u : Id) :
    r.toStringEq u = (r.id == u) := by
  obtain ⟨i, rfl⟩ := h
  rfl

/-- On bare references, `find` with the `toString` comparison finds nothing exactly when the
user is not a member. -/
theorem find?_toStringEq_eq_none_iff (p : Project)
    (hB : ∀ m ∈ p.members, ∃ i : Id, m.user = UserRef.bare i) (u : Id) :
    p.members.find? (fun m => m.user.toStringEq u) = none ↔ p.isMember u = false := by
  rw [List.find?_eq_none]
  unfold Project.isMember
  rw [List.any_eq_false]
  constructor
  · intro h m hm
    rw [← toStringEq_of_bare (hB m hm) u]
    exact h m hm
  · intro h m hm
    rw [toStringEq_of_bare (hB m hm) u]
    exact h m hm

/-- Replacing an entry by one with the same image under `f` keeps the list of images. -/
theorem map_set_of_eq {α β : Type} (f : α → β) :
    ∀ (l : List α) (i : Nat) (a b : α), l[i]? = some a → f b = f a →
      (l.set i b).map f = l.map f
  | [], _, _, _, h, _ => by simp at h
  | x :: xs, 0, a, b, h, hf => by
    have hx : x = a := by simpa using h
    simp [hx, hf]
  | x :: xs, i + 1, a, b, h, hf => by
    simp only [List.set_cons_succ, List.map_cons]
    rw [map_set_of_eq f xs i a b (by simpa using h) hf]

/-- Having bare references and no duplicate user id is a project invariant. -/
theorem canonical_invariant : ProjectInvariant Project.Canonical where
  create := by
    intro id name description user now
    refine ⟨?_, by simp⟩
    intro m hm
    simp only [List.mem_singleton] at hm
    exact ⟨user, by rw [hm]⟩
  add := by
    intro p a now h hnone
    refine ⟨?_, ?_⟩
    · intro m hm
      simp only [List.mem_append, List.mem_singleton] at hm
      rcases hm with hm | rfl
      · exact h.1 m hm
      · exact ⟨a, rfl⟩
    · have hnot : p.isMember a = false := (find?_toStringEq_eq_none_iff p h.1 a).1 hnone
      simp only [List.map_append, List.map_cons, List.map_nil, UserRef.id]
      rw [List.nodup_append]
      refine ⟨h.2, List.nodup_singleton a, ?_⟩
      intro x hx hx2
      simp only [List.mem_singleton] at hx2
      subst hx2
      obtain ⟨m, hm, hmx⟩ := List.mem_map.1 hx
      have : p.isMember x = true := (isMember_eq_true_iff p x).2 ⟨m, hm, hmx⟩
      rw [hnot] at this
      cases this
  promote := by
    intro p i m h hi
    refine ⟨?_, ?_⟩
    · intro x hx
      rcases List.mem_or_eq_of_mem_set hx with hx | rfl
      · exact h.1 x hx
      · exact h.1 m (List.getElem?_mem hi)
    · show ((p.members.set i { m with role := Role.admin }).map fun m => m.user.id).Nodup
      rw [map_set_of_eq (fun m : Member => m.user.id) p.members i m
        { user := m.user, role := Role.admin, addedAt := m.addedAt } hi rfl]
      exact h.2
  remove := by
    intro p i m h _ _
    refine ⟨fun x hx => h.1 x (List.eraseIdx_subset _ _ hx), ?_⟩
    exact h.2.sublist ((List.eraseIdx_sublist _ _).map _)
  update := fun p name description h => h

/-- Every project of a reachable store has a canonical member list. -/
theorem canonical_of_reachable {s : Store} (h : Reachable s) :
    ∀ p ∈ s.projects, p.Canonical :=
  projectInvariant_of_reachable canonical_invariant h

/-- Canonical member lists are kept along every sequence of requests. -/
theorem canonical_run {s : Store} (hs : ∀ p ∈ s.projects, p.Canonical) (rs : List Request) :
    ∀ p ∈ (run s rs).projects, p.Canonical := by
  induction rs generalizing s with
  | nil => exact hs
  | cons r rs ih => exact ih (projectInvariant_handle canonical_invariant hs r)

/-- After a project is saved, looking up its id returns the saved document. -/
theorem project_findById_save {s : Store} {id : Id} {P p : Project}
    (hP : Project.findById s id = some P) (hp : p._id = id) :
    Project.findById (Project.save s p) id = some p := by
  have key : ∀ l : List Project, l.find? (fun q => q._id == id) = some P →
      (l.map fun q => if q._id == p._id then p else q).find? (fun q => q._id == id) = some p := by
    intro l
    induction l with
    | nil => intro h; simp at h
    | cons x xs ih =>
      intro h
      rw [List.find?_cons] at h
      rw [List.map_cons, List.find?_cons]
      by_cases hx : x._id = id
      · simp [hx, hp]
      · have hx1 : (x._id == id) = false := by simpa using hx
        have hx2 : (x._id == p._id) = false := by simpa [hp] using hx
        rw [hx1] at h
        simp only [hx2, hx1, Bool.false_eq_true, if_false]
        exact ih h
  exact key s.projects hP

/-- C14. Membership uniqueness: a new project has a single entry; from any store whose
projects have canonical member lists (bare references, pairwise distinct user ids) every
sequence of requests, in particular of `addMember`, `promoteMember`, `removeMember` and
`updateProject`, leads to a store with the same property; so in every reachable store no
two entries of a members list have the same user id. -/
theorem members_user_unique :
    (∀ (s : Store) (user : Id) (body : ProjectBody) (now : Nat),
      ∀ P ∈ (createProject s user body now).1.projects, P ∉ s.projects →
        (P.members.map fun m => m.user.id) = [user]) ∧
    (∀ (s : Store), (∀ P ∈ s.projects, P.Canonical) → ∀ (rs : List Request),
      ∀ P ∈ (run s rs).projects, (P.members.map fun m => m.user.id).Nodup) ∧
    (∀ (s : Store), Reachable s → ∀ P ∈ s.projects,
      (P.members.map fun m => m.user.id).Nodup ∧
      ∀ (i j : Nat) (m n : Member), P.members[i]? = some m → P.members[j]? = some n →
        m.user.id = n.user.id → i = j) := by
  refine ⟨?_, ?_, ?_⟩
  · intro s user body now P hP hnot
    simp only [createProject] at hP
    split at hP
    · exact absurd hP hnot
    · split at hP
      · exact absurd hP hnot
      · simp only [List.mem_append, List.mem_singleton] at hP
        rcases hP with hP | rfl
        · exact absurd hP hnot
        · rfl
  · intro s hs rs P hP
    exact (canonical_run hs rs P hP).2
  · intro s hR P hP
    have hN := (canonical_of_reachable hR P hP).2
    refine ⟨hN, ?_⟩
    intro i j m n hi hj hmn
    have hi1 : (P.members.map fun m => m.user.id)[i]? = some m.user.id := by
      simp [List.getElem?_map, hi]
    have hj1 : (P.members.map fun m => m.user.id)[j]? = some m.user.id := by
      simp [List.getElem?_map, hj, hmn]
    have hil : i < (P.members.map fun m => m.user.id).length := by
      by_contra hc
      rw [List.getElem?_eq_none (not_lt.1 hc)] at hi1
      cases hi1
    have hjl : j < (P.members.map fun m => m.user.id).length := by
      by_contra hc
      rw [List.getElem?_eq_none (not_lt.1 hc)] at hj1
      cases hj1
    rw [List.getElem?_eq_getElem hil] at hi1
    rw [List.getElem?_eq_getElem hjl] at hj1
    exact (List.Nodup.getElem_inj_iff hN).1 ((Option.some.inj hi1).trans (Option.some.inj hj1).symm)

/-- C14, on the scenario: the two entries of the project have distinct user ids. -/
theorem members_user_unique_witness :
    Reachable demoStore ∧ (demoProject.members.map fun m => m.user.id).Nodup :=
  ⟨demoStore_reachable,
    (members_user_unique.2.2 demoStore demoStore_reachable demoProject (by decide)).1⟩

/-! ## Member lists without duplicates -/

/-- In a list without duplicate keys, erasing the entry at an index is filtering out its
key. -/
theorem eraseIdx_eq_filter_of_nodup {α : Type} (f : α → Id) :
    ∀ (l : List α) (i : Nat) (a : α), (l.map f).Nodup → l[i]? = some a →
      l.eraseIdx i = l.filter (fun x => f x != f a)
  | [], _, _, _, h => by simp at h
  | x :: xs, 0, a, hN, h => by
    have hx : x = a := by simpa using h
    subst hx
    rw [List.map_cons, List.nodup_cons] at hN
    simp only [List.eraseIdx_cons_zero, List.filter_cons, bne_self_eq_false, Bool.false_eq_true,
      if_false]
    symm
    rw [List.filter_eq_self]
    intro y hy
    have : f y ≠ f x := fun h => hN.1 (h ▸ List.mem_map_of_mem f hy)
    simpa using this
  | x :: xs, i + 1, a, hN, h => by
    rw [List.map_cons, List.nodup_cons] at hN
    have ha : a ∈ xs := List.getElem?_mem (by simpa using h)
    have hxa : f x ≠ f a := fun h => hN.1 (h ▸ List.mem_map_of_mem f ha)
    have hxa1 : (f x != f a) = true := by simpa using hxa
    simp only [List.eraseIdx_cons_succ, List.filter_cons, hxa1, if_true]
    rw [eraseIdx_eq_filter_of_nodup f xs i a hN.2 (by simpa using h)]

/-- In a list without duplicate keys, replacing the entry at an index is replacing every
entry with its key. -/
theorem set_eq_map_of_nodup {α : Type} (f : α → Id) (b : α) :
    ∀ (l : List α) (i : Nat) (a : α), (l.map f).Nodup → l[i]? = some a →
      l.set i b = l.map (fun x => if f x = f a then b else x)
  | [], _, _, _, h => by simp at h
  | x :: xs, 0, a, hN, h => by
    have hx : x = a := by simpa using h
    subst hx
    rw [List.map_cons, List.nodup_cons] at hN
    simp only [List.set_cons_zero, List.map_cons, if_true]
    congr 1
    have hmap : xs.map (fun y => if f y = f x then b else y) = xs.map id := by
      apply List.map_congr_left
      intro y hy
      have : f y ≠ f x := fun h => hN.1 (h ▸ List.mem_map_of_mem f hy)
      simp [this]
    rw [hmap, List.map_id]
  | x :: xs, i + 1, a, hN, h => by
    rw [List.map_cons, List.nodup_cons] at hN
    have ha : a ∈ xs := List.getElem?_mem (by simpa using h)
    have hxa : f x ≠ f a := fun h => hN.1 (h ▸ List.mem_map_of_mem f ha)
    simp only [List.set_cons_succ, List.map_cons, hxa, if_false]
    rw [set_eq_map_of_nodup f b xs i a hN.2 (by simpa using h)]

/-- Filtering with a condition implied by `p` does not change `any p`. -/
theorem any_filter_of_imp {α : Type} (p q : α → Bool) (h : ∀ x, p x = true → q x = true) :
    ∀ l : List α, (l.filter q).any p = l.any p
  | [] => rfl
  | x :: xs => by
    rw [List.filter_cons]
    cases hq : q x with
    | true =>
      simp only [if_true, List.any_cons]
      rw [any_filter_of_imp p q h xs]
    | false =>
      have hp : p x = false := by
        cases hp : p x with
        | false => rfl
        | true => rw [h x hp] at hq; cases hq
      simp only [Bool.false_eq_true, if_false, List.any_cons, hp, Bool.false_or]
      exact any_filter_of_imp p q h xs

/-! ## Claims on member management -/

/-- Behind `checkProjectAdmin`, on an existing project: 403 for a caller who is not an
admin, the handler otherwise. -/
theorem behindAdmin_eq {s : Store} {pid : Id} {P : Project}
    (hP : Project.findById s pid = some P) (c : Id) (handler : Project → Store × Response) :
    behindAdmin s c (some pid) handler =
      if P.isAdmin c = true then handler P
      else (s, reject 403 "Access denied. Only project admins can perform this action.") := by
  simp only [behindAdmin, checkProjectAdmin, hP]
  cases P.isAdmin c <;> simp

/-- C11. On an existing project `P` with a canonical member list, `removeMember` behind
`checkProjectAdmin` succeeds exactly when the caller is an admin of `P`, the target is a
member of `P` and the target is not `P.createdBy`. On success the stored project is `P`
with the entry of the target erased: the other entries are kept in their order, nothing
else changes, the target is no longer a member, and `isMember` and `isAdmin` are unchanged
for every other user. A rejected request writes nothing. -/
theorem removeMember_route_spec (s : Store) (c pid target : Id) (P : Project)
    (hP : Project.findById s pid = some P) (hC : P.Canonical) :
    ((handle s (Request.removeMember c pid target)).2.success = true ↔
      (P.isAdmin c = true ∧ P.isMember target = true ∧ target ≠ P.createdBy)) ∧
    ((handle s (Request.removeMember c pid target)).2.success = true →
      ∃ P1 : Project,
        (handle s (Request.removeMember c pid target)).1 = Project.save s P1 ∧
        Project.findById (handle s (Request.removeMember c pid target)).1 pid = some P1 ∧
        (handle s (Request.removeMember c pid target)).2.status = 200 ∧
        (handle s (Request.removeMember c pid target)).2.data = Payload.project P1 ∧
        (∃ (i : Nat) (m : Member), P.members[i]? = some m ∧ m.user.id = target ∧
          P1.members = P.members.eraseIdx i) ∧
        P1.members = P.members.filter (fun m => m.user.id != target) ∧
        P1 = { P with members := P1.members } ∧
        P1.isMember target = false ∧
        ∀ u : Id, u ≠ target → P1.isMember u = P.isMember u ∧ P1.isAdmin u = P.isAdmin u) ∧
    ((handle s (Request.removeMember c pid target)).2.success = false →
      (handle s (Request.removeMember c pid target)).1 = s) := by
  have hid : P._id = pid := (mem_of_findById hP).2
  have hform : handle s (Request.removeMember c pid target) =
      if P.isAdmin c = true then removeMember s P target
      else (s, reject 403 "Access denied. Only project admins can perform this action.") := by
    simp only [handle]
    rw [behindAdmin_eq hP]
  cases hA : P.isAdmin c with
  | false =>
    have hout : handle s (Request.removeMember c pid target) =
        (s, reject 403 "Access denied. Only project admins can perform this action.") := by
      rw [hform]; simp [hA]
    rw [hout]
    simp [reject]
  | true =>
    cases hf : P.members.findIdx? (fun m => m.user.toStringEq target) with
    | none =>
      have hout : handle s (Request.removeMember c pid target) =
          (s, reject 404 "User is not a member of this project") := by
        rw [hform]; simp [hA, removeMember, hf]
      have hnone : P.members.find? (fun m => m.user.toStringEq target) = none := by
        rw [List.find?_eq_none]
        rw [List.findIdx?_eq_none_iff] at hf
        intro x hx
        simpa using hf x hx
      have hM : P.isMember target = false := (find?_toStringEq_eq_none_iff P hC.1 target).1 hnone
      rw [hout]
      simp [reject, hM]
    | some i =>
      obtain ⟨m, hm, hp⟩ := getElem?_of_findIdx?_eq_some _ _ _ hf
      have hmid : m.user.id = target := id_eq_of_toStringEq _ _ hp
      have hM : P.isMember target = true :=
        (isMember_eq_true_iff P target).2 ⟨m, List.getElem?_mem hm, hmid⟩
      by_cases hcr : P.createdBy = target
      · have hout : handle s (Request.removeMember c pid target) =
            (s, reject 400 "Cannot remove the project creator") := by
          rw [hform]; simp [hA, removeMember, hf, hcr]
        rw [hout]
        simp [reject, hcr]
      · have hcr1 : (P.createdBy == target) = false := by simpa using hcr
        have hout : handle s (Request.removeMember c pid target) =
            (Project.save s { P with members := P.members.eraseIdx i },
              ⟨200, true, "Member removed successfully",
                Payload.project { P with members := P.members.eraseIdx i }⟩) := by
          rw [hform]; simp [hA, removeMember, hf, hcr1]
        have hfilter : P.members.eraseIdx i = P.members.filter (fun x => x.user.id != target) := by
          rw [eraseIdx_eq_filter_of_nodup (fun x : Member => x.user.id) P.members i m hC.2 hm, hmid]
        have hq : ∀ u : Id, u ≠ target → ∀ x : Member, x.user.id = u →
            (x.user.id != target) = true := by
          intro u hu x hx
          rw [hx]
          simpa using hu
        rw [hout]
        refine ⟨⟨fun _ => ⟨rfl, hM, fun h => hcr h.symm⟩, fun _ => rfl⟩, fun _ => ?_,
          fun h => by cases h⟩
        refine ⟨{ P with members := P.members.eraseIdx i }, rfl,
          project_findById_save hP hid, rfl, rfl, ⟨i, m, hm, hmid, rfl⟩, hfilter, rfl, ?_, ?_⟩
        · show (P.members.eraseIdx i).any (fun x => x.user.id == target) = false
          rw [hfilter, List.any_eq_false]
          intro x hx
          have := (List.mem_filter.1 hx).2
          simpa using this
        · intro u hu
          constructor
          · show (P.members.eraseIdx i).any (fun x => x.user.id == u)
              = P.members.any (fun x => x.user.id == u)
            rw [hfilter]
            exact any_filter_of_imp _ _ (fun x hx => hq u hu x (by simpa using hx)) _
          · show (P.members.eraseIdx i).any (fun x => x.user.id == u && x.role == Role.admin)
              = P.members.any (fun x => x.user.id == u && x.role == Role.admin)
            rw [hfilter]
            refine any_filter_of_imp _ _ (fun x hx => hq u hu x ?_) _
            simp only [Bool.and_eq_true, beq_iff_eq] at hx
            exact hx.1

/-- C11, on the scenario: Alice removes Bob; the stored project keeps only her entry, and
Bob, a plain member, cannot remove anyone. -/
theorem removeMember_route_spec_witness :
    ((handle demoStore (Request.removeMember 1 10 2)).2.success = true ∧
      (Project.findById (handle demoStore (Request.removeMember 1 10 2)).1 10).map
        (fun P => P.members) = some [⟨UserRef.bare 1, Role.admin, 100⟩]) ∧
    (handle demoStore (Request.removeMember 2 10 1)).2.success ≠ true :=
  let h := removeMember_route_spec demoStore 1 10 2 demoProject (by decide)
    (canonical_of_reachable demoStore_reachable demoProject (by decide))
  let h2 := removeMember_route_spec demoStore 2 10 1 demoProject (by decide)
    (canonical_of_reachable demoStore_reachable demoProject (by decide))
  ⟨⟨h.1.2 (by decide), by decide⟩, fun hs => absurd (h2.1.1 hs).1 (by decide)⟩

/-- C12. On an existing project `P` with a canonical member list, `addMember` behind
`checkProjectAdmin` succeeds exactly when the caller is an admin of `P`, an email is
supplied, a user with that email exists and that user is not a member of `P`. On success
the stored project is `P` with one more entry at the end, a reference to that user with
role member; the earlier entries are unchanged and the new member is not an admin. When the
user is already a member the answer is the duplicate rejection (400). A rejected request
writes nothing. -/
theorem addMember_route_spec (s : Store) (c pid : Id) (body : MemberBody) (now : Nat)
    (P : Project) (hP : Project.findById s pid = some P) (hC : P.Canonical) :
    ((handle s (Request.addMember c pid body now)).2.success = true ↔
      (P.isAdmin c = true ∧ falsy body.email = false ∧
        ∃ a : User, User.findOne s (body.email.getD "") = some a ∧ P.isMember a._id = false)) ∧
    (∀ a : User, P.isAdmin c = true → falsy body.email = false →
      User.findOne s (body.email.getD "") = some a → P.isMember a._id = false →
      ∃ P1 : Project,
        P1 = { P with members := P.members ++ [⟨UserRef.bare a._id, Role.member, now⟩] } ∧
        handle s (Request.addMember c pid body now)
          = (Project.save s P1, ⟨200, true, "Member added successfully", Payload.project P1⟩) ∧
        Project.findById (handle s (Request.addMember c pid body now)).1 pid = some P1 ∧
        P1.isMember a._id = true ∧ P1.isAdmin a._id = false) ∧
    (∀ a : User, P.isAdmin c = true → falsy body.email = false →
      User.findOne s (body.email.getD "") = some a → P.isMember a._id = true →
      handle s (Request.addMember c pid body now)
        = (s, reject 400 "User is already a member of this project")) ∧
    ((handle s (Request.addMember c pid body now)).2.success = false →
      (handle s (Request.addMember c pid body now)).1 = s) := by
  have hid : P._id = pid := (mem_of_findById hP).2
  have hform : handle s (Request.addMember c pid body now) =
      if P.isAdmin c = true then addMember s P body now
      else (s, reject 403 "Access denied. Only project admins can perform this action.") := by
    simp only [handle]
    rw [behindAdmin_eq hP]
  cases hA : P.isAdmin c with
  | false =>
    have hout : handle s (Request.addMember c pid body now) =
        (s, reject 403 "Access denied. Only project admins can perform this action.") := by
      rw [hform]; simp [hA]
    rw [hout]
    simp [reject]
  | true =>
    cases hE : falsy body.email with
    | true =>
      have hout : handle s (Request.addMember c pid body now) =
          (s, reject 400 "Please provide user email") := by
        rw [hform]; simp [hA, addMember, hE]
      rw [hout]
      simp [reject]
    | false =>
      cases hU : User.findOne s (body.email.getD "") with
      | none =>
        have hout : handle s (Request.addMember c pid body now) =
            (s, reject 404 "User not found with this email") := by
          rw [hform]; simp [hA, addMember, hE, hU]
        rw [hout]
        simp [reject]
      | some a =>
        cases hM : P.isMember a._id with
        | true =>
          have hsome : ∃ m, P.members.find? (fun m => m.user.toStringEq a._id) = some m := by
            cases hfind : P.members.find? (fun m => m.user.toStringEq a._id) with
            | none =>
              rw [(find?_toStringEq_eq_none_iff P hC.1 a._id).1 hfind] at hM
              cases hM
            | some m => exact ⟨m, rfl⟩
          obtain ⟨m, hfind⟩ := hsome
          have hout : handle s (Request.addMember c pid body now) =
              (s, reject 400 "User is already a member of this project") := by
            rw [hform]; simp [hA, addMember, hE, hU, hfind]
          rw [hout]
          refine ⟨⟨fun h => (by cases h), ?_⟩, ?_, ?_, fun _ => rfl⟩
          · rintro ⟨_, _, b, hb, hbM⟩
            cases hb
            rw [hM] at hbM
            cases hbM
          · intro b _ _ hb hbM
            cases hb
            rw [hM] at hbM
            cases hbM
          · intro b _ _ _ _
            rfl
        | false =>
          have hfind : P.members.find? (fun m => m.user.toStringEq a._id) = none :=
            (find?_toStringEq_eq_none_iff P hC.1 a._id).2 hM
          have hout : handle s (Request.addMember c pid body now) =
              (Project.save s
                  { P with members := P.members ++ [⟨UserRef.bare a._id, Role.member, now⟩] },
                ⟨200, true, "Member added successfully",
                  Payload.project
                    { P with
                      members := P.members ++ [⟨UserRef.bare a._id, Role.member, now⟩] }⟩) := by
            rw [hform]; simp [hA, addMember, hE, hU, hfind]
          rw [hout]
          refine ⟨⟨fun _ => ⟨rfl, rfl, a, rfl, hM⟩, fun _ => rfl⟩, ?_, ?_, fun h => (by cases h)⟩
          · intro b _ _ hb _
            cases hb
            refine ⟨_, rfl, rfl, project_findById_save hP hid, ?_, ?_⟩
            · simp [Project.isMember, UserRef.id]
            · have hnA : P.isAdmin a._id = false := by
                cases h : P.isAdmin a._id with
                | false => rfl
                | true => rw [isMember_of_isAdmin P _ h] at hM; cases hM
              unfold Project.isAdmin at hnA ⊢
              simp only [List.any_append, hnA, Bool.false_or]
              simp
          · intro b _ _ hb hbM
            cases hb
            rw [hM] at hbM
            cases hbM

/-- C12, on the scenario: Alice adds Carol, who becomes the last entry with role member;
adding Bob again is rejected as a duplicate. -/
theorem addMember_route_spec_witness :
    (handle demoStore (Request.addMember 1 10 ⟨some "carol@example.com"⟩ 103)).2.success = true ∧
    handle demoStore (Request.addMember 1 10 ⟨some "bob@example.com"⟩ 103)
      = (demoStore, reject 400 "User is already a member of this project") :=
  let hC := canonical_of_reachable demoStore_reachable demoProject (by decide)
  ⟨(addMember_route_spec demoStore 1 10 ⟨some "carol@example.com"⟩ 103 demoProject
      (by decide) hC).1.2
      ⟨by decide, by decide, ⟨3, "Carol", "carol@example.com"⟩, by decide, by decide⟩,
    (addMember_route_spec demoStore 1 10 ⟨some "bob@example.com"⟩ 103 demoProject
      (by decide) hC).2.2.1 ⟨2, "Bob", "bob@example.com"⟩
      (by decide) (by decide) (by decide) (by decide)⟩

/-- In a canonical member list the entry found for a user is an admin entry exactly when the
user is an admin. -/
theorem role_of_find?_eq_admin_iff (P : Project) (hC : P.Canonical) (target : Id) (m : Member)
    (hfind : P.members.find? (fun m => m.user.toStringEq target) = some m) :
    m.role = Role.admin ↔ P.isAdmin target = true := by
  have hm : m ∈ P.members := List.mem_of_find?_eq_some hfind
  have hmid : m.user.id = target :=
    id_eq_of_toStringEq _ _ (by simpa using List.find?_some hfind)
  rw [isAdmin_eq_true_iff]
  constructor
  · intro hr
    exact ⟨m, hm, hmid, hr⟩
  · rintro ⟨n, hn, hnid, hnr⟩
    have : n = m := List.inj_on_of_nodup_map hC.2 hn hm (by rw [hnid, hmid])
    rw [← this]
    exact hnr

/-- C13. On an existing project `P` with a canonical member list, `promoteMember` behind
`checkProjectAdmin` succeeds exactly when the caller is an admin of `P` and the target is a
member of `P` who is not an admin. Promoting an admin is rejected with 400 and a target who
is not a member with 404, and a rejected request writes nothing. On success the stored
project is `P` in which the role of the entry of the target, and nothing else, has become
admin. -/
theorem promoteMember_route_spec (s : Store) (c pid target : Id) (P : Project)
    (hP : Project.findById s pid = some P) (hC : P.Canonical) :
    ((handle s (Request.promoteMember c pid target)).2.success = true ↔
      (P.isAdmin c = true ∧ P.isMember target = true ∧ P.isAdmin target = false)) ∧
    (P.isAdmin c = true → P.isAdmin target = true →
      handle s (Request.promoteMember c pid target)
        = (s, reject 400 "User is already an admin")) ∧
    (P.isAdmin c = true → P.isMember target = false →
      handle s (Request.promoteMember c pid target)
        = (s, reject 404 "User is not a member of this project")) ∧
    ((handle s (Request.promoteMember c pid target)).2.success = true →
      ∃ P1 : Project,
        handle s (Request.promoteMember c pid target)
          = (Project.save s P1,
              ⟨200, true, "Member promoted to admin successfully", Payload.project P1⟩) ∧
        Project.findById (handle s (Request.promoteMember c pid target)).1 pid = some P1 ∧
        P1.members = P.members.map
          (fun m => if m.user.id = target then { m with role := Role.admin } else m) ∧
        P1 = { P with members := P1.members } ∧
        P1.isAdmin target = true) ∧
    ((handle s (Request.promoteMember c pid target)).2.success = false →
      (handle s (Request.promoteMember c pid target)).1 = s) := by
  have hid : P._id = pid := (mem_of_findById hP).2
  have hform : handle s (Request.promoteMember c pid target) =
      if P.isAdmin c = true then promoteMember s P target
      else (s, reject 403 "Access denied. Only project admins can perform this action.") := by
    simp only [handle]
    rw [behindAdmin_eq hP]
  cases hA : P.isAdmin c with
  | false =>
    have hout : handle s (Request.promoteMember c pid target) =
        (s, reject 403 "Access denied. Only project admins can perform this action.") := by
      rw [hform]; simp [hA]
    rw [hout]
    simp [reject]
  | true =>
    cases hfind : P.members.find? (fun m => m.user.toStringEq target) with
    | none =>
      have hM : P.isMember target = false := (find?_toStringEq_eq_none_iff P hC.1 target).1 hfind
      have hnA : P.isAdmin target = false := by
        cases h : P.isAdmin target with
        | false => rfl
        | true => rw [isMember_of_isAdmin P _ h] at hM; cases hM
      have hout : handle s (Request.promoteMember c pid target) =
          (s, reject 404 "User is not a member of this project") := by
        rw [hform]; simp [hA, promoteMember, hfind]
      rw [hout]
      simp [reject, hM, hnA]
    | some m =>
      have hm : m ∈ P.members := List.mem_of_find?_eq_some hfind
      have hmid : m.user.id = target :=
        id_eq_of_toStringEq _ _ (by simpa using List.find?_some hfind)
      have hM : P.isMember target = true := (isMember_eq_true_iff P target).2 ⟨m, hm, hmid⟩
      have hrole := role_of_find?_eq_admin_iff P hC target m hfind
      cases hT : P.isAdmin target with
      | true =>
        have hr : m.role = Role.admin := hrole.2 hT
        have hout : handle s (Request.promoteMember c pid target) =
            (s, reject 400 "User is already an admin") := by
          rw [hform]; simp [hA, promoteMember, hfind, hr]
        rw [hout]
        simp [reject, hM]
      | false =>
        have hr : (m.role == Role.admin) = false := by
          cases h : m.role == Role.admin with
          | false => rfl
          | true => rw [hrole.1 (beq_iff_eq.1 h)] at hT; cases hT
        have hi := getElem?_findIdx_of_find? _ _ _ hfind
        have hout : handle s (Request.promoteMember c pid target) =
            (Project.save s
                { P with
                  members := P.members.set
                    (P.members.findIdx fun m => m.user.toStringEq target)
                    { m with role := Role.admin } },
              ⟨200, true, "Member promoted to admin successfully",
                Payload.project
                  { P with
                    members := P.members.set
                      (P.members.findIdx fun m => m.user.toStringEq target)
                      { m with role := Role.admin } }⟩) := by
          rw [hform]; simp [hA, promoteMember, hfind, hr]
        have hmap : P.members.set (P.members.findIdx fun m => m.user.toStringEq target)
            { m with role := Role.admin }
            = P.members.map
              (fun x => if x.user.id = target then { x with role := Role.admin } else x) := by
          rw [set_eq_map_of_nodup (fun x : Member => x.user.id) _ P.members _ m hC.2 hi]
          apply List.map_congr_left
          intro x hx
          by_cases hxt : x.user.id = target
          · have hxm : x = m := List.inj_on_of_nodup_map hC.2 hx hm (by rw [hxt, hmid])
            simp [hxt, hmid, hxm]
          · simp [hxt, hmid]
        rw [hout]
        refine ⟨⟨fun _ => ⟨rfl, hM, rfl⟩, fun _ => rfl⟩, fun _ h => (by cases h),
          fun _ h => (by rw [hM] at h; cases h), fun _ => ?_, fun h => (by cases h)⟩
        refine ⟨_, rfl, project_findById_save hP hid, hmap, rfl, ?_⟩
        show (P.members.set _ _).any _ = true
        rw [hmap, List.any_map, List.any_eq_true]
        exact ⟨m, hm, by simp [hmid]⟩

/-- C13, on the scenario: Alice promotes Bob, whose entry becomes an admin entry; promoting
Alice, already admin, is rejected with 400. -/
theorem promoteMember_route_spec_witness :
    (handle demoStore (Request.promoteMember 1 10 2)).2.success = true ∧
    handle demoStore (Request.promoteMember 1 10 1)
      = (demoStore, reject 400 "User is already an admin") :=
  let hC := canonical_of_reachable demoStore_reachable demoProject (by decide)
  ⟨(promoteMember_route_spec demoStore 1 10 2 demoProject (by decide) hC).1.2
      ⟨by decide, by decide, by decide⟩,
    (promoteMember_route_spec demoStore 1 10 1 demoProject (by decide) hC).2.1
      (by decide) (by decide)⟩

/-! ## Claims on reading a project and listing tasks -/

/-- A user found by id has that id. -/
theorem user_findById_id {s : Store} {i : Id} {u : User} (h : User.findById s i = some u) :
    u._id = i := by
  unfold User.findById at h
  simpa using List.find?_some h

/-- When `isMember` on the populated list does not throw, its result is `isMember` on the
stored list. -/
theorem isMemberOrThrow_populate (s : Store) (c : Id) :
    ∀ (l : List Member) (b : Bool), isMemberOrThrow (l.map (populateMember s)) c = some b →
      l.any (fun m => m.user.id == c) = b
  | [], b, h => by
    simp only [List.map_nil, isMemberOrThrow] at h
    simpa using h
  | m :: rest, b, h => by
    simp only [List.map_cons, populateMember] at h
    cases hu : User.findById s m.user.id with
    | none => simp [hu, isMemberOrThrow] at h
    | some u =>
      have huid : (UserRef.populated u).id = m.user.id := user_findById_id hu
      rw [hu] at h
      simp only [Option.map_some', isMemberOrThrow, huid] at h
      by_cases hc : m.user.id = c
      · simp only [hc, beq_self_eq_true, if_true] at h
        simp only [List.any_cons, hc, beq_self_eq_true, Bool.true_or]
        exact Option.some.inj h
      · have hc1 : (m.user.id == c) = false := by simpa using hc
        simp only [hc1, Bool.false_eq_true, if_false] at h
        simp only [List.any_cons, hc1, Bool.false_or]
        exact isMemberOrThrow_populate s c rest b h

/-- When every member reference resolves, `isMember` on the populated list does not
throw. -/
theorem isMemberOrThrow_populate_of_resolved (s : Store) (c : Id) :
    ∀ (l : List Member), (∀ m ∈ l, (User.findById s m.user.id).isSome = true) →
      isMemberOrThrow (l.map (populateMember s)) c = some (l.any (fun m => m.user.id == c))
  | [], _ => rfl
  | m :: rest, h => by
    have hm := h m (List.mem_cons_self _ _)
    obtain ⟨u, hu⟩ := Option.isSome_iff_exists.1 hm
    have huid : (UserRef.populated u).id = m.user.id := user_findById_id hu
    have ih := isMemberOrThrow_populate_of_resolved s c rest
      (fun x hx => h x (List.mem_cons_of_mem _ hx))
    simp only [List.map_cons, populateMember, List.any_cons]
    rw [hu]
    simp only [Option.map_some', isMemberOrThrow, huid]
    by_cases hc : m.user.id = c
    · simp [hc]
    · have hc1 : (m.user.id == c) = false := by simpa using hc
      simp only [hc1, Bool.false_eq_true, if_false, Bool.false_or]
      exact ih

/-- C15. `getProject` answers 404 exactly when no project has the id. When the project
exists, a 403 answer means that the caller is not a member and a success carries the
project and means that the caller is a member; and when every member reference of the
project resolves to a user (so that the populated list has no `null`), the answer is 403
exactly when the caller is not a member, with `isMember` evaluated on the populated list
agreeing with `isMember` on the stored list, and the success 200 carrying the project
otherwise. The two rejections have different status codes. -/
theorem getProject_spec (s : Store) (c id : Id) :
    ((getProject s c id).status = 404 ↔ Project.findById s id = none) ∧
    ((getProject s c id).status = 403 →
      ∃ P, Project.findById s id = some P ∧ P.isMember c = false) ∧
    ((getProject s c id).success = true →
      ∃ P, Project.findById s id = some P ∧ P.isMember c = true ∧
        getProject s c id = ⟨200, true, "", Payload.project P⟩) ∧
    (∀ P : Project, Project.findById s id = some P →
      (∀ m ∈ P.members, (User.findById s m.user.id).isSome = true) →
      isMemberOrThrow (P.members.map (populateMember s)) c = some (P.isMember c) ∧
      ((getProject s c id).status = 403 ↔ P.isMember c = false) ∧
      (P.isMember c = false → getProject s c id
        = reject 403 "Access denied. You are not a member of this project.") ∧
      (P.isMember c = true → getProject s c id = ⟨200, true, "", Payload.project P⟩)) ∧
    (Project.findById s id = none → getProject s c id = reject 404 "Project not found") := by
  cases hP : Project.findById s id with
  | none => simp [getProject, hP, reject]
  | some P =>
    have hgen : ∀ b, isMemberOrThrow (P.members.map (populateMember s)) c = some b →
        P.isMember c = b := fun b hb => isMemberOrThrow_populate s c P.members b hb
    refine ⟨?_, ?_, ?_, ?_, fun h => (by cases h)⟩
    · simp only [getProject, hP]
      cases h : isMemberOrThrow (P.members.map (populateMember s)) c with
      | none => simp [reject]
      | some b => cases b <;> simp [reject]
    · simp only [getProject, hP]
      cases h : isMemberOrThrow (P.members.map (populateMember s)) c with
      | none => simp [reject]
      | some b =>
        cases b
        · intro _; exact ⟨P, rfl, hgen false h⟩
        · simp
    · simp only [getProject, hP]
      cases h : isMemberOrThrow (P.members.map (populateMember s)) c with
      | none => simp [reject]
      | some b =>
        cases b
        · simp [reject]
        · intro _; exact ⟨P, rfl, hgen true h, rfl⟩
    · intro Q hQ hres
      cases hQ
      have hres1 := isMemberOrThrow_populate_of_resolved s c P.members hres
      have hres2 : isMemberOrThrow (P.members.map (populateMember s)) c = some (P.isMember c) :=
        hres1
      refine ⟨hres2, ?_, ?_, ?_⟩
      · simp only [getProject, hP, hres2]
        cases P.isMember c <;> simp [reject]
      · intro hM
        simp only [getProject, hP, hres2, hM]
      · intro hM
        simp only [getProject, hP, hres2, hM]

/-- C15, on the scenario: Carol, not a member of project 10, gets 403; an unknown id gets
404. -/
theorem getProject_spec_witness :
    getProject demoStore 3 10 = reject 403 "Access denied. You are not a member of this project." ∧
    getProject demoStore 3 99 = reject 404 "Project not found" :=
  ⟨((getProject_spec demoStore 3 10).2.2.2.1 demoProject (by decide) (by decide)).2.2.1 (by decide),
    (getProject_spec demoStore 3 99).2.2.2.2 (by decide)⟩

/-- The tasks matching a filter document. -/
theorem mem_task_find (s : Store) (q : TaskFilter) (t : Task) :
    t ∈ Task.find s q ↔
      t ∈ s.tasks ∧ t.project = q.project ∧ ∀ u, q.assignedTo = some u → t.assignedTo = u := by
  unfold Task.find TaskFilter.matches
  rw [List.mem_filter]
  cases q.assignedTo with
  | none => simp
  | some u => simp

/-- C16. On an existing project `P`, `getTasks` rejects a caller who is not a member with
403. For an admin it answers with the page built from the tasks matching the filter
`project = P`, which are exactly the tasks whose project is `P`; for a plain member it
answers with the page built from the filter `project = P, assignedTo = caller`, which
matches exactly the tasks of `P` assigned to the caller. So a plain member to whom no task
of `P` is assigned receives count 0, total 0 and no data, whatever tasks `P` has. -/
theorem getTasks_spec (s : Store) (c pid : Id) (page limit : Option String) (P : Project)
    (hP : Project.findById s pid = some P) :
    (P.isMember c = false →
      getTasks s c ⟨some pid, page, limit⟩ = .error (reject 403 "Access denied")) ∧
    (P.isAdmin c = true →
      getTasks s c ⟨some pid, page, limit⟩
        = tasksPage s ⟨pid, none⟩ (parseIntOr page 1) (parseIntOr limit 10)) ∧
    (∀ t : Task, t ∈ Task.find s ⟨pid, none⟩ ↔ t ∈ s.tasks ∧ t.project = pid) ∧
    (P.isMember c = true → P.isAdmin c = false →
      getTasks s c ⟨some pid, page, limit⟩
        = tasksPage s ⟨pid, some c⟩ (parseIntOr page 1) (parseIntOr limit 10)) ∧
    (∀ t : Task, t ∈ Task.find s ⟨pid, some c⟩ ↔
      t ∈ s.tasks ∧ t.project = pid ∧ t.assignedTo = c) ∧
    (P.isMember c = true → P.isAdmin c = false →
      (∀ t ∈ s.tasks, t.project = pid → t.assignedTo ≠ c) →
      0 ≤ (parseIntOr page 1 - 1) * parseIntOr limit 10 →
      getTasks s c ⟨some pid, page, limit⟩ = .ok ⟨0, 0, parseIntOr page 1, 0, []⟩) := by
  refine ⟨?_, ?_, ?_, ?_, ?_, ?_⟩
  · intro hM
    simp [getTasks, hP, hM]
  · intro hA
    have hM := isMember_of_isAdmin P c hA
    simp only [getTasks, hP, hM, hA, tasksPage]
    rfl
  · intro t
    rw [mem_task_find]
    simp
  · intro hM hA
    simp only [getTasks, hP, hM, hA, tasksPage]
    rfl
  · intro t
    rw [mem_task_find]
    simp
  · intro hM hA hnone hskip
    have hempty : s.tasks.filter (TaskFilter.matches ⟨pid, some c⟩) = [] := by
      rw [List.filter_eq_nil_iff]
      intro t ht
      simp only [TaskFilter.matches, Bool.and_eq_true, beq_iff_eq, not_and]
      exact fun hp => hnone t ht hp
    have hskip1 : ¬ (parseIntOr page 1 - 1) * parseIntOr limit 10 < 0 := not_lt.2 hskip
    have hpage : getTasks s c ⟨some pid, page, limit⟩
        = tasksPage s ⟨pid, some c⟩ (parseIntOr page 1) (parseIntOr limit 10) := by
      simp only [getTasks, hP, hM, hA, tasksPage]
      rfl
    rw [hpage]
    simp only [tasksPage, Task.find, Task.countDocuments]
    rw [hempty]
    simp [hskip1, newestFirst, ceilDiv, Int.fdiv]

/-- C16, on the scenario: Carol, not a member, is rejected; Alice, admin, gets the page of
all tasks of project 10; and once Carol has joined as a plain member she gets an empty
page, although the project has a task (assigned to Bob). -/
theorem getTasks_spec_witness :
    getTasks demoStore 3 ⟨some 10, none, none⟩ = .error (reject 403 "Access denied") ∧
    getTasks demoStore 1 ⟨some 10, none, none⟩ = tasksPage demoStore ⟨10, none⟩ 1 10 ∧
    getTasks demoShared 3 ⟨some 10, none, none⟩ = .ok ⟨0, 0, 1, 0, []⟩ :=
  ⟨(getTasks_spec demoStore 3 10 none none demoProject (by decide)).1 (by decide),
    (getTasks_spec demoStore 1 10 none none demoProject (by decide)).2.1 (by decide),
    (getTasks_spec demoShared 3 10 none none
      ⟨10, "Apollo", none, 1,
        [⟨UserRef.bare 1, Role.admin, 100⟩, ⟨UserRef.bare 2, Role.member, 101⟩,
          ⟨UserRef.bare 3, Role.member, 103⟩], 100⟩
      (by decide)).2.2.2.2.2 (by decide) (by decide) (by decide) (by decide)⟩

/-! ## Claims on reading, updating and deleting a task -/

/-- The users of the store are never written by a request. -/
theorem handle_users (s : Store) (r : Request) : (handle s r).1.users = s.users := by
  cases r with
  | createProject user body now =>
    simp only [handle, createProject]
    repeat' split
    all_goals rfl
  | updateProject user id body =>
    simp only [handle]
    rcases updateProject_store s user id body with h | ⟨p, name, description, _, _, h⟩ <;>
      first | (rw [h]; rfl) | rw [h]
  | deleteProject user id =>
    simp only [handle, deleteProject]
    repeat' split
    all_goals rfl
  | addMember user projectId body now =>
    simp only [handle, behindAdmin]
    split
    · rfl
    · rename_i project _
      rcases addMember_store s project body now with h | ⟨a, _, _, h⟩ <;>
        first | (rw [h]; rfl) | rw [h]
  | promoteMember user projectId userId =>
    simp only [handle, behindAdmin]
    split
    · rfl
    · rename_i project _
      rcases promoteMember_store s project userId with h | ⟨i, m, _, _, h⟩ <;>
        first | (rw [h]; rfl) | rw [h]
  | removeMember user projectId userId =>
    simp only [handle, behindAdmin]
    split
    · rfl
    · rename_i project _
      rcases removeMember_store s project userId with h | ⟨i, m, _, _, _, h⟩ <;>
        first | (rw [h]; rfl) | rw [h]
  | createTask user body now =>
    simp only [handle, behindAdmin]
    split
    · rfl
    · simp only [createTask]
      repeat' split
      all_goals rfl
  | updateTask user id body =>
    simp only [handle, updateTask, updateTaskSave]
    repeat' split
    all_goals rfl
  | updateTaskStatus user id body =>
    simp only [handle, updateTaskStatus]
    repeat' split
    all_goals rfl
  | deleteTask user id =>
    simp only [handle, deleteTask]
    repeat' split
    all_goals rfl

/-- A user found by email is found by id. -/
theorem findById_isSome_of_findOne {s : Store} {email : String} {a : User}
    (h : User.findOne s email = some a) : (User.findById s a._id).isSome = true := by
  unfold User.findOne at h
  unfold User.findById
  rw [List.find?_isSome]
  exact ⟨a, List.mem_of_find?_eq_some h, by simp⟩

/-- The assignee of every task written by a request is a registered user, provided this
held before. -/
theorem assignee_registered_handle {s : Store}
    (hs : ∀ t ∈ s.tasks, (User.findById s t.assignedTo).isSome = true) (r : Request) :
    ∀ t ∈ (handle s r).1.tasks, (User.findById (handle s r).1 t.assignedTo).isSome = true := by
  have husers : ∀ (t : Store) (i : Id), t.users = s.users →
      User.findById t i = User.findById s i := by
    intro t i h
    simp only [User.findById, h]
  intro t ht
  rw [husers _ _ (handle_users s r)]
  revert t
  cases r with
  | createProject user body now =>
    simp only [handle, createProject]
    repeat' split
    all_goals exact hs
  | updateProject user id body =>
    simp only [handle]
    rcases updateProject_store s user id body with h | ⟨p, name, description, _, _, h⟩ <;>
      (rw [h]; exact hs)
  | deleteProject user id =>
    simp only [handle, deleteProject]
    repeat' split
    · exact hs
    · exact hs
    · intro t ht
      simp only [Project.deleteOne, Task.deleteMany, List.mem_filter] at ht
      exact hs t ht.1
  | addMember user projectId body now =>
    simp only [handle, behindAdmin]
    split
    · exact hs
    · rename_i project _
      rcases addMember_store s project body now with h | ⟨a, _, _, h⟩ <;> (rw [h]; exact hs)
  | promoteMember user projectId userId =>
    simp only [handle, behindAdmin]
    split
    · exact hs
    · rename_i project _
      rcases promoteMember_store s project userId with h | ⟨i, m, _, _, h⟩ <;>
        (rw [h]; exact hs)
  | removeMember user projectId userId =>
    simp only [handle, behindAdmin]
    split
    · exact hs
    · rename_i project _
      rcases removeMember_store s project userId with h | ⟨i, m, _, _, _, h⟩ <;>
        (rw [h]; exact hs)
  | createTask user body now =>
    simp only [handle, behindAdmin]
    split
    · exact hs
    · simp only [createTask]
      repeat' split
      all_goals first
        | exact hs
        | (intro t ht
           simp only [List.mem_append, List.mem_singleton] at ht
           rcases ht with ht | rfl
           · exact hs t ht
           · exact findById_isSome_of_findOne (by assumption))
  | updateTask user id body =>
    simp only [handle, updateTask, updateTaskSave]
    repeat' split
    all_goals first
      | exact hs
      | (intro t ht
         simp only [Task.save, List.mem_map] at ht
         obtain ⟨q, hq, rfl⟩ := ht
         split
         · first
             | exact findById_isSome_of_findOne (by assumption)
             | (have h1 := hs _ (mem_of_task_findById ‹Task.findById s _ = some _›).1
                exact h1)
         · exact hs q hq)
  | updateTaskStatus user id body =>
    simp only [handle, updateTaskStatus]
    repeat' split
    all_goals first
      | exact hs
      | (intro t ht
         simp only [Task.save, List.mem_map] at ht
         obtain ⟨q, hq, rfl⟩ := ht
         split
         · have h1 := hs _ (mem_of_task_findById ‹Task.findById s _ = some _›).1
           exact h1
         · exact hs q hq)
  | deleteTask user id =>
    simp only [handle, deleteTask]
    repeat' split
    all_goals first
      | exact hs
      | (intro t ht
         simp only [Task.deleteOne, List.mem_filter] at ht
         exact hs t ht.1)

/-- In every reachable store the assignee of every task is a registered user. -/
theorem assignee_registered_of_reachable {s : Store} (h : Reachable s) :
    ∀ t ∈ s.tasks, (User.findById s t.assignedTo).isSome = true := by
  induction h with
  | init users nextId => intro t ht; simp at ht
  | step r _ ih => exact assignee_registered_handle ih r

/-- C17. `getTask` answers 404 for an unknown task id. For an existing task `T` whose
project `P` exists and whose assignee is a registered user (as is the case in every
reachable store), it succeeds exactly when the caller is a member of `P` and is an admin of
`P` or the assignee of `T`; a caller who is not a member, and a plain member who is not the
assignee, are both rejected with 403; a success carries `T`. -/
theorem getTask_spec (s : Store) (c id : Id) :
    (Task.findById s id = none → getTask s c id = reject 404 "Task not found") ∧
    (∀ (T : Task) (P : Project), Task.findById s id = some T →
      Project.findById s T.project = some P → (User.findById s T.assignedTo).isSome = true →
      ((getTask s c id).success = true ↔
        (P.isMember c = true ∧ (P.isAdmin c = true ∨ c = T.assignedTo))) ∧
      (P.isMember c = false → getTask s c id = reject 403 "Access denied") ∧
      (P.isMember c = true → P.isAdmin c = false → c ≠ T.assignedTo →
        getTask s c id = reject 403 "You can only view your own tasks") ∧
      ((getTask s c id).success = true → getTask s c id = ⟨200, true, "", Payload.task T⟩)) ∧
    (Reachable s → ∀ T : Task, Task.findById s id = some T →
      (User.findById s T.assignedTo).isSome = true) := by
  refine ⟨?_, ?_, ?_⟩
  · intro h
    simp [getTask, h]
  · intro T P hT hP hU
    obtain ⟨a, ha⟩ := Option.isSome_iff_exists.1 hU
    have haid : a._id = T.assignedTo := user_findById_id ha
    cases hM : P.isMember c with
    | false =>
      have hout : getTask s c id = reject 403 "Access denied" := by
        simp [getTask, hT, hP, hM]
      rw [hout]
      simp [reject]
    | true =>
      cases hA : P.isAdmin c with
      | true =>
        have hout : getTask s c id = ⟨200, true, "", Payload.task T⟩ := by
          simp [getTask, hT, hP, hM, hA]
        rw [hout]
        simp
      | false =>
        by_cases hc : c = T.assignedTo
        · subst hc
          have hout : getTask s T.assignedTo id = ⟨200, true, "", Payload.task T⟩ := by
            simp [getTask, hT, hP, hM, hA, ha, haid]
          rw [hout]
          simp
        · have hne : (a._id != c) = true := by
            rw [haid]
            simpa using Ne.symm hc
          have hout : getTask s c id = reject 403 "You can only view your own tasks" := by
            simp only [getTask, hT, hP, hM, hA, ha, hne]
            rfl
          rw [hout]
          simp [reject, hc]
  · intro hR T hT
    exact assignee_registered_of_reachable hR T (mem_of_task_findById hT).1

/-- C17, on the scenario with Carol as a plain member: Carol, member but neither admin nor
assignee of task 11, is rejected with 403, and so is a user who is not a member. -/
theorem getTask_spec_witness :
    getTask demoShared 3 11 = reject 403 "You can only view your own tasks" ∧
    getTask demoStore 3 11 = reject 403 "Access denied" ∧
    getTask demoStore 3 99 = reject 404 "Task not found" :=
  ⟨((getTask_spec demoShared 3 11).2.1 demoTask
      ⟨10, "Apollo", none, 1,
        [⟨UserRef.bare 1, Role.admin, 100⟩, ⟨UserRef.bare 2, Role.member, 101⟩,
          ⟨UserRef.bare 3, Role.member, 103⟩], 100⟩
      (by decide) (by decide) (by decide)).2.2.1 (by decide) (by decide) (by decide),
    ((getTask_spec demoStore 3 11).2.1 demoTask demoProject
      (by decide) (by decide) (by decide)).2.1 (by decide),
    (getTask_spec demoStore 3 99).1 (by decide)⟩

/-- C19. For an existing task `T` whose project `P` exists, `deleteTask` succeeds exactly
when the caller is an admin of `P` or the assignee of `T`. Otherwise it is rejected with
403 and nothing is written, so `T` remains. On success the task collection is the former
one without the documents of id `T._id`, everything else is unchanged, and the id is no
longer found; ids being unique, exactly `T` is removed. -/
theorem deleteTask_spec (s : Store) (c id : Id) (T : Task) (P : Project)
    (hT : Task.findById s id = some T) (hP : Project.findById s T.project = some P) :
    ((deleteTask s c id).2.success = true ↔ (P.isAdmin c = true ∨ c = T.assignedTo)) ∧
    (P.isAdmin c = false → c ≠ T.assignedTo →
      deleteTask s c id = (s, reject 403
        "You can only delete tasks that are assigned to you or if you are a project admin")) ∧
    ((deleteTask s c id).2.success = true →
      (deleteTask s c id).2.status = 200 ∧
      (deleteTask s c id).1.tasks = s.tasks.filter (fun t => t._id != id) ∧
      (deleteTask s c id).1.projects = s.projects ∧
      (deleteTask s c id).1.users = s.users ∧
      Task.findById (deleteTask s c id).1 id = none ∧
      (UniqueIds s → ∀ t ∈ s.tasks, (t ∈ (deleteTask s c id).1.tasks ↔ t ≠ T))) := by
  have hid : T._id = id := (mem_of_task_findById hT).2
  by_cases hok : P.isAdmin c = true ∨ c = T.assignedTo
  · have hcond : (!P.isAdmin c && !(T.assignedTo == c)) = false := by
      rcases hok with h | h
      · simp [h]
      · simp [h]
    have hout : deleteTask s c id
        = (Task.deleteOne s T, ⟨200, true, "Task deleted successfully", Payload.empty⟩) := by
      simp only [deleteTask, hT, hP, hcond]
      rfl
    rw [hout]
    refine ⟨⟨fun _ => hok, fun _ => rfl⟩, ?_, fun _ => ⟨rfl, ?_, rfl, rfl, ?_, ?_⟩⟩
    · intro hA hc
      rcases hok with h | h
      · rw [hA] at h; cases h
      · exact absurd h hc
    · simp [Task.deleteOne, hid]
    · simp [Task.findById, Task.deleteOne, hid, List.find?_eq_none]
    · intro hU t ht
      simp only [Task.deleteOne, List.mem_filter, hid]
      constructor
      · rintro ⟨_, hne⟩ rfl
        simp [hid] at hne
      · intro hne
        refine ⟨ht, ?_⟩
        have : t._id ≠ id := fun h => hne (eq_of_task_findById hU hT ht h)
        simpa using this
  · have hA : P.isAdmin c = false := by
      cases h : P.isAdmin c with
      | false => rfl
      | true => exact absurd (Or.inl h) hok
    have hc : c ≠ T.assignedTo := fun h => hok (Or.inr h)
    have hown : (T.assignedTo == c) = false := by simpa using Ne.symm hc
    have hout : deleteTask s c id = (s, reject 403
        "You can only delete tasks that are assigned to you or if you are a project admin") := by
      simp [deleteTask, hT, hP, hA, hown]
    rw [hout]
    refine ⟨⟨fun h => (by cases h), fun h => absurd h hok⟩, fun _ _ => rfl, fun h => (by cases h)⟩

/-- C19, on the scenario: Carol, neither admin nor assignee, cannot delete task 11; Bob, its
assignee, can, and the task is then gone. -/
theorem deleteTask_spec_witness :
    (deleteTask demoStore 3 11).2.status = 403 ∧
    Task.findById (deleteTask demoStore 2 11).1 11 = none :=
  let h3 := deleteTask_spec demoStore 3 11 demoTask demoProject (by decide) (by decide)
  let h2 := deleteTask_spec demoStore 2 11 demoTask demoProject (by decide) (by decide)
  ⟨by rw [h3.2.1 (by decide) (by decide)]; rfl, (h2.2.2 (h2.1.2 (Or.inr (by decide)))).2.2.2.2.1⟩

/-- The outcome of `updateTask` on an existing task of an existing project, for a caller
who is an admin or the assignee: the fields are updated, the reassignment is resolved when
an admin supplies an email, and the document is saved. -/
theorem updateTask_allowed_eq (s : Store) (c id : Id) (body : UpdateTaskBody) (T : Task)
    (P : Project) (hT : Task.findById s id = some T)
    (hP : Project.findById s T.project = some P)
    (hok : (!P.isAdmin c && !(T.assignedTo == c)) = false) :
    updateTask s c id body =
      if (!falsy body.assignToEmail && P.isAdmin c) = true then
        match User.findOne s (body.assignToEmail.getD "") with
        | none => (s, reject 404 "User not found with this email")
        | some newAssignee =>
          if (!P.isMember newAssignee._id) = true then
            (s, reject 400 "Cannot assign task to user who is not a project member")
          else
            updateTaskSave s body
              { T with
                title := if falsy body.title then T.title else trim (body.title.getD "")
                description := match body.description with
                  | none => T.description
                  | some d => some (trim d)
                assignedTo := newAssignee._id }
      else
        updateTaskSave s body
          { T with
            title := if falsy body.title then T.title else trim (body.title.getD "")
            description := match body.description with
              | none => T.description
              | some d => some (trim d) } := by
  simp only [updateTask, hT, hP, hok, Bool.false_eq_true, if_false]
  cases falsy body.title <;> cases body.description <;> rfl

/-- C18. For an existing task `T` whose project `P` exists, `updateTask` is rejected with
403 exactly when the caller is neither an admin of `P` nor the assignee of `T`. When an
admin supplies `assignToEmail`, an unknown email is rejected with 404 and a user who is not
a member of `P` with 400; the assignee stored after the request differs from the former one
only if the caller is an admin and the email resolves to a member of `P`, who is the new
assignee. Every rejected request leaves the store, hence title and description of the
task, unchanged. -/
theorem updateTask_spec (s : Store) (c id : Id) (body : UpdateTaskBody) (T : Task)
    (P : Project) (hT : Task.findById s id = some T)
    (hP : Project.findById s T.project = some P) :
    ((updateTask s c id body).2.status = 403 ↔ (P.isAdmin c = false ∧ c ≠ T.assignedTo)) ∧
    (P.isAdmin c = true → falsy body.assignToEmail = false →
      (User.findOne s (body.assignToEmail.getD "") = none →
        updateTask s c id body = (s, reject 404 "User not found with this email")) ∧
      (∀ a : User, User.findOne s (body.assignToEmail.getD "") = some a →
        P.isMember a._id = false →
        updateTask s c id body
          = (s, reject 400 "Cannot assign task to user who is not a project member")) ∧
      (∀ a : User, User.findOne s (body.assignToEmail.getD "") = some a →
        P.isMember a._id = true → (updateTask s c id body).2.success = true →
        ∃ T1 : Task, Task.findById (updateTask s c id body).1 id = some T1 ∧
          T1.assignedTo = a._id)) ∧
    (∀ T1 : Task, Task.findById (updateTask s c id body).1 id = some T1 →
      T1.assignedTo ≠ T.assignedTo →
      P.isAdmin c = true ∧ falsy body.assignToEmail = false ∧
        ∃ a : User, User.findOne s (body.assignToEmail.getD "") = some a ∧
          P.isMember a._id = true ∧ T1.assignedTo = a._id) ∧
    ((updateTask s c id body).2.success = false →
      (updateTask s c id body).1 = s ∧ Task.findById (updateTask s c id body).1 id = some T) := by
  have hid : T._id = id := (mem_of_task_findById hT).2
  have hsave : ∀ t : Task, t._id = id →
      (updateTaskSave s body t = (s, reject 500 "Server error")) ∨
      (updateTaskSave s body t
          = (Task.save s t, ⟨200, true, "Task updated successfully", Payload.task t⟩) ∧
        Task.findById (Task.save s t) id = some t) := by
    intro t ht
    unfold updateTaskSave
    split
    · exact Or.inl rfl
    · exact Or.inr ⟨rfl, task_findById_save hT ht⟩
  by_cases hok : (!P.isAdmin c && !(T.assignedTo == c)) = true
  · have hA : P.isAdmin c = false := by
      simp only [Bool.and_eq_true, Bool.not_eq_true'] at hok
      exact hok.1
    have hc : c ≠ T.assignedTo := by
      simp only [Bool.and_eq_true, Bool.not_eq_true', beq_eq_false_iff_ne] at hok
      exact Ne.symm hok.2
    have hout : updateTask s c id body = (s, reject 403
        "You can only update tasks assigned to you or if you are a project admin") := by
      simp only [updateTask, hT, hP, hok, if_true]
    rw [hout]
    refine ⟨⟨fun _ => ⟨hA, hc⟩, fun _ => rfl⟩, ?_, ?_, fun _ => ⟨rfl, hT⟩⟩
    · intro h
      rw [hA] at h
      cases h
    · intro T1 hT1 hne
      rw [hT] at hT1
      cases hT1
      exact absurd rfl hne
  · have hok1 : (!P.isAdmin c && !(T.assignedTo == c)) = false := by simpa using hok
    have hnot : ¬ (P.isAdmin c = false ∧ c ≠ T.assignedTo) := by
      rintro ⟨hA, hc⟩
      apply hok
      have : (T.assignedTo == c) = false := by simpa using Ne.symm hc
      simp [hA, this]
    have hallow := updateTask_allowed_eq s c id body T P hT hP hok1
    have hkeep : ∀ (Q : Prop) (T1 : Task), Task.findById s id = some T1 →
        T1.assignedTo ≠ T.assignedTo → Q := by
      intro Q T1 hT1 hne
      rw [hT] at hT1
      cases hT1
      exact absurd rfl hne
    by_cases hre : (!falsy body.assignToEmail && P.isAdmin c) = true
    · have hA : P.isAdmin c = true := by
        simp only [Bool.and_eq_true] at hre
        exact hre.2
      have hE : falsy body.assignToEmail = false := by
        simp only [Bool.and_eq_true, Bool.not_eq_true'] at hre
        exact hre.1
      cases hU : User.findOne s (body.assignToEmail.getD "") with
      | none =>
        have hout : updateTask s c id body = (s, reject 404 "User not found with this email") := by
          rw [hallow]; simp only [hre, if_true, hU]
        rw [hout]
        refine ⟨⟨fun h => (by simp [reject] at h), fun h => absurd h hnot⟩, ?_, fun T1 h1 h2 => hkeep _ T1 h1 h2,
          fun _ => ⟨rfl, hT⟩⟩
        intro _ _
        exact ⟨fun _ => rfl, fun a ha => (by cases ha), fun a ha => (by cases ha)⟩
      | some a =>
        cases hM : P.isMember a._id with
        | false =>
          have hout : updateTask s c id body
              = (s, reject 400 "Cannot assign task to user who is not a project member") := by
            rw [hallow]; simp only [hre, if_true, hU, hM, Bool.not_false]
          rw [hout]
          refine ⟨⟨fun h => (by simp [reject] at h), fun h => absurd h hnot⟩, ?_, fun T1 h1 h2 => hkeep _ T1 h1 h2,
            fun _ => ⟨rfl, hT⟩⟩
          intro _ _
          refine ⟨fun h => (by cases h), fun b hb _ => rfl, fun b hb hbM => ?_⟩
          cases hb
          rw [hM] at hbM
          cases hbM
        | true =>
          have hout0 : updateTask s c id body = updateTaskSave s body
              { T with
                title := if falsy body.title then T.title else trim (body.title.getD "")
                description := match body.description with
                  | none => T.description
                  | some d => some (trim d)
                assignedTo := a._id } := by
            rw [hallow]
            simp only [hre, if_true, hU, hM, Bool.not_true, Bool.false_eq_true, if_false]
          rcases hsave
            { T with
              title := if falsy body.title then T.title else trim (body.title.getD "")
              description := match body.description with
                | none => T.description
                | some d => some (trim d)
              assignedTo := a._id } hid with h | ⟨h, hfind⟩
          · rw [hout0, h]
            refine ⟨⟨fun h => (by simp [reject] at h), fun h => absurd h hnot⟩, ?_, fun T1 h1 h2 => hkeep _ T1 h1 h2,
              fun _ => ⟨rfl, hT⟩⟩
            intro _ _
            refine ⟨fun h => (by cases h), fun b hb hbM => ?_, fun b _ _ hs => (by cases hs)⟩
            cases hb
            rw [hM] at hbM
            cases hbM
          · rw [hout0, h]
            refine ⟨⟨fun h => (by cases h), fun h => absurd h hnot⟩, ?_, ?_,
              fun h => (by cases h)⟩
            · intro _ _
              refine ⟨fun h => (by cases h), fun b hb hbM => ?_, fun b hb _ _ => ?_⟩
              · cases hb
                rw [hM] at hbM
                cases hbM
              · cases hb
                exact ⟨_, hfind, rfl⟩
            · intro T1 hT1 _
              rw [hfind] at hT1
              cases hT1
              exact ⟨hA, hE, a, rfl, hM, rfl⟩
    · have hout0 : updateTask s c id body = updateTaskSave s body
          { T with
            title := if falsy body.title then T.title else trim (body.title.getD "")
            description := match body.description with
              | none => T.description
              | some d => some (trim d) } := by
        rw [hallow]
        simp only [hre, Bool.false_eq_true, if_false]
      have hno : P.isAdmin c = true → falsy body.assignToEmail = false → False := by
        intro hA hE
        apply hre
        simp [hA, hE]
      rcases hsave
        { T with
          title := if falsy body.title then T.title else trim (body.title.getD "")
          description := match body.description with
            | none => T.description
            | some d => some (trim d) } hid with h | ⟨h, hfind⟩
      · rw [hout0, h]
        exact ⟨⟨fun h => (by simp [reject] at h), fun h => absurd h hnot⟩,
          fun hA hE => False.elim (hno hA hE), fun T1 h1 h2 => hkeep _ T1 h1 h2,
          fun _ => ⟨rfl, hT⟩⟩
      · rw [hout0, h]
        refine ⟨⟨fun h => (by cases h), fun h => absurd h hnot⟩,
          fun hA hE => False.elim (hno hA hE), ?_, fun h => (by cases h)⟩
        intro T1 hT1 hne
        rw [hfind] at hT1
        cases hT1
        exact absurd rfl hne

/-- C18, on the scenario: Alice, admin, reassigns task 11 to Carol, who is not a member,
and is rejected with 400; an unknown email gives 404; in both cases nothing is written. -/
theorem updateTask_spec_witness :
    updateTask demoStore 1 11 ⟨some "New title", none, some "carol@example.com"⟩
      = (demoStore, reject 400 "Cannot assign task to user who is not a project member") ∧
    updateTask demoStore 1 11 ⟨some "New title", none, some "nobody@example.com"⟩
      = (demoStore, reject 404 "User not found with this email") :=
  ⟨((updateTask_spec demoStore 1 11 ⟨some "New title", none, some "carol@example.com"⟩
      demoTask demoProject (by decide) (by decide)).2.1 (by decide) (by decide)).2.1
      ⟨3, "Carol", "carol@example.com"⟩ (by decide) (by decide),
    ((updateTask_spec demoStore 1 11 ⟨some "New title", none, some "nobody@example.com"⟩
      demoTask demoProject (by decide) (by decide)).2.1 (by decide) (by decide)).1 (by decide)⟩

/-! ## Claim on project updates -/

/-- C20, as stated, fails: in the reachable scenario store Alice (id 1) is an admin of
project 10, yet her `updateProject` request with a name made of spaces does not succeed:
the schema rejects the trimmed name and the handler answers 500, leaving the project
unchanged. -/
theorem updateProject_admin_blank_name_fails :
    Reachable demoStore ∧
    (Project.findById demoStore 10).map (fun P => P.isAdmin 1) = some true ∧
    (updateProject demoStore 1 10 ⟨some "   ", none⟩).2.success = false ∧
    (updateProject demoStore 1 10 ⟨some "   ", none⟩).2.status = 500 ∧
    (updateProject demoStore 1 10 ⟨some "   ", none⟩).1 = demoStore :=
  ⟨demoStore_reachable, by decide⟩

/-- C20, amended. For an existing project `P`, `updateProject` is rejected with 403 exactly
when the caller is not an admin of `P` (a plain member or a user who is not a member), and
then nothing is written; it succeeds only for an admin, and for an admin it succeeds
whenever no name is supplied, the supplied name is empty, or the supplied name is not blank
after trimming. On success the stored project is `P` with the trimmed supplied name when a
non-empty name is supplied and the trimmed supplied description whenever one is supplied;
`createdBy`, `members`, `_id` and `createdAt` are unchanged. A request that does not
succeed writes nothing. -/
theorem updateProject_spec (s : Store) (c id : Id) (body : ProjectBody) (P : Project)
    (hP : Project.findById s id = some P) :
    ((updateProject s c id body).2.status = 403 ↔ P.isAdmin c = false) ∧
    (P.isAdmin c = false →
      updateProject s c id body
        = (s, reject 403 "Only project admins can update this project")) ∧
    ((updateProject s c id body).2.success = true → P.isAdmin c = true) ∧
    (P.isAdmin c = true → (falsy body.name = true ∨ trim (body.name.getD "") ≠ "") →
      (updateProject s c id body).2.success = true) ∧
    ((updateProject s c id body).2.success = true →
      ∃ P1 : Project,
        updateProject s c id body
          = (Project.save s P1, ⟨200, true, "Project updated successfully", Payload.project P1⟩) ∧
        Project.findById (updateProject s c id body).1 id = some P1 ∧
        P1.name = (if falsy body.name then P.name else trim (body.name.getD "")) ∧
        P1.description = (match body.description with
          | none => P.description
          | some d => some (trim d)) ∧
        P1.createdBy = P.createdBy ∧ P1.members = P.members ∧ P1._id = P._id ∧
        P1.createdAt = P.createdAt) ∧
    ((updateProject s c id body).2.success = false → (updateProject s c id body).1 = s) := by
  have hid : P._id = id := (mem_of_findById hP).2
  cases hA : P.isAdmin c with
  | false =>
    have hout : updateProject s c id body
        = (s, reject 403 "Only project admins can update this project") := by
      simp [updateProject, hP, hA]
    rw [hout]
    simp [reject]
  | true =>
    have hallow : updateProject s c id body =
        if (!falsy body.name && trim (body.name.getD "") == "") = true then
          (s, reject 500 "Server error")
        else
          (Project.save s
              { P with
                name := if falsy body.name then P.name else trim (body.name.getD "")
                description := match body.description with
                  | none => P.description
                  | some d => some (trim d) },
            ⟨200, true, "Project updated successfully",
              Payload.project
                { P with
                  name := if falsy body.name then P.name else trim (body.name.getD "")
                  description := match body.description with
                    | none => P.description
                    | some d => some (trim d) }⟩) := by
      simp only [updateProject, hP, hA, Bool.not_true, Bool.false_eq_true, if_false]
      cases falsy body.name <;> cases body.description <;> rfl
    by_cases hv : (!falsy body.name && trim (body.name.getD "") == "") = true
    · have hout : updateProject s c id body = (s, reject 500 "Server error") := by
        rw [hallow]; simp only [hv, if_true]
      rw [hout]
      refine ⟨⟨fun h => (by simp [reject] at h), fun h => (by cases h)⟩, fun h => (by cases h),
        fun _ => rfl, ?_, fun h => (by cases h), fun _ => rfl⟩
      intro _ hn
      exfalso
      simp only [Bool.and_eq_true, Bool.not_eq_true', beq_iff_eq] at hv
      rcases hn with hn | hn
      · rw [hv.1] at hn; cases hn
      · exact hn hv.2
    · have hout : updateProject s c id body =
          (Project.save s
              { P with
                name := if falsy body.name then P.name else trim (body.name.getD "")
                description := match body.description with
                  | none => P.description
                  | some d => some (trim d) },
            ⟨200, true, "Project updated successfully",
              Payload.project
                { P with
                  name := if falsy body.name then P.name else trim (body.name.getD "")
                  description := match body.description with
                    | none => P.description
                    | some d => some (trim d) }⟩) := by
        rw [hallow]; simp only [hv, Bool.false_eq_true, if_false]
      rw [hout]
      refine ⟨⟨fun h => (by cases h), fun h => (by cases h)⟩, fun h => (by cases h),
        fun _ => rfl, fun _ _ => rfl, fun _ => ?_, fun h => (by cases h)⟩
      exact ⟨_, rfl, project_findById_save hP hid, rfl, rfl, rfl, rfl, rfl, rfl⟩

/-- C20 amended, on the scenario: Bob, a plain member, is rejected with 403; Alice renames
the project and is answered with success. -/
theorem updateProject_spec_witness :
    updateProject demoStore 2 10 ⟨some "Gemini", none⟩
      = (demoStore, reject 403 "Only project admins can update this project") ∧
    (updateProject demoStore 1 10 ⟨some " Gemini ", some "Second try"⟩).2.success = true ∧
    (Project.findById (updateProject demoStore 1 10 ⟨some " Gemini ", some "Second try"⟩).1 10).map
      (fun P => (P.name, P.description, P.createdBy, P.members))
      = some ("Gemini", some "Second try", 1, demoProject.members) :=
  ⟨(updateProject_spec demoStore 2 10 ⟨some "Gemini", none⟩ demoProject (by decide)).2.1
      (by decide),
    (updateProject_spec demoStore 1 10 ⟨some " Gemini ", some "Second try"⟩ demoProject
      (by decide)).2.2.2.1 (by decide) (Or.inr (by decide)),
    by decide⟩

/-! ## Member references resolve -/

/-- Member references keep resolving across a request, provided that the caller of a
`createProject` request is a registered user (which `protect` guarantees). -/
theorem membersRegistered_handle {s : Store} (hs : MembersRegistered s) (r : Request)
    (hr : ∀ user body now, r = Request.createProject user body now →
      (User.findById s user).isSome = true) :
    MembersRegistered (handle s r).1 := by
  have husers : ∀ i : Id, User.findById (handle s r).1 i = User.findById s i := by
    intro i
    simp only [User.findById, handle_users]
  have hsave : ∀ p : Project,
      (∀ m ∈ p.members, (User.findById s m.user.id).isSome = true) →
      ∀ q ∈ (Project.save s p).projects, ∀ m ∈ q.members,
        (User.findById s m.user.id).isSome = true := by
    intro p hp q hq
    simp only [Project.save, List.mem_map] at hq
    obtain ⟨q0, hq0, rfl⟩ := hq
    split
    · exact hp
    · exact hs q0 hq0
  suffices key : ∀ p ∈ (handle s r).1.projects, ∀ m ∈ p.members,
      (User.findById s m.user.id).isSome = true by
    intro p hp m hm
    rw [husers]
    exact key p hp m hm
  clear husers
  cases r with
  | createProject user body now =>
    have hu := hr user body now rfl
    simp only [handle, createProject]
    repeat' split
    · exact fun p hp m hm => hs p hp m hm
    · exact fun p hp m hm => hs p hp m hm
    · intro p hp m hm
      simp only [List.mem_append, List.mem_singleton] at hp
      rcases hp with hp | rfl
      · exact hs p hp m hm
      · simp only [List.mem_singleton] at hm
        rw [hm]
        exact hu
  | updateProject user id body =>
    simp only [handle]
    rcases updateProject_store s user id body with h | ⟨p, name, description, hp, _, h⟩
    · rw [h]; exact fun p hp m hm => hs p hp m hm
    · rw [h]
      intro q hq m hm
      refine hsave _ ?_ q hq m hm
      exact fun x hx => hs p (mem_of_findById hp).1 x hx
  | deleteProject user id =>
    simp only [handle, deleteProject]
    repeat' split
    · exact fun p hp m hm => hs p hp m hm
    · exact fun p hp m hm => hs p hp m hm
    · intro p hp m hm
      simp only [Project.deleteOne, Task.deleteMany, List.mem_filter] at hp
      exact hs p hp.1 m hm
  | addMember user projectId body now =>
    simp only [handle, behindAdmin]
    split
    · exact fun p hp m hm => hs p hp m hm
    · rename_i project hok
      obtain ⟨id, _, hfind, _⟩ := checkProjectAdmin_ok hok
      rcases addMember_store s project body now with h | ⟨a, ha, _, h⟩
      · rw [h]; exact fun p hp m hm => hs p hp m hm
      · rw [h]
        intro q hq m hm
        refine hsave _ ?_ q hq m hm
        intro x hx
        simp only [List.mem_append, List.mem_singleton] at hx
        rcases hx with hx | rfl
        · exact hs project (mem_of_findById hfind).1 x hx
        · exact findById_isSome_of_findOne ha
  | promoteMember user projectId userId =>
    simp only [handle, behindAdmin]
    split
    · exact fun p hp m hm => hs p hp m hm
    · rename_i project hok
      obtain ⟨id, _, hfind, _⟩ := checkProjectAdmin_ok hok
      rcases promoteMember_store s project userId with h | ⟨i, m0, hi, _, h⟩
      · rw [h]; exact fun p hp m hm => hs p hp m hm
      · rw [h]
        intro q hq m hm
        refine hsave _ ?_ q hq m hm
        intro x hx
        rcases List.mem_or_eq_of_mem_set hx with hx | rfl
        · exact hs project (mem_of_findById hfind).1 x hx
        · exact hs project (mem_of_findById hfind).1 m0 (List.getElem?_mem hi)
  | removeMember user projectId userId =>
    simp only [handle, behindAdmin]
    split
    · exact fun p hp m hm => hs p hp m hm
    · rename_i project hok
      obtain ⟨id, _, hfind, _⟩ := checkProjectAdmin_ok hok
      rcases removeMember_store s project userId with h | ⟨i, m0, _, _, _, h⟩
      · rw [h]; exact fun p hp m hm => hs p hp m hm
      · rw [h]
        intro q hq m hm
        refine hsave _ ?_ q hq m hm
        intro x hx
        exact hs project (mem_of_findById hfind).1 x (List.eraseIdx_subset _ _ hx)
  | createTask user body now =>
    simp only [handle, behindAdmin]
    split
    · exact fun p hp m hm => hs p hp m hm
    · rw [createTask_projects]; exact fun p hp m hm => hs p hp m hm
  | updateTask user id body =>
    simp only [handle]; rw [updateTask_projects]; exact fun p hp m hm => hs p hp m hm
  | updateTaskStatus user id body =>
    simp only [handle]; rw [updateTaskStatus_projects]; exact fun p hp m hm => hs p hp m hm
  | deleteTask user id =>
    simp only [handle]; rw [deleteTask_projects]; exact fun p hp m hm => hs p hp m hm

/-- Member references resolve after every sequence of requests whose `createProject`
requests come from registered callers. -/
theorem membersRegistered_run {s : Store} (hs : MembersRegistered s) (rs : List Request)
    (hrs : ∀ r ∈ rs, ∀ user body now, r = Request.createProject user body now →
      (User.findById s user).isSome = true) :
    MembersRegistered (run s rs) := by
  induction rs generalizing s with
  | nil => exact hs
  | cons r rs ih =>
    refine ih (membersRegistered_handle hs r (hrs r (List.mem_cons_self _ _))) ?_
    intro r1 hr1 user body now h
    have := hrs r1 (List.mem_cons_of_mem _ hr1) user body now h
    simpa only [User.findById, handle_users] using this



/-! ## Rejections write nothing -/

/-- A response sent by `checkProjectAdmin` is a rejection. -/
theorem checkProjectAdmin_error {s : Store} {user : Id} {projectId : Option Id} {res : Response}
    (h : checkProjectAdmin s user projectId = Except.error res) : res.success = false := by
  unfold checkProjectAdmin at h
  repeat' split at h
  all_goals first
    | (cases h; rfl)
    | cases h

/-- C21. Policies are enforced before mutation: whatever the operation (`createProject`,
`updateProject`, `deleteProject`, `addMember`, `promoteMember`, `removeMember`,
`createTask`, `updateTask`, `updateTaskStatus`, `deleteTask`, the member and task-creation
routes behind `checkProjectAdmin`), a request that is not answered with a success leaves
the store unchanged; in particular a rejection with status 400, 403 or 404 does. -/
theorem rejected_request_writes_nothing (s : Store) (r : Request) :
    ((handle s r).2.success = false → (handle s r).1 = s) ∧
    (((handle s r).2.status = 400 ∨ (handle s r).2.status = 403 ∨
        (handle s r).2.status = 404) →
      (handle s r).2.success = false ∧ (handle s r).1 = s ∧
      (handle s r).1.projects = s.projects ∧ (handle s r).1.tasks = s.tasks) := by
  have key : ((handle s r).2.success = false → (handle s r).1 = s) ∧
      (((handle s r).2.status = 400 ∨ (handle s r).2.status = 403 ∨
        (handle s r).2.status = 404) → (handle s r).2.success = false) := by
    cases r with
    | createProject user body now =>
      simp only [handle, createProject]
      repeat' split
      all_goals simp [reject]
    | updateProject user id body =>
      simp only [handle, updateProject]
      repeat' split
      all_goals simp [reject]
    | deleteProject user id =>
      simp only [handle, deleteProject]
      repeat' split
      all_goals simp [reject]
    | addMember user projectId body now =>
      simp only [handle, behindAdmin]
      split
      · rename_i res hres
        have hrej := checkProjectAdmin_error hres
        simp [hrej]
      · simp only [addMember]
        repeat' split
        all_goals simp [reject]
    | promoteMember user projectId userId =>
      simp only [handle, behindAdmin]
      split
      · rename_i res hres
        have hrej := checkProjectAdmin_error hres
        simp [hrej]
      · simp only [promoteMember]
        repeat' split
        all_goals simp [reject]
    | removeMember user projectId userId =>
      simp only [handle, behindAdmin]
      split
      · rename_i res hres
        have hrej := checkProjectAdmin_error hres
        simp [hrej]
      · simp only [removeMember]
        repeat' split
        all_goals simp [reject]
    | createTask user body now =>
      simp only [handle, behindAdmin]
      split
      · rename_i res hres
        have hrej := checkProjectAdmin_error hres
        simp [hrej]
      · simp only [createTask]
        repeat' split
        all_goals simp [reject]
    | updateTask user id body =>
      simp only [handle, updateTask, updateTaskSave]
      repeat' split
      all_goals simp [reject]
    | updateTaskStatus user id body =>
      simp only [handle, updateTaskStatus]
      repeat' split
      all_goals simp [reject]
    | deleteTask user id =>
      simp only [handle, deleteTask]
      repeat' split
      all_goals simp [reject]
  refine ⟨key.1, fun h => ?_⟩
  have hs := key.1 (key.2 h)
  exact ⟨key.2 h, hs, by rw [hs], by rw [hs]⟩

/-- C21, on the scenario: Bob, a plain member, asks to remove Alice and is rejected with
403; the store is unchanged. -/
theorem rejected_request_writes_nothing_witness :
    (handle demoStore (Request.removeMember 2 10 1)).2.status = 403 ∧
    (handle demoStore (Request.removeMember 2 10 1)).1 = demoStore :=
  ⟨by decide,
    ((rejected_request_writes_nothing demoStore (Request.removeMember 2 10 1)).2
      (Or.inr (Or.inl (by decide)))).2.1⟩



/-! ## The status domain -/

/-- Every request keeps the statuses of all tasks within the three values of the schema. -/
theorem statusValid_handle {s : Store} (hs : StatusValid s) (r : Request) :
    StatusValid (handle s r).1 := by
  unfold StatusValid at hs ⊢
  cases r with
  | createProject user body now =>
    simp only [handle, createProject]
    repeat' split
    all_goals exact hs
  | updateProject user id body =>
    simp only [handle]
    rcases updateProject_store s user id body with h | ⟨p, name, description, _, _, h⟩ <;>
      (rw [h]; exact hs)
  | deleteProject user id =>
    simp only [handle, deleteProject]
    repeat' split
    · exact hs
    · exact hs
    · intro t ht
      simp only [Project.deleteOne, Task.deleteMany, List.mem_filter] at ht
      exact hs t ht.1
  | addMember user projectId body now =>
    simp only [handle, behindAdmin]
    split
    · exact hs
    · rename_i project _
      rcases addMember_store s project body now with h | ⟨a, _, _, h⟩ <;> (rw [h]; exact hs)
  | promoteMember user projectId userId =>
    simp only [handle, behindAdmin]
    split
    · exact hs
    · rename_i project _
      rcases promoteMember_store s project userId with h | ⟨i, m, _, _, h⟩ <;>
        (rw [h]; exact hs)
  | removeMember user projectId userId =>
    simp only [handle, behindAdmin]
    split
    · exact hs
    · rename_i project _
      rcases removeMember_store s project userId with h | ⟨i, m, _, _, _, h⟩ <;>
        (rw [h]; exact hs)
  | createTask user body now =>
    simp only [handle, behindAdmin]
    split
    · exact hs
    · simp only [createTask]
      repeat' split
      all_goals first
        | exact hs
        | (intro t ht
           simp only [List.mem_append, List.mem_singleton] at ht
           rcases ht with ht | rfl
           · exact hs t ht
           · simp [validStatuses])
  | updateTask user id body =>
    simp only [handle, updateTask, updateTaskSave]
    repeat' split
    all_goals first
      | exact hs
      | (intro t ht
         simp only [Task.save, List.mem_map] at ht
         obtain ⟨q, hq, rfl⟩ := ht
         split
         · have h1 := hs _ (mem_of_task_findById ‹Task.findById s _ = some _›).1
           exact h1
         · exact hs q hq)
  | updateTaskStatus user id body =>
    simp only [handle, updateTaskStatus]
    repeat' split
    all_goals first
      | exact hs
      | (intro t ht
         simp only [Task.save, List.mem_map] at ht
         obtain ⟨q, hq, rfl⟩ := ht
         split
         · have hvalid := ‹¬(!validStatuses.contains (body.status.getD "")) = true›
           simpa using hvalid
         · exact hs q hq)
  | deleteTask user id =>
    simp only [handle, deleteTask]
    repeat' split
    all_goals first
      | exact hs
      | (intro t ht
         simp only [Task.deleteOne, List.mem_filter] at ht
         exact hs t ht.1)

/-- The statuses stay valid along every sequence of requests. -/
theorem statusValid_run {s : Store} (hs : StatusValid s) (rs : List Request) :
    StatusValid (run s rs) := by
  induction rs generalizing s with
  | nil => exact hs
  | cons r rs ih => exact ih (statusValid_handle hs r)

/-- The statuses are valid in every reachable store. -/
theorem statusValid_of_reachable {s : Store} (h : Reachable s) : StatusValid s := by
  induction h with
  | init users nextId => intro t ht; simp at ht
  | step r _ ih => exact statusValid_handle ih r

/-- C22. Status domain: `createTask` stores a new task with status todo;
`updateTaskStatus` answers 400 to a missing status and to a status outside todo,
in-progress, done, whether or not the task exists, and writes nothing; the statuses of all
tasks stay within the three values along every sequence of requests, so in every reachable
store every task has status todo, in-progress or done. -/
theorem task_status_domain :
    (∀ (s : Store) (user : Id) (body : CreateTaskBody) (now : Nat),
      (createTask s user body now).1 = s ∨
        ∃ t : Task, (createTask s user body now).1.tasks = s.tasks ++ [t] ∧
          (createTask s user body now).2.data = Payload.task t ∧ t.status = "todo") ∧
    (∀ (s : Store) (user id : Id) (body : StatusBody),
      (falsy body.status = true ∨ body.status.getD "" ∉ validStatuses) →
        (updateTaskStatus s user id body).2.status = 400 ∧
        (updateTaskStatus s user id body).1 = s) ∧
    (∀ (s : Store), (∀ t ∈ s.tasks, t.status ∈ validStatuses) → ∀ (rs : List Request),
      ∀ t ∈ (run s rs).tasks, t.status ∈ validStatuses) ∧
    (∀ (s : Store), Reachable s → ∀ t ∈ s.tasks,
      t.status = "todo" ∨ t.status = "in-progress" ∨ t.status = "done") := by
  refine ⟨?_, ?_, ?_, ?_⟩
  · intro s user body now
    simp only [createTask]
    repeat' split
    all_goals first
      | exact Or.inl rfl
      | exact Or.inr ⟨_, rfl, rfl, rfl⟩
  · intro s user id body h
    simp only [updateTaskStatus]
    split
    · exact ⟨rfl, rfl⟩
    · split
      · exact ⟨rfl, rfl⟩
      · rename_i hf hv
        exfalso
        rcases h with h | h
        · exact hf h
        · apply h
          simpa using hv
  · intro s hs rs
    exact statusValid_run hs rs
  · intro s hR t ht
    have := statusValid_of_reachable hR t ht
    simpa [validStatuses] using this

/-- C22, on the scenario: the task of the reachable store has status todo, and an
unknown status is answered with 400 even for a task id that does not exist. -/
theorem task_status_domain_witness :
    (demoTask.status = "todo" ∨ demoTask.status = "in-progress" ∨ demoTask.status = "done") ∧
    (updateTaskStatus demoStore 2 99 ⟨some "archived"⟩).2.status = 400 :=
  ⟨task_status_domain.2.2.2 demoStore demoStore_reachable demoTask (by decide),
    (task_status_domain.2.1 demoStore 2 99 ⟨some "archived"⟩ (Or.inr (by decide))).1⟩



/-! ## Status changes -/

/-- The scenario store after Bob has moved task 11 to done is reachable. -/
theorem demoDone_reachable : Reachable demoDone :=
  reachable_run demoStore_reachable [Request.updateTaskStatus 2 11 ⟨some "done"⟩]

/-- The status requested by the frontend is one of the three statuses. -/
theorem nextStatus_valid (currentStatus : String) : nextStatus currentStatus ∈ validStatuses := by
  by_cases h1 : currentStatus = "todo"
  · subst h1; decide
  · by_cases h2 : currentStatus = "in-progress"
    · subst h2; decide
    · by_cases h3 : currentStatus = "done"
      · subst h3; decide
      · have h1' : ("todo" == currentStatus) = false := by simpa using Ne.symm h1
        have h2' : ("in-progress" == currentStatus) = false := by simpa using Ne.symm h2
        have h3' : ("done" == currentStatus) = false := by simpa using Ne.symm h3
        simp [nextStatus, List.indexOf?, List.findIdx?_cons, h1', h2', h3', validStatuses]

/-- C23, as stated, fails: in the reachable scenario Bob, assignee of task 11, moves it from
todo directly to done, skipping in-progress, and then from done back to todo; both requests
succeed. The frontend itself asks for todo after done. -/
theorem status_skips_and_goes_back :
    Reachable demoStore ∧ Reachable demoDone ∧
    (Task.findById demoStore 11).map (fun T => T.status) = some "todo" ∧
    (updateTaskStatus demoStore 2 11 ⟨some "done"⟩).2.success = true ∧
    (Task.findById demoDone 11).map (fun T => T.status) = some "done" ∧
    (updateTaskStatus demoDone 2 11 ⟨some "todo"⟩).2.success = true ∧
    (Task.findById (updateTaskStatus demoDone 2 11 ⟨some "todo"⟩).1 11).map (fun T => T.status)
      = some "todo" ∧
    nextStatus "done" = "todo" :=
  ⟨demoStore_reachable, demoDone_reachable, by decide⟩

/-- C23, amended. Status changes are not tied to the order todo, in-progress, done: for an
existing task, a request of its assignee with any of the three statuses succeeds and
stores that status, whatever the current status. The frontend asks for the status after the
current one cyclically (todo, in-progress, done, then todo again), which is always one of
the three, so its request succeeds as well. -/
theorem status_change_unconstrained (s : Store) (c id : Id) (T : Task) (st : String)
    (hT : Task.findById s id = some T) (hc : T.assignedTo = c) (hst : st ∈ validStatuses) :
    (updateTaskStatus s c id ⟨some st⟩).2.success = true ∧
    Task.findById (updateTaskStatus s c id ⟨some st⟩).1 id = some { T with status := st } ∧
    (nextStatus "todo" = "in-progress" ∧ nextStatus "in-progress" = "done" ∧
      nextStatus "done" = "todo") ∧
    (updateTaskStatus s c id ⟨some (nextStatus T.status)⟩).2.success = true ∧
    Task.findById (updateTaskStatus s c id ⟨some (nextStatus T.status)⟩).1 id
      = some { T with status := nextStatus T.status } := by
  have hid : T._id = id := (mem_of_task_findById hT).2
  have hown : (T.assignedTo != c) = false := by simp [hc]
  have key : ∀ st1 : String, st1 ∈ validStatuses →
      updateTaskStatus s c id ⟨some st1⟩
        = (Task.save s { T with status := st1 },
            ⟨200, true, "Task status updated successfully",
              Payload.task { T with status := st1 }⟩) := by
    intro st1 h1
    have hne : st1 ≠ "" := by
      rintro rfl
      simp [validStatuses] at h1
    have hfalsy : falsy (some st1) = false := by simpa [falsy] using hne
    have hvalid : validStatuses.contains st1 = true := by simpa using h1
    simp only [updateTaskStatus, hfalsy, hvalid, hT, hown, Option.getD_some, Bool.not_true,
      Bool.false_eq_true, if_false]
  rw [key st hst, key _ (nextStatus_valid T.status)]
  exact ⟨rfl, task_findById_save hT hid, ⟨by decide, by decide, by decide⟩, rfl,
    task_findById_save hT hid⟩

/-- C23 amended, on the scenario: Bob moves his finished task back to todo. -/
theorem status_change_unconstrained_witness :
    (updateTaskStatus demoDone 2 11 ⟨some "todo"⟩).2.success = true ∧
    Task.findById (updateTaskStatus demoDone 2 11 ⟨some "todo"⟩).1 11
      = some { demoTask with status := "todo" } :=
  let h := status_change_unconstrained demoDone 2 11 { demoTask with status := "done" } "todo"
    (by decide) (by decide) (by decide)
  ⟨h.1, h.2.1⟩



/-! ## Lookups across writes -/

/-- A lookup after a project is saved: the document found before, replaced by the saved
one when it has its id. -/
theorem project_findById_save_eq (s : Store) (p : Project) (j : Id) :
    Project.findById (Project.save s p) j
      = (Project.findById s j).map fun q => if q._id == p._id then p else q := by
  unfold Project.findById Project.save
  simp only
  induction s.projects with
  | nil => rfl
  | cons x xs ih =>
    simp only [List.map_cons, List.find?_cons]
    by_cases hx : x._id = p._id
    · have hx1 : (x._id == p._id) = true := by simpa using hx
      simp only [hx1, if_true]
      by_cases hj : p._id = j
      · have hj1 : (p._id == j) = true := by simpa using hj
        have hj2 : (x._id == j) = true := by simpa [hx] using hj
        simp [hj1, hj2, hx]
      · have hj1 : (p._id == j) = false := by simpa using hj
        have hj2 : (x._id == j) = false := by simpa [hx] using hj
        simp only [hj1, hj2]
        exact ih
    · have hx1 : (x._id == p._id) = false := by simpa using hx
      simp only [hx1, Bool.false_eq_true, if_false]
      cases hj : x._id == j with
      | true => simp [hx]
      | false => exact ih

/-- A lookup after a task is saved: the document found before, replaced by the saved one
when it has its id. -/
theorem task_findById_save_eq (s : Store) (t : Task) (j : Id) :
    Task.findById (Task.save s t) j
      = (Task.findById s j).map fun q => if q._id == t._id then t else q := by
  unfold Task.findById Task.save
  simp only
  induction s.tasks with
  | nil => rfl
  | cons x xs ih =>
    simp only [List.map_cons, List.find?_cons]
    by_cases hx : x._id = t._id
    · have hx1 : (x._id == t._id) = true := by simpa using hx
      simp only [hx1, if_true]
      by_cases hj : t._id = j
      · have hj1 : (t._id == j) = true := by simpa using hj
        have hj2 : (x._id == j) = true := by simpa [hx] using hj
        simp [hj1, hj2, hx]
      · have hj1 : (t._id == j) = false := by simpa using hj
        have hj2 : (x._id == j) = false := by simpa [hx] using hj
        simp only [hj1, hj2]
        exact ih
    · have hx1 : (x._id == t._id) = false := by simpa using hx
      simp only [hx1, Bool.false_eq_true, if_false]
      cases hj : x._id == j with
      | true => simp [hx]
      | false => exact ih

/-- The outcome of `updateTask`: nothing is written, or the addressed task is saved with
possibly new title, description and assignee and nothing else changed. -/
theorem updateTask_store (s : Store) (c rid : Id) (body : UpdateTaskBody) :
    (updateTask s c rid body).1 = s ∨
      ∃ (T : Task) (title : String) (description : Option String) (assignedTo : Id),
        Task.findById s rid = some T ∧
        (updateTask s c rid body).1
          = Task.save s
              { T with title := title, description := description, assignedTo := assignedTo } := by
  simp only [updateTask, updateTaskSave]
  repeat' split
  all_goals first
    | exact Or.inl rfl
    | (have hT := ‹Task.findById s rid = some _›
       exact Or.inr ⟨_, _, _, _, hT, rfl⟩)

/-- The outcome of `updateTaskStatus`: nothing is written, or the addressed task is saved
with a new status and nothing else changed. -/
theorem updateTaskStatus_store (s : Store) (c rid : Id) (body : StatusBody) :
    (updateTaskStatus s c rid body).1 = s ∨
      ∃ (T : Task) (status : String), Task.findById s rid = some T ∧
        (updateTaskStatus s c rid body).1 = Task.save s { T with status := status } := by
  simp only [updateTaskStatus]
  repeat' split
  all_goals first
    | exact Or.inl rfl
    | (have hT := ‹Task.findById s rid = some _›
       exact Or.inr ⟨_, _, hT, rfl⟩)



/-! ## Frame properties -/

/-- C24. The project reference of a task is immutable: for a task `T` found under an id,
after any `updateTaskStatus` or `updateTask` request (addressed to that id or to another
one, by any caller, with any body) the task found under the id has the `project`,
`createdBy`, `_id` and `createdAt` of `T`; after `updateTaskStatus` it also has its title,
description and assignee, so only the status can differ; after `updateTask` it also has its
status, so only title, description and assignee can differ. A request addressed to another
id leaves `T` as it is. -/
theorem task_references_immutable (s : Store) (c rid id : Id) (T : Task)
    (hT : Task.findById s id = some T) :
    (∀ body : StatusBody, ∃ T1 : Task,
      Task.findById (updateTaskStatus s c rid body).1 id = some T1 ∧
      T1.project = T.project ∧ T1.createdBy = T.createdBy ∧ T1._id = T._id ∧
      T1.createdAt = T.createdAt ∧ T1.title = T.title ∧ T1.description = T.description ∧
      T1.assignedTo = T.assignedTo) ∧
    (∀ body : UpdateTaskBody, ∃ T1 : Task,
      Task.findById (updateTask s c rid body).1 id = some T1 ∧
      T1.project = T.project ∧ T1.createdBy = T.createdBy ∧ T1._id = T._id ∧
      T1.createdAt = T.createdAt ∧ T1.status = T.status) ∧
    (rid ≠ id → ∀ (body : StatusBody) (body1 : UpdateTaskBody),
      Task.findById (updateTaskStatus s c rid body).1 id = some T ∧
      Task.findById (updateTask s c rid body1).1 id = some T) := by
  have hid : T._id = id := (mem_of_task_findById hT).2
  have hsame : ∀ T2 : Task, Task.findById s rid = some T2 → (T._id == T2._id) = true → T2 = T := by
    intro T2 hT2 h
    have h2 : T2._id = rid := (mem_of_task_findById hT2).2
    have : id = rid := by rw [← hid, ← h2]; exact beq_iff_eq.1 h
    subst this
    rw [hT] at hT2
    exact (Option.some.inj hT2).symm
  have hother : ∀ T2 : Task, Task.findById s rid = some T2 → rid ≠ id →
      (T._id == T2._id) = false := by
    intro T2 hT2 hne
    have h2 : T2._id = rid := (mem_of_task_findById hT2).2
    rw [hid, h2]
    simpa using Ne.symm hne
  refine ⟨?_, ?_, ?_⟩
  · intro body
    rcases updateTaskStatus_store s c rid body with h | ⟨T2, st, hT2, h⟩
    · rw [h]; exact ⟨T, hT, rfl, rfl, rfl, rfl, rfl, rfl, rfl⟩
    · rw [h, task_findById_save_eq, hT]
      simp only [Option.map_some']
      cases hc : T._id == T2._id with
      | true =>
        have := hsame T2 hT2 hc
        subst this
        exact ⟨_, rfl, rfl, rfl, rfl, rfl, rfl, rfl, rfl⟩
      | false => exact ⟨T, rfl, rfl, rfl, rfl, rfl, rfl, rfl, rfl⟩
  · intro body
    rcases updateTask_store s c rid body with h | ⟨T2, title, description, assignedTo, hT2, h⟩
    · rw [h]; exact ⟨T, hT, rfl, rfl, rfl, rfl, rfl⟩
    · rw [h, task_findById_save_eq, hT]
      simp only [Option.map_some']
      cases hc : T._id == T2._id with
      | true =>
        have := hsame T2 hT2 hc
        subst this
        exact ⟨_, rfl, rfl, rfl, rfl, rfl, rfl⟩
      | false => exact ⟨T, rfl, rfl, rfl, rfl, rfl, rfl⟩
  · intro hne body body1
    constructor
    · rcases updateTaskStatus_store s c rid body with h | ⟨T2, st, hT2, h⟩
      · rw [h]; exact hT
      · rw [h, task_findById_save_eq, hT]
        have hno := hother T2 hT2 hne
        simp only [Option.map_some']
        change some (if (T._id == T2._id) = true then _ else T) = some T
        rw [hno]
        rfl
    · rcases updateTask_store s c rid body1 with h | ⟨T2, title, description, assignedTo, hT2, h⟩
      · rw [h]; exact hT
      · rw [h, task_findById_save_eq, hT]
        have hno := hother T2 hT2 hne
        simp only [Option.map_some']
        change some (if (T._id == T2._id) = true then _ else T) = some T
        rw [hno]
        rfl

/-- C24, on the scenario: after Alice has reassigned and renamed task 11 the task still
belongs to project 10 and was still created by her. -/
theorem task_references_immutable_witness :
    ∃ T1 : Task,
      Task.findById
        (updateTask demoShared 1 11 ⟨some "Final report", none, some "carol@example.com"⟩).1 11
        = some T1 ∧
      T1.project = 10 ∧ T1.createdBy = 1 :=
  let ⟨T1, h1, h2, h3, _⟩ :=
    (task_references_immutable demoShared 1 11 11 demoTask (by decide)).2.1
      ⟨some "Final report", none, some "carol@example.com"⟩
  ⟨T1, h1, h2, h3⟩

/-- C26. Stale assignment: `removeMember` never writes to the task collection, so every
task, including those assigned to the removed user, keeps its assignee, status and project;
and there is a reachable store, obtained by a successful `removeMember`, with a task whose
assignee is not a member of its project. -/
theorem stale_assignment_possible :
    (∀ (s : Store) (c pid target : Id),
      (handle s (Request.removeMember c pid target)).1.tasks = s.tasks) ∧
    (∃ (s : Store) (t : Task) (P : Project), Reachable s ∧
      (handle s (Request.removeMember 1 10 2)).2.success = true ∧
      Reachable (handle s (Request.removeMember 1 10 2)).1 ∧
      t ∈ (handle s (Request.removeMember 1 10 2)).1.tasks ∧
      Project.findById (handle s (Request.removeMember 1 10 2)).1 t.project = some P ∧
      t.assignedTo = 2 ∧ P.isMember t.assignedTo = false) := by
  refine ⟨?_, ?_⟩
  · intro s c pid target
    simp only [handle, behindAdmin]
    split
    · rfl
    · rename_i project _
      rcases removeMember_store s project target with h | ⟨i, m, _, _, _, h⟩
      · rw [h]
      · rw [h]; rfl
  · exact ⟨demoStore, demoTask,
      ⟨10, "Apollo", none, 1, [⟨UserRef.bare 1, Role.admin, 100⟩], 100⟩,
      demoStore_reachable, by decide, Reachable.step _ demoStore_reachable,
      by decide, by decide, by decide, by decide⟩

/-- C26, on the scenario: removing Bob leaves the task collection as it was. -/
theorem stale_assignment_possible_witness :
    (handle demoStore (Request.removeMember 1 10 2)).1.tasks = demoStore.tasks :=
  stale_assignment_possible.1 demoStore 1 10 2



/-! ## Roles are never demoted -/

/-- A lookup only reads the project collection. -/
theorem project_findById_congr {s t : Store} (h : t.projects = s.projects) (j : Id) :
    Project.findById t j = Project.findById s j := by
  simp only [Project.findById, h]

/-- C28. Roles are never demoted: if `u` is an admin of the project found under an id, then
after any request other than a `removeMember` of `u` on that project, the project found
under the id, if there still is one, has `u` as an admin. So after a successful
`addMember`, `promoteMember`, `updateProject`, or `removeMember` of another user, an admin
is still an admin, and an admin who is no longer one was removed from the project. -/
theorem admin_never_demoted (s : Store) (r : Request) (pid u : Id) (P P1 : Project)
    (hP : Project.findById s pid = some P) (hA : P.isAdmin u = true)
    (hP1 : Project.findById (handle s r).1 pid = some P1) :
    ((∀ c : Id, r ≠ Request.removeMember c pid u) → P1.isAdmin u = true) ∧
    (P1.isAdmin u = false → ∃ c : Id, r = Request.removeMember c pid u) := by
  have hid : P._id = pid := (mem_of_findById hP).2
  have hsaved : ∀ (Q q : Project), Project.findById s Q._id = some Q →
      (handle s r).1 = Project.save s q → q._id = Q._id →
      (Q = P → q.isAdmin u = true) → P1.isAdmin u = true := by
    intro Q q hQ hstore hq himp
    rw [hstore, project_findById_save_eq, hP] at hP1
    simp only [Option.map_some'] at hP1
    have hP1' := Option.some.inj hP1
    cases hc : P._id == q._id with
    | true =>
      rw [hc] at hP1'
      simp only [if_true] at hP1'
      rw [← hP1']
      apply himp
      have h1 : P._id = Q._id := by rw [← hq]; exact beq_iff_eq.1 hc
      rw [← h1, hid, hP] at hQ
      exact (Option.some.inj hQ).symm
    | false =>
      rw [hc] at hP1'
      simp only [Bool.false_eq_true, if_false] at hP1'
      rw [← hP1']
      exact hA
  have hunchanged : (handle s r).1.projects = s.projects → P1.isAdmin u = true := by
    intro h
    rw [project_findById_congr h, hP] at hP1
    rw [← Option.some.inj hP1]
    exact hA
  have main : (∀ c : Id, r ≠ Request.removeMember c pid u) → P1.isAdmin u = true := by
    intro hr
    cases r with
    | createProject user body now =>
      simp only [handle, createProject] at hP1 hunchanged
      split at hP1
      · exact hunchanged (by simp [*])
      · split at hP1
        · exact hunchanged (by simp [*])
        · simp only [Project.findById, List.find?_append] at hP1
          have hP' : s.projects.find? (fun p => p._id == pid) = some P := hP
          rw [hP'] at hP1
          simp only [Option.or_some] at hP1
          rw [← Option.some.inj hP1]
          exact hA
    | updateProject user id body =>
      simp only [handle] at hP1 hunchanged hsaved
      rcases updateProject_store s user id body with h | ⟨p, name, description, hp, _, h⟩
      · exact hunchanged (by rw [h])
      · have hpid : p._id = id := (mem_of_findById hp).2
        refine hsaved p _ (by rw [hpid]; exact hp) h rfl ?_
        intro hpP
        subst hpP
        simpa [Project.isAdmin] using hA
    | deleteProject user id =>
      simp only [handle, deleteProject] at hP1 hunchanged
      split at hP1
      · exact hunchanged (by simp [*])
      · rename_i project hproj
        split at hP1
        · exact hunchanged (by simp [*])
        · have hmem := mem_of_findById hP1
          simp only [Project.deleteOne, Task.deleteMany, List.mem_filter] at hmem
          have hpass : (P._id != project._id) = true := by
            rw [hid, ← hmem.2]
            exact hmem.1.2
          have hfound := find?_filter_of_find? (fun p : Project => p._id == pid)
            (fun q : Project => q._id != project._id) s.projects P hP hpass
          simp only [Project.findById, Project.deleteOne, Task.deleteMany] at hP1
          rw [hfound] at hP1
          rw [← Option.some.inj hP1]
          exact hA
    | addMember user projectId body now =>
      simp only [handle, behindAdmin] at hP1 hunchanged hsaved
      split at hP1
      · exact hunchanged (by simp [*])
      · rename_i project hok
        obtain ⟨id, hid1, hfind, _⟩ := checkProjectAdmin_ok hok
        cases hid1
        have hprid : project._id = projectId := (mem_of_findById hfind).2
        simp only [hok] at hsaved hunchanged
        rcases addMember_store s project body now with h | ⟨a, _, _, h⟩
        · exact hunchanged (by rw [h])
        · refine hsaved project _ (by rw [hprid]; exact hfind) h rfl ?_
          intro hpP
          subst hpP
          exact isAdmin_append _ _ _ hA
    | promoteMember user projectId userId =>
      simp only [handle, behindAdmin] at hP1 hunchanged hsaved
      split at hP1
      · exact hunchanged (by simp [*])
      · rename_i project hok
        obtain ⟨id, hid1, hfind, _⟩ := checkProjectAdmin_ok hok
        cases hid1
        have hprid : project._id = projectId := (mem_of_findById hfind).2
        simp only [hok] at hsaved hunchanged
        rcases promoteMember_store s project userId with h | ⟨i, m, hi, _, h⟩
        · exact hunchanged (by rw [h])
        · refine hsaved project _ (by rw [hprid]; exact hfind) h rfl ?_
          intro hpP
          subst hpP
          exact isAdmin_set_admin _ i m _ hi hA
    | removeMember user projectId userId =>
      simp only [handle, behindAdmin] at hP1 hunchanged hsaved
      split at hP1
      · exact hunchanged (by simp [*])
      · rename_i project hok
        obtain ⟨id, hid1, hfind, _⟩ := checkProjectAdmin_ok hok
        cases hid1
        have hprid : project._id = projectId := (mem_of_findById hfind).2
        simp only [hok] at hsaved hunchanged
        rcases removeMember_store s project userId with h | ⟨i, m, hi, hmid, _, h⟩
        · exact hunchanged (by rw [h])
        · refine hsaved project _ (by rw [hprid]; exact hfind) h rfl ?_
          intro hpP
          subst hpP
          have hne : m.user.id ≠ u := by
            rw [hmid]
            intro hu
            subst hu
            have : projectId = pid := by rw [← hprid, hid]
            subst this
            exact hr user rfl
          have := isAdmin_eraseIdx project i m u hi hne
          simpa [this] using hA
    | createTask user body now =>
      apply hunchanged
      simp only [handle, behindAdmin]
      split
      · rfl
      · exact createTask_projects s user body now
    | updateTask user id body => exact hunchanged (updateTask_projects s user id body)
    | updateTaskStatus user id body =>
      exact hunchanged (updateTaskStatus_projects s user id body)
    | deleteTask user id => exact hunchanged (deleteTask_projects s user id)
  refine ⟨main, fun hno => ?_⟩
  by_contra hex
  have := main (fun c hc => hex ⟨c, hc⟩)
  rw [hno] at this
  cases this

/-- C28, on the scenario with Bob promoted: after Alice has added Carol, Bob is still an
admin of the stored project. -/
theorem admin_never_demoted_witness :
    Project.isAdmin
      ⟨10, "Apollo", none, 1,
        [⟨UserRef.bare 1, Role.admin, 100⟩, ⟨UserRef.bare 2, Role.admin, 101⟩,
          ⟨UserRef.bare 3, Role.member, 104⟩], 100⟩ 2 = true :=
  (admin_never_demoted demoPromoted (Request.addMember 1 10 ⟨some "carol@example.com"⟩ 104)
    10 2
    ⟨10, "Apollo", none, 1,
      [⟨UserRef.bare 1, Role.admin, 100⟩, ⟨UserRef.bare 2, Role.admin, 101⟩], 100⟩
    ⟨10, "Apollo", none, 1,
      [⟨UserRef.bare 1, Role.admin, 100⟩, ⟨UserRef.bare 2, Role.admin, 101⟩,
        ⟨UserRef.bare 3, Role.member, 104⟩], 100⟩
    (by decide) (by decide) (by decide)).1 (fun c hc => by cases hc)



/-! ## The admin test of the frontend -/

/-- The test used by the frontend's `find` is the comparison of normalised ids on populated
references. -/
theorem frontend_test_eq_of_populated {m : Member} (h : ∃ v : User, m.user = UserRef.populated v)
    (u : Id) :
    (match m.user with
      | UserRef.populated v => v._id == u
      | UserRef.bare _ => false) = (m.user.id == u) := by
  obtain ⟨v, hv⟩ := h
  rw [hv]
  rfl

/-- On populated references without duplicate user ids the frontend test is `isAdmin`. -/
theorem frontendIsAdmin_eq_any (members : List Member) (u : Id)
    (hpop : ∀ m ∈ members, ∃ v : User, m.user = UserRef.populated v)
    (hN : (members.map fun m => m.user.id).Nodup) :
    frontendIsAdmin members u
      = members.any fun m => m.user.id == u && m.role == Role.admin := by
  induction members with
  | nil => rfl
  | cons x xs ih =>
    have hx := frontend_test_eq_of_populated (hpop x (List.mem_cons_self _ _)) u
    rw [List.map_cons, List.nodup_cons] at hN
    have ih' := ih (fun m hm => hpop m (List.mem_cons_of_mem _ hm)) hN.2
    unfold frontendIsAdmin at ih' ⊢
    rw [List.find?_cons, hx, List.any_cons]
    cases hxu : x.user.id == u with
    | true =>
      have hrest : xs.any (fun m => m.user.id == u && m.role == Role.admin) = false := by
        rw [List.any_eq_false]
        intro m hm
        have hne : m.user.id ≠ u := by
          intro h
          apply hN.1
          rw [beq_iff_eq.1 hxu, ← h]
          exact List.mem_map_of_mem (fun m : Member => m.user.id) hm
        simp [hne]
      simp [hrest]
    | false =>
      simp only [Bool.false_and, Bool.false_or]
      exact ih'

/-- Populating a members list keeps ids and roles and leaves only populated references. -/
theorem populatedMembers_spec (s : Store) :
    ∀ (l ms : List Member), populatedMembers s l = some ms →
      (∀ m ∈ ms, ∃ v : User, m.user = UserRef.populated v) ∧
      (ms.map fun m => m.user.id) = (l.map fun m => m.user.id) ∧
      ∀ u : Id, (ms.any fun m => m.user.id == u && m.role == Role.admin)
        = (l.any fun m => m.user.id == u && m.role == Role.admin)
  | [], ms, h => by
    simp only [populatedMembers] at h
    cases h
    simp
  | x :: xs, ms, h => by
    simp only [populatedMembers] at h
    cases hx : populateMember s x with
    | none => simp [hx] at h
    | some a =>
      cases hxs : populatedMembers s xs with
      | none => simp [hx, hxs] at h
      | some b =>
        simp only [hx, hxs] at h
        cases h
        obtain ⟨ih1, ih2, ih3⟩ := populatedMembers_spec s xs b hxs
        unfold populateMember at hx
        cases hu : User.findById s x.user.id with
        | none => simp [hu] at hx
        | some v =>
          simp only [hu, Option.map_some'] at hx
          cases hx
          have hvid : v._id = x.user.id := user_findById_id hu
          refine ⟨?_, ?_, ?_⟩
          · intro m hm
            simp only [List.mem_cons] at hm
            rcases hm with rfl | hm
            · exact ⟨v, rfl⟩
            · exact ih1 m hm
          · simp only [List.map_cons, ih2]
            congr 1
          · intro u
            simp only [List.any_cons, ih3 u]
            congr 1
            show (v._id == u && x.role == Role.admin) = _
            rw [hvid]

/-- C29. On a members list with populated references (as the API sends it) and without
duplicate user ids, the admin test of the frontend, which reads the role of the first
entry of the user, equals the backend `isAdmin`; in particular this holds of the populated
copy of every stored project whose user ids are pairwise distinct. With a duplicate entry
the two can differ. -/
theorem frontendIsAdmin_spec :
    (∀ (P : Project) (u : Id), (∀ m ∈ P.members, ∃ v : User, m.user = UserRef.populated v) →
      (P.members.map fun m => m.user.id).Nodup → frontendIsAdmin P.members u = P.isAdmin u) ∧
    (∀ (s : Store) (P : Project) (ms : List Member) (u : Id),
      (P.members.map fun m => m.user.id).Nodup → populatedMembers s P.members = some ms →
      frontendIsAdmin ms u = P.isAdmin u) ∧
    (∃ (P : Project) (u : Id), (∀ m ∈ P.members, ∃ v : User, m.user = UserRef.populated v) ∧
      frontendIsAdmin P.members u = false ∧ P.isAdmin u = true) := by
  refine ⟨?_, ?_, ?_⟩
  · intro P u hpop hN
    exact frontendIsAdmin_eq_any P.members u hpop hN
  · intro s P ms u hN hms
    obtain ⟨h1, h2, h3⟩ := populatedMembers_spec s P.members ms hms
    rw [frontendIsAdmin_eq_any ms u h1 (by rw [h2]; exact hN), h3 u]
    rfl
  · refine ⟨⟨10, "Apollo", none, 1,
      [⟨UserRef.populated ⟨2, "Bob", "bob@example.com"⟩, Role.member, 101⟩,
        ⟨UserRef.populated ⟨2, "Bob", "bob@example.com"⟩, Role.admin, 105⟩], 100⟩, 2, ?_,
      by decide, by decide⟩
    intro m hm
    simp only [List.mem_cons, List.mem_singleton, List.not_mem_nil, or_false] at hm
    rcases hm with rfl | rfl <;> exact ⟨_, rfl⟩

/-- C29, on the scenario: on the populated members of project 10 the frontend finds that
Alice is an admin, as the backend does. -/
theorem frontendIsAdmin_spec_witness :
    frontendIsAdmin
      [⟨UserRef.populated ⟨1, "Alice", "alice@example.com"⟩, Role.admin, 100⟩,
        ⟨UserRef.populated ⟨2, "Bob", "bob@example.com"⟩, Role.member, 101⟩] 1
      = demoProject.isAdmin 1 :=
  frontendIsAdmin_spec.2.1 demoStore demoProject _ 1 (by decide) (by decide)



/-! ## Query numbers -/

/-- An integer below `2 ^ 53` is a double. -/
theorem roundToDouble_of_lt {n : Nat} (h : n < 2 ^ 53) : roundToDouble n = n := by
  unfold roundToDouble
  rw [if_pos h]

/-- Rounding at work: `2 ^ 53 + 1` is not a double and is read as `2 ^ 53`, and
`2 ^ 53 + 3` is read as `2 ^ 53 + 4`. -/
theorem parseInt_rounds :
    parseInt (some "9007199254740993") = some 9007199254740992 ∧
      parseInt (some "9007199254740995") = some 9007199254740996 ∧
      parseInt (some "-9007199254740993") = some (-9007199254740992) := by
  decide

/-- The character of a decimal digit has that digit as its value. -/
theorem digitValue_digitChar {k : Nat} (h : k < 10) :
    digitValue 10 (Nat.digitChar k) = some k := by
  interval_cases k <;> rfl

/-- A decimal digit has a code from 48 to 57. -/
theorem toNat_of_digitValue_isSome {ch : Char} (h : (digitValue 10 ch).isSome = true) :
    48 ≤ ch.toNat ∧ ch.toNat ≤ 57 := by
  unfold digitValue at h
  by_cases h1 : 48 ≤ ch.toNat ∧ ch.toNat ≤ 57
  · exact h1
  · exfalso
    simp only [h1, if_false] at h
    by_cases h2 : 97 ≤ ch.toNat ∧ ch.toNat ≤ 122
    · simp only [h2, and_self, if_true, Option.some_bind] at h
      have : ¬ ch.toNat - 87 < 10 := by omega
      simp [this] at h
    · simp only [h2, if_false] at h
      by_cases h3 : 65 ≤ ch.toNat ∧ ch.toNat ≤ 90
      · simp only [h3, and_self, if_true, Option.some_bind] at h
        have : ¬ ch.toNat - 55 < 10 := by omega
        simp [this] at h
      · simp [h3] at h

/-- A decimal digit is not white space. -/
theorem not_isWhiteSpace_of_digit {ch : Char} (h : (digitValue 10 ch).isSome = true) :
    isWhiteSpace ch = false := by
  obtain ⟨h1, h2⟩ := toNat_of_digitValue_isSome h
  unfold isWhiteSpace
  simp only [Bool.or_eq_false_iff, Bool.and_eq_false_iff, decide_eq_false_iff_not,
    beq_eq_false_iff_ne, ne_eq]
  omega

/-- The digits printed for a natural number: decimal digits whose value is the number. -/
theorem toDigitsCore_spec :
    ∀ (fuel n : Nat) (acc : List Char), n < fuel →
      ∃ ds : List Char, Nat.toDigitsCore 10 fuel n acc = ds ++ acc ∧ ds ≠ [] ∧
        (∀ ch ∈ ds, (digitValue 10 ch).isSome = true) ∧
        ds.foldl (fun a ch => a * 10 + (digitValue 10 ch).getD 0) 0 = n
  | 0, n, acc, h => absurd h (Nat.not_lt_zero n)
  | fuel + 1, n, acc, h => by
    have hd : digitValue 10 (Nat.digitChar (n % 10)) = some (n % 10) :=
      digitValue_digitChar (Nat.mod_lt n (by decide))
    unfold Nat.toDigitsCore
    by_cases h0 : n / 10 = 0
    · simp only [h0, if_true]
      refine ⟨[Nat.digitChar (n % 10)], rfl, by simp, ?_, ?_⟩
      · intro ch hch
        simp only [List.mem_singleton] at hch
        rw [hch, hd]
        rfl
      · simp only [List.foldl_cons, List.foldl_nil, hd, Option.getD_some]
        omega
    · simp only [h0, if_false]
      obtain ⟨ds, h1, h2, h3, h4⟩ :=
        toDigitsCore_spec fuel (n / 10) (Nat.digitChar (n % 10) :: acc) (by omega)
      refine ⟨ds ++ [Nat.digitChar (n % 10)], by simp [h1], by simp, ?_, ?_⟩
      · intro ch hch
        rw [List.mem_append] at hch
        rcases hch with hch | hch
        · exact h3 ch hch
        · simp only [List.mem_singleton] at hch
          rw [hch, hd]
          rfl
      · rw [List.foldl_append, h4]
        simp only [List.foldl_cons, List.foldl_nil, hd, Option.getD_some]
        omega

/-- A string of decimal digits parses to the value of the digits, rounded to a Number. -/
theorem parseInt_of_digits (ds : List Char) (hne : ds ≠ [])
    (hd : ∀ ch ∈ ds, (digitValue 10 ch).isSome = true) :
    parseInt (some (String.mk ds))
      = some (Int.ofNat
          (roundToDouble (ds.foldl (fun a ch => a * 10 + (digitValue 10 ch).getD 0) 0))) := by
  cases ds with
  | nil => exact absurd rfl hne
  | cons c tl =>
    have hc := hd c (List.mem_cons_self _ _)
    have hws : isWhiteSpace c = false := not_isWhiteSpace_of_digit hc
    have htake : (c :: tl).takeWhile (fun ch => (digitValue 10 ch).isSome) = c :: tl := by
      rw [List.takeWhile_eq_self_iff]
      exact hd
    have hdigits : parseDigits 10 (c :: tl)
        = some (Int.ofNat (roundToDouble
            ((c :: tl).foldl (fun a ch => a * 10 + (digitValue 10 ch).getD 0) 0))) := by
      unfold parseDigits
      simp only [htake]
      rfl
    simp only [parseInt, List.dropWhile_cons, hws]
    split
    · rename_i heq
      simp only [Bool.false_eq_true, if_false] at heq
      cases heq
      exact absurd hc (by decide)
    · rename_i heq
      simp only [Bool.false_eq_true, if_false] at heq
      cases heq
      exact absurd hc (by decide)
    · simp only [Bool.false_eq_true, if_false]
      split
      · rename_i heq
        cases heq
        exact absurd (hd 'x' (by simp)) (by decide)
      · rename_i heq
        cases heq
        exact absurd (hd 'X' (by simp)) (by decide)
      · rw [hdigits]
        simp

/-- The decimal numeral of a natural number parses to its Number value. -/
theorem parseInt_toString (n : Nat) :
    parseInt (some (toString n)) = some (Int.ofNat (roundToDouble n)) := by
  obtain ⟨ds, h1, h2, h3, h4⟩ := toDigitsCore_spec (n + 1) n [] (Nat.lt_succ_self n)
  have hs : toString n = String.mk ds := by
    show Nat.repr n = _
    unfold Nat.repr Nat.toDigits
    rw [h1, List.append_nil]
    rfl
  rw [hs, parseInt_of_digits ds h2 h3, h4]

/-- The decimal numeral of a positive integer below `2 ^ 53` is read as that integer. -/
theorem parseIntOr_toString (n : Nat) (d : Int) (h1 : 1 ≤ n) (h2 : n < 2 ^ 53) :
    parseIntOr (some (toString n)) d = (n : Int) := by
  unfold parseIntOr
  rw [parseInt_toString, roundToDouble_of_lt h2]
  have : ¬ (n : Int) = 0 := by omega
  simp [this]

/-- The numeral of zero is read as the default. -/
theorem parseIntOr_zero (d : Int) : parseIntOr (some (toString 0)) d = d := by
  unfold parseIntOr
  rw [parseInt_toString, roundToDouble_of_lt (by decide)]
  rfl

/-! ## Pagination -/

/-- The pages of a list, one after the other, are its prefix. -/
theorem flatMap_pages {α : Type} (L : List α) (l : Nat) (f : Nat → List α) :
    ∀ n : Nat, (∀ i < n, f i = (L.drop (i * l)).take l) →
      (List.range n).flatMap f = L.take (n * l)
  | 0, _ => by simp
  | n + 1, h => by
    rw [List.range_succ, List.flatMap_append,
      flatMap_pages L l f n (fun i hi => h i (Nat.lt_succ_of_lt hi)), Nat.succ_mul,
      List.take_add]
    simp [h n (Nat.lt_succ_self n)]

/-- `ceilDiv` is the ceiling of the quotient. -/
theorem ceilDiv_eq_ceil (total l : Nat) (hl : 1 ≤ l) :
    ceilDiv total (l : Int) = ⌈(total : ℚ) / (l : ℚ)⌉ := by
  unfold ceilDiv
  rw [Int.fdiv_eq_ediv _ (by omega), ← Rat.floor_intCast_div_natCast, ← Int.ceil_neg]
  congr 1
  simp only [Int.ofNat_eq_coe]
  push_cast
  ring

/-- The number of pages is a natural number and the pages cover the selection. -/
theorem ceilDiv_bounds (total l : Nat) (hl : 1 ≤ l) :
    0 ≤ ceilDiv total (l : Int) ∧ total ≤ (ceilDiv total (l : Int)).toNat * l := by
  have hlq : (0 : ℚ) < (l : ℚ) := by exact_mod_cast hl
  have h0 : 0 ≤ ceilDiv total (l : Int) := by
    rw [ceilDiv_eq_ceil total l hl]
    exact Int.ceil_nonneg (div_nonneg (Nat.cast_nonneg _) (Nat.cast_nonneg _))
  refine ⟨h0, ?_⟩
  have h1 : (total : ℚ) / (l : ℚ) ≤ ((ceilDiv total (l : Int) : Int) : ℚ) := by
    rw [ceilDiv_eq_ceil total l hl]
    exact Int.le_ceil _
  rw [div_le_iff₀ hlq] at h1
  have h2 : (total : Int) ≤ ceilDiv total (l : Int) * (l : Int) := by exact_mod_cast h1
  have h3 : ((ceilDiv total (l : Int)).toNat : Int) = ceilDiv total (l : Int) :=
    Int.toNat_of_nonneg h0
  rw [← h3] at h2
  exact_mod_cast h2

/-- A page after the last one starts at or after the end of the selection. -/
theorem length_le_of_ceilDiv_lt (total l p : Nat) (hl : 1 ≤ l)
    (hp : ceilDiv total (l : Int) < (p : Int)) : total ≤ (p - 1) * l := by
  obtain ⟨h0, h1⟩ := ceilDiv_bounds total l hl
  have h2 : (ceilDiv total (l : Int)).toNat ≤ p - 1 := by omega
  exact le_trans h1 (Nat.mul_le_mul_right l h2)

/-- The value of `parseInt(x) || d` when `parseInt` gives NaN or 0. -/
theorem parseIntOr_eq_default (input : Option String) (d : Int)
    (h : parseInt input = none ∨ parseInt input = some 0) : parseIntOr input d = d := by
  unfold parseIntOr
  rcases h with h | h <;> simp [h]

/-- The slice read by a listing for natural `page` and `limit`. -/
theorem slice_of_nat (p l : Nat) (hp : 1 ≤ p) :
    ¬ (((p : Int) - 1) * (l : Int) < 0) ∧ (((p : Int) - 1) * (l : Int)).toNat = (p - 1) * l ∧
      (l : Int).natAbs = l := by
  have h1 : ((p : Int) - 1) = ((p - 1 : Nat) : Int) := by omega
  have h2 : ((p : Int) - 1) * (l : Int) = (((p - 1) * l : Nat) : Int) := by
    rw [Nat.cast_mul, h1]
  rw [h2]
  exact ⟨by omega, Int.toNat_natCast _, Int.natAbs_ofNat _⟩

/-- The answer of `getProjects` for a page from 1 on and a limit from 1 on. -/
theorem getProjects_page (s : Store) (u : Id) (q : ProjectsQuery) (p l : Nat) (hp : 1 ≤ p)
    (hqp : parseIntOr q.page 1 = (p : Int)) (hql : parseIntOr q.limit 10 = (l : Int)) :
    getProjects s u q
      = .ok ⟨(((newestProjectsFirst (Project.find s u)).drop ((p - 1) * l)).take l).length,
          Project.countDocuments s u, (p : Int), ceilDiv (Project.countDocuments s u) (l : Int),
          ((newestProjectsFirst (Project.find s u)).drop ((p - 1) * l)).take l⟩ := by
  obtain ⟨h1, h2, h3⟩ := slice_of_nat p l hp
  simp only [getProjects, hqp, hql, h1, h2, h3, if_false]

/-- The answer of `tasksPage` for a page from 1 on and a limit from 1 on. -/
theorem tasksPage_page (s : Store) (filter : TaskFilter) (p l : Nat) (hp : 1 ≤ p) :
    tasksPage s filter (p : Int) (l : Int)
      = .ok ⟨(((newestFirst (Task.find s filter)).drop ((p - 1) * l)).take l).length,
          Task.countDocuments s filter, (p : Int),
          ceilDiv (Task.countDocuments s filter) (l : Int),
          ((newestFirst (Task.find s filter)).drop ((p - 1) * l)).take l⟩ := by
  obtain ⟨h1, h2, h3⟩ := slice_of_nat p l hp
  simp only [tasksPage, h1, h2, h3, if_false]

/-- For a member, `getTasks` answers with the page of the filter document it builds. -/
theorem getTasks_eq_tasksPage (s : Store) (c pid : Id) (page limit : Option String)
    (P : Project) (hP : Project.findById s pid = some P) (hM : P.isMember c = true) :
    getTasks s c ⟨some pid, page, limit⟩
      = tasksPage s ⟨pid, if !P.isAdmin c then some c else none⟩
          (parseIntOr page 1) (parseIntOr limit 10) := by
  simp only [getTasks, hP, hM, tasksPage]
  rfl



/-- A query value with no digit after its leading white space parses to NaN. -/
theorem parseInt_eq_none_of_no_digit (str : String)
    (h : ∀ ch tl, str.data.dropWhile isWhiteSpace = ch :: tl →
      digitValue 10 ch = none ∧ ch ≠ '-' ∧ ch ≠ '+') :
    parseInt (some str) = none := by
  have hnone : ∀ cs : List Char, (∀ ch tl, cs = ch :: tl → digitValue 10 ch = none) →
      parseDigits 10 cs = none := by
    intro cs hcs
    cases cs with
    | nil => simp [parseDigits]
    | cons ch tl => simp [parseDigits, List.takeWhile, hcs ch tl rfl]
  simp only [parseInt]
  cases hcs : str.data.dropWhile isWhiteSpace with
  | nil => simp [hnone]
  | cons ch tl =>
    obtain ⟨hd, hm, hp⟩ := h ch tl hcs
    have hz : ch ≠ '0' := by
      rintro rfl
      revert hd
      decide
    split
    · rename_i heq
      cases heq
      exact absurd rfl hm
    · rename_i heq
      cases heq
      exact absurd rfl hp
    · simp only
      split
      · rename_i heq
        cases heq
        exact absurd rfl hz
      · rename_i heq
        cases heq
        exact absurd rfl hz
      · simp [hnone (ch :: tl) (fun a b hab => by cases hab; exact hd)]

/-- The pages 1 to `totalPages` of a list, one after the other, are the list. -/
theorem pages_cover {α : Type} (L : List α) (l : Nat) (hl : 1 ≤ l) (f : Nat → List α)
    (h : ∀ i < (ceilDiv L.length (l : Int)).toNat, f i = (L.drop (i * l)).take l) :
    (List.range (ceilDiv L.length (l : Int)).toNat).flatMap f = L := by
  rw [flatMap_pages L l f _ h]
  exact List.take_of_length_le (ceilDiv_bounds _ l hl).2

/-- A page after `totalPages` is empty. -/
theorem page_beyond {α : Type} (L : List α) (l p : Nat) (hl : 1 ≤ l)
    (hp : ceilDiv L.length (l : Int) < (p : Int)) : (L.drop ((p - 1) * l)).take l = [] := by
  rw [List.drop_of_length_le (length_le_of_ceilDiv_lt _ l p hl hp)]
  exact List.take_nil

/-- The count of `Project.countDocuments` is the length of the sorted selection. -/
theorem project_countDocuments_eq (s : Store) (u : Id) :
    Project.countDocuments s u = (newestProjectsFirst (Project.find s u)).length := by
  unfold newestProjectsFirst
  rw [List.length_insertionSort]
  rfl

/-- The count of `Task.countDocuments` is the length of the sorted selection. -/
theorem task_countDocuments_eq (s : Store) (filter : TaskFilter) :
    Task.countDocuments s filter = (newestFirst (Task.find s filter)).length := by
  unfold newestFirst
  rw [List.length_insertionSort]
  rfl

/-- The sorted projects are ordered by `createdAt` descending. -/
theorem newestProjectsFirst_sorted (projects : List Project) :
    (newestProjectsFirst projects).Sorted fun a b => a.createdAt ≥ b.createdAt := by
  haveI : IsTotal Project (fun a b => a.createdAt ≥ b.createdAt) :=
    ⟨fun a b => Nat.le_total b.createdAt a.createdAt⟩
  haveI : IsTrans Project (fun a b => a.createdAt ≥ b.createdAt) :=
    ⟨fun _ _ _ hab hbc => Nat.le_trans hbc hab⟩
  exact List.sorted_insertionSort _ _

/-- The sorted tasks are ordered by `createdAt` descending. -/
theorem newestFirst_sorted (tasks : List Task) :
    (newestFirst tasks).Sorted fun a b => a.createdAt ≥ b.createdAt := by
  haveI : IsTotal Task (fun a b => a.createdAt ≥ b.createdAt) :=
    ⟨fun a b => Nat.le_total b.createdAt a.createdAt⟩
  haveI : IsTrans Task (fun a b => a.createdAt ≥ b.createdAt) :=
    ⟨fun _ _ _ hab hbc => Nat.le_trans hbc hab⟩
  exact List.sorted_insertionSort _ _

/-- A string of zeros is read as the default. -/
theorem parseIntOr_zeros (k : Nat) (d : Int) :
    parseIntOr (some (String.mk (List.replicate (k + 1) '0'))) d = d := by
  have hfold : ∀ j : Nat,
      (List.replicate j '0').foldl (fun a ch => a * 10 + (digitValue 10 ch).getD 0) 0 = 0 := by
    intro j
    induction j with
    | zero => rfl
    | succ j ih =>
      rw [List.replicate_succ, List.foldl_cons]
      exact ih
  have hparse := parseInt_of_digits (List.replicate (k + 1) '0') (by simp)
    (fun ch hch => by rw [List.eq_of_mem_replicate hch]; rfl)
  rw [hfold, roundToDouble_of_lt (by decide)] at hparse
  exact parseIntOr_eq_default _ d (Or.inr hparse)

/-- The pages up to the last one end less than one page after the selection. -/
theorem ceilDiv_mul_lt (total l : Nat) (hl : 1 ≤ l) :
    (ceilDiv total (l : Int)).toNat * l < total + l := by
  have hlq : (0 : ℚ) < (l : ℚ) := by exact_mod_cast hl
  have h0 := (ceilDiv_bounds total l hl).1
  have h1 : ((ceilDiv total (l : Int) : Int) : ℚ) < (total : ℚ) / (l : ℚ) + 1 := by
    rw [ceilDiv_eq_ceil total l hl]
    exact Int.ceil_lt_add_one _
  have h2 : ((ceilDiv total (l : Int) : Int) : ℚ) * (l : ℚ) < (total : ℚ) + (l : ℚ) := by
    have := mul_lt_mul_of_pos_right h1 hlq
    rwa [add_mul, div_mul_cancel₀ _ (ne_of_gt hlq), one_mul] at this
  have h3 : ceilDiv total (l : Int) * (l : Int) < (total : Int) + (l : Int) := by
    exact_mod_cast h2
  have h4 : ((ceilDiv total (l : Int)).toNat : Int) = ceilDiv total (l : Int) :=
    Int.toNat_of_nonneg h0
  rw [← h4] at h3
  exact_mod_cast h3

/-- The numerals of the pages up to the last one, and of the limit, are read as written when
the selection and the limit are below `2 ^ 53`. -/
theorem page_numerals (total l i : Nat) (hl : 1 ≤ l) (hb : total + l < 2 ^ 53)
    (hi : i < (ceilDiv total (l : Int)).toNat) :
    parseIntOr (some (toString (i + 1))) 1 = ((i + 1 : Nat) : Int) ∧
      parseIntOr (some (toString l)) 10 = (l : Int) := by
  have h1 := ceilDiv_mul_lt total l hl
  have h2 : (i + 1) * l ≤ (ceilDiv total (l : Int)).toNat * l :=
    Nat.mul_le_mul_right l hi
  have h3 : i + 1 ≤ (i + 1) * l := Nat.le_mul_of_pos_right _ hl
  exact ⟨parseIntOr_toString (i + 1) 1 (by omega) (by omega),
    parseIntOr_toString l 10 hl (by omega)⟩

/-- C30. Pagination in `getProjects` and `getTasks`. The `page` and `limit` query values
default to 1 and 10 when absent, when no digit follows the leading white space (NaN) and
when the value is a string of zeros; the decimal numeral of a positive integer below
`2 ^ 53` is read as that integer, and every numeral as the nearest double. For a page from
1 on and a limit from 1 on whose product is below `2 ^ 53`, on a selection of fewer than
`2 ^ 53` documents (so that the handler computes `skip` and the quotient `total / limit`
without rounding across an integer), the answer is a success whose `data` is the selection
sorted newest first with `(page - 1) * limit` documents skipped and at most `limit` taken,
`count` is its length, `total` counts the selection, `totalPages` is the ceiling of
`total / limit`, and a page after `totalPages` is empty. For a selection and a limit whose
sum is below `2 ^ 53`, the data of the pages 1 to `totalPages`, requested by their
numerals, one after the other, are the whole sorted selection, which is a permutation of
the selection ordered by `createdAt` descending. Absent `page` and `limit` give the answer of page 1 with limit 10.
For `getTasks` the caller is a member of the existing project and the selection is that of
the filter document built for the caller. -/
theorem pagination_spec (s : Store) (u c pid : Id) (P : Project) :
    ((∀ d : Int, parseIntOr none d = d) ∧
      (∀ (str : String) (d : Int),
        (∀ ch tl, str.data.dropWhile isWhiteSpace = ch :: tl →
          digitValue 10 ch = none ∧ ch ≠ '-' ∧ ch ≠ '+') → parseIntOr (some str) d = d) ∧
      (∀ (k : Nat) (d : Int),
        parseIntOr (some (String.mk (List.replicate (k + 1) '0'))) d = d) ∧
      (∀ (n : Nat) (d : Int), 1 ≤ n → n < 2 ^ 53 →
        parseIntOr (some (toString n)) d = (n : Int)) ∧
      (∀ n : Nat, parseInt (some (toString n)) = some (Int.ofNat (roundToDouble n)))) ∧
    ((∀ (q : ProjectsQuery) (p l : Nat), 1 ≤ p → 1 ≤ l → p * l < 2 ^ 53 →
        (Project.find s u).length < 2 ^ 53 →
        parseIntOr q.page 1 = (p : Int) → parseIntOr q.limit 10 = (l : Int) →
        ∃ body : Page Project, getProjects s u q = .ok body ∧
          body.data = ((newestProjectsFirst (Project.find s u)).drop ((p - 1) * l)).take l ∧
          body.count = body.data.length ∧ body.count ≤ l ∧
          body.total = (Project.find s u).length ∧ body.page = (p : Int) ∧
          body.totalPages = ⌈(body.total : ℚ) / (l : ℚ)⌉ ∧
          (body.totalPages < (p : Int) → body.data = [])) ∧
      (∀ l : Nat, 1 ≤ l → (Project.find s u).length + l < 2 ^ 53 →
        ((List.range (ceilDiv (Project.countDocuments s u) (l : Int)).toNat).flatMap
            fun i => pageData (getProjects s u ⟨some (toString (i + 1)), some (toString l)⟩))
          = newestProjectsFirst (Project.find s u)) ∧
      getProjects s u ⟨none, none⟩ = getProjects s u ⟨some (toString 1), some (toString 10)⟩ ∧
      (newestProjectsFirst (Project.find s u)).Perm (Project.find s u) ∧
      (newestProjectsFirst (Project.find s u)).Sorted fun a b => a.createdAt ≥ b.createdAt) ∧
    (Project.findById s pid = some P → P.isMember c = true →
      (∀ (page limit : Option String) (p l : Nat), 1 ≤ p → 1 ≤ l → p * l < 2 ^ 53 →
        (Task.find s ⟨pid, if !P.isAdmin c then some c else none⟩).length < 2 ^ 53 →
        parseIntOr page 1 = (p : Int) → parseIntOr limit 10 = (l : Int) →
        ∃ body : Page Task, getTasks s c ⟨some pid, page, limit⟩ = .ok body ∧
          body.data
            = ((newestFirst (Task.find s ⟨pid, if !P.isAdmin c then some c else none⟩)).drop
                ((p - 1) * l)).take l ∧
          body.count = body.data.length ∧ body.count ≤ l ∧
          body.total = (Task.find s ⟨pid, if !P.isAdmin c then some c else none⟩).length ∧
          body.page = (p : Int) ∧
          body.totalPages = ⌈(body.total : ℚ) / (l : ℚ)⌉ ∧
          (body.totalPages < (p : Int) → body.data = [])) ∧
      (∀ l : Nat, 1 ≤ l →
        (Task.find s ⟨pid, if !P.isAdmin c then some c else none⟩).length + l < 2 ^ 53 →
        ((List.range (ceilDiv (Task.countDocuments s
              ⟨pid, if !P.isAdmin c then some c else none⟩) (l : Int)).toNat).flatMap
            fun i => pageData
              (getTasks s c ⟨some pid, some (toString (i + 1)), some (toString l)⟩))
          = newestFirst (Task.find s ⟨pid, if !P.isAdmin c then some c else none⟩)) ∧
      getTasks s c ⟨some pid, none, none⟩
        = getTasks s c ⟨some pid, some (toString 1), some (toString 10)⟩ ∧
      (newestFirst (Task.find s ⟨pid, if !P.isAdmin c then some c else none⟩)).Perm
        (Task.find s ⟨pid, if !P.isAdmin c then some c else none⟩) ∧
      (newestFirst (Task.find s ⟨pid, if !P.isAdmin c then some c else none⟩)).Sorted
        fun a b => a.createdAt ≥ b.createdAt) := by
  have hone : parseIntOr (some (toString 1)) 1 = 1 :=
    parseIntOr_toString 1 1 (by decide) (by decide)
  have hten : parseIntOr (some (toString 10)) 10 = 10 :=
    parseIntOr_toString 10 10 (by decide) (by decide)
  have hnone : ∀ d : Int, parseIntOr none d = d := fun d => rfl
  refine ⟨⟨hnone, fun str d h =>
      parseIntOr_eq_default _ d (Or.inl (parseInt_eq_none_of_no_digit str h)),
      parseIntOr_zeros, fun n d h1 h2 => parseIntOr_toString n d h1 h2, parseInt_toString⟩,
    ⟨?_, ?_, ?_, List.perm_insertionSort _ _, newestProjectsFirst_sorted _⟩, ?_⟩
  · intro q p l hp hl _ _ hqp hql
    refine ⟨_, getProjects_page s u q p l hp hqp hql, rfl, rfl, List.length_take_le _ _, rfl,
      rfl, ceilDiv_eq_ceil _ l hl, ?_⟩
    intro hlt
    rw [project_countDocuments_eq] at hlt
    exact page_beyond _ l p hl hlt
  · intro l hl hb
    have hcount : Project.countDocuments s u = (Project.find s u).length := rfl
    have hnum := fun i hi => page_numerals (Project.countDocuments s u) l i hl
      (by rw [hcount]; exact hb) hi
    rw [project_countDocuments_eq] at hnum ⊢
    apply pages_cover _ l hl
    intro i hi
    rw [getProjects_page s u _ (i + 1) l (by omega) (hnum i hi).1 (hnum i hi).2]
    rfl
  · simp only [getProjects, hnone, hone, hten]
  · intro hP hM
    refine ⟨?_, ?_, ?_, List.perm_insertionSort _ _, newestFirst_sorted _⟩
    · intro page limit p l hp hl _ _ hqp hql
      rw [getTasks_eq_tasksPage s c pid page limit P hP hM, hqp, hql]
      refine ⟨_, tasksPage_page s _ p l hp, rfl, rfl, List.length_take_le _ _, rfl,
        rfl, ceilDiv_eq_ceil _ l hl, ?_⟩
      intro hlt
      rw [task_countDocuments_eq] at hlt
      exact page_beyond _ l p hl hlt
    · intro l hl hb
      have hcount : Task.countDocuments s ⟨pid, if !P.isAdmin c then some c else none⟩
          = (Task.find s ⟨pid, if !P.isAdmin c then some c else none⟩).length := rfl
      have hnum := fun i hi => page_numerals
        (Task.countDocuments s ⟨pid, if !P.isAdmin c then some c else none⟩) l i hl
        (by rw [hcount]; exact hb) hi
      rw [task_countDocuments_eq] at hnum ⊢
      apply pages_cover _ l hl
      intro i hi
      rw [getTasks_eq_tasksPage s c pid _ _ P hP hM, (hnum i hi).1, (hnum i hi).2,
        tasksPage_page s _ (i + 1) l (by omega)]
      rfl
    · rw [getTasks_eq_tasksPage s c pid none none P hP hM,
        getTasks_eq_tasksPage s c pid _ _ P hP hM, hnone, hnone, hone, hten]

/-- C30, on the scenario with three tasks in project 10: Alice reads them two per page; the
first page and the second page, requested as `page=1&limit=2` and `page=2&limit=2`, one
after the other, are the three tasks newest first. -/
theorem pagination_spec_witness :
    ((List.range (ceilDiv (Task.countDocuments demoBusy ⟨10, none⟩) 2).toNat).flatMap
        fun i => pageData (getTasks demoBusy 1
          ⟨some 10, some (toString (i + 1)), some (toString 2)⟩))
      = newestFirst (Task.find demoBusy ⟨10, none⟩) :=
  ((pagination_spec demoBusy 1 1 10 demoProject).2.2 (by decide) (by decide)).2.1 2
    (by decide) (by decide)

/-! ## Listing and reading a task -/

/-- With unique ids, a stored task is the one found under its id. -/
theorem task_findById_of_mem {s : Store} (hU : UniqueIds s) {T : Task} (hT : T ∈ s.tasks) :
    Task.findById s T._id = some T := by
  cases hf : Task.findById s T._id with
  | none =>
    unfold Task.findById at hf
    rw [List.find?_eq_none] at hf
    exact absurd (by simp) (hf T hT)
  | some T1 =>
    rw [eq_of_task_findById hU hf hT rfl]

/-- For an existing task whose project exists and whose assignee is registered, `getTask`
succeeds exactly for the members of the project that are admin or assignee. -/
theorem getTask_success_iff (s : Store) (c id : Id) (T : Task) (P : Project)
    (hT : Task.findById s id = some T) (hP : Project.findById s T.project = some P)
    (hU : (User.findById s T.assignedTo).isSome = true) :
    (getTask s c id).success = true ↔
      (P.isMember c = true ∧ (P.isAdmin c = true ∨ c = T.assignedTo)) := by
  obtain ⟨a, ha⟩ := Option.isSome_iff_exists.1 hU
  have haid : a._id = T.assignedTo := user_findById_id ha
  cases hM : P.isMember c with
  | false => simp [getTask, hT, hP, hM, reject]
  | true =>
    cases hA : P.isAdmin c with
    | true => simp [getTask, hT, hP, hM, hA]
    | false =>
      by_cases hc : c = T.assignedTo
      · subst hc
        simp [getTask, hT, hP, hM, hA, ha, haid]
      · have hne : (a._id != c) = true := by
          rw [haid]
          simpa using Ne.symm hc
        have hout : getTask s c id = reject 403 "You can only view your own tasks" := by
          simp only [getTask, hT, hP, hM, hA, ha, hne]
          rfl
        rw [hout]
        simp [reject, hc]

/-- The data of a page of tasks are among the sorted selection. -/
theorem pageData_tasksPage_subset (s : Store) (filter : TaskFilter) (page limit : Int)
    (T : Task) (h : T ∈ pageData (tasksPage s filter page limit)) : T ∈ Task.find s filter := by
  unfold tasksPage at h
  split at h
  · simp [pageData] at h
  · simp only [pageData] at h
    have h1 := List.mem_of_mem_drop (List.mem_of_mem_take h)
    exact (List.perm_insertionSort _ _).mem_iff.1 h1

/-- C27. Listing and reading agree. In a reachable store, for an existing project `P`, a
caller `c` who is a member of `P` and a stored task `T` of `P`: `getTasks` on `P` answers,
for every `page` and `limit`, with a page of the selection of the filter document built for
`c`; `T` is in that selection exactly when `getTask` on `T` succeeds for `c`; a task in the
data of any page is one that `getTask` shows to `c`; and a task that `getTask` shows to `c`
is in the data of the pages 1 to `totalPages`, for every limit from 1 on. -/
theorem list_and_read_agree (s : Store) (c pid : Id) (P : Project) (T : Task)
    (hR : Reachable s) (hP : Project.findById s pid = some P) (hM : P.isMember c = true)
    (hT : T ∈ s.tasks) (hTP : T.project = pid) :
    (∀ page limit : Option String,
      getTasks s c ⟨some pid, page, limit⟩
        = tasksPage s ⟨pid, if !P.isAdmin c then some c else none⟩
            (parseIntOr page 1) (parseIntOr limit 10)) ∧
    (T ∈ Task.find s ⟨pid, if !P.isAdmin c then some c else none⟩ ↔
      (getTask s c T._id).success = true) ∧
    (∀ page limit : Option String, T ∈ pageData (getTasks s c ⟨some pid, page, limit⟩) →
      (getTask s c T._id).success = true) ∧
    ((getTask s c T._id).success = true →
      ∀ (l : Nat) (pages limits : Nat → Option String), 1 ≤ l →
        (∀ i < (ceilDiv (Task.countDocuments s ⟨pid, if !P.isAdmin c then some c else none⟩)
              (l : Int)).toNat,
          parseIntOr (pages i) 1 = ((i + 1 : Nat) : Int) ∧
            parseIntOr (limits i) 10 = (l : Int)) →
        T ∈ (List.range (ceilDiv (Task.countDocuments s
              ⟨pid, if !P.isAdmin c then some c else none⟩) (l : Int)).toNat).flatMap
            fun i => pageData (getTasks s c ⟨some pid, pages i, limits i⟩)) := by
  have hfind : Task.findById s T._id = some T :=
    task_findById_of_mem (uniqueIds_of_reachable hR) hT
  have hP2 : Project.findById s T.project = some P := by rw [hTP]; exact hP
  have hiff := getTask_success_iff s c T._id T P hfind hP2
    (assignee_registered_of_reachable hR T hT)
  have hsel : T ∈ Task.find s ⟨pid, if !P.isAdmin c then some c else none⟩ ↔
      (getTask s c T._id).success = true := by
    rw [hiff, mem_task_find]
    cases hA : P.isAdmin c with
    | true => simp [hT, hTP, hM]
    | false =>
      simp only [Bool.not_false, if_true, Option.some.injEq, hM, true_and, false_or,
        Bool.false_eq_true]
      constructor
      · intro h
        exact (h.2.2 c rfl).symm
      · intro h
        exact ⟨hT, hTP, fun u hu => by rw [← hu, h]⟩
  refine ⟨fun page limit => getTasks_eq_tasksPage s c pid page limit P hP hM, hsel, ?_, ?_⟩
  · intro page limit h
    rw [getTasks_eq_tasksPage s c pid page limit P hP hM] at h
    exact hsel.1 (pageData_tasksPage_subset s _ _ _ T h)
  · intro hs l pages limits hl h
    have hmem := hsel.2 hs
    rw [task_countDocuments_eq] at h ⊢
    have hcover := pages_cover (newestFirst (Task.find s
        ⟨pid, if !P.isAdmin c then some c else none⟩)) l hl
      (fun i => pageData (getTasks s c ⟨some pid, pages i, limits i⟩))
      (fun i hi => by
        show pageData (getTasks s c ⟨some pid, pages i, limits i⟩) = _
        rw [getTasks_eq_tasksPage s c pid (pages i) (limits i) P hP hM, (h i hi).1,
          (h i hi).2, tasksPage_page s _ (i + 1) l (by omega)]
        rfl)
    rw [hcover]
    exact (List.perm_insertionSort _ _).mem_iff.2 hmem

/-- C27, on the scenario: Bob, plain member and assignee of task 11, finds the task in his
selection of project 10 and can read it. -/
theorem list_and_read_agree_witness :
    demoTask ∈ Task.find demoStore ⟨10, if !demoProject.isAdmin 2 then some 2 else none⟩ ∧
      (getTask demoStore 2 demoTask._id).success = true :=
  ⟨((list_and_read_agree demoStore 2 10 demoProject demoTask demoStore_reachable
      (by decide) (by decide) (by decide) (by decide)).2.1).2 (by decide),
    by decide⟩



/-! ## The membership round trip -/

/-- A lookup by the id of a document appended to documents of other ids finds it. -/
theorem find?_append_fresh (ps : List Project) (Q : Project) (h : ∀ p ∈ ps, p._id ≠ Q._id) :
    (ps ++ [Q]).find? (fun p => p._id == Q._id) = some Q := by
  rw [List.find?_append]
  have hnone : ps.find? (fun p => p._id == Q._id) = none := by
    rw [List.find?_eq_none]
    intro p hp
    simpa using h p hp
  simp [hnone]

/-- The lookup of a project after it is saved. -/
theorem project_findById_save_self (t : Store) (pid : Id) (Q Q1 : Project)
    (hQ : Project.findById t pid = some Q) (hid : Q1._id = pid) :
    Project.findById (Project.save t Q1) pid = some Q1 := by
  have hQid : Q._id = pid := (mem_of_findById hQ).2
  rw [project_findById_save_eq, hQ]
  simp [hQid, hid]

/-- The lookup of a user by email reads only the user collection. -/
theorem user_findOne_of_users {s t : Store} (h : t.users = s.users) (email : String) :
    User.findOne t email = User.findOne s email := by
  unfold User.findOne
  rw [h]

/-- An admin adds a registered user who has no entry: the entry appended has role member. -/
theorem addMember_by_admin (t : Store) (A pid now : Nat) (email : String) (Q : Project)
    (M : User) (hQ : Project.findById t pid = some Q) (hA : Q.isAdmin A = true)
    (hemail : email ≠ "") (hM : User.findOne t email = some M)
    (hnot : Q.members.find? (fun m => m.user.toStringEq M._id) = none) :
    handle t (Request.addMember A pid ⟨some email⟩ now)
      = (Project.save t { Q with members :=
            Q.members ++ [⟨UserRef.bare M._id, Role.member, now⟩] },
          ⟨200, true, "Member added successfully", Payload.project { Q with members :=
            Q.members ++ [⟨UserRef.bare M._id, Role.member, now⟩] }⟩) := by
  simp [handle, behindAdmin, checkProjectAdmin, hQ, hA, addMember, falsy, hemail, hM, hnot]

/-- An admin promotes a user whose first entry is not admin: that entry becomes admin. -/
theorem promoteMember_by_admin (t : Store) (A pid u : Nat) (Q : Project) (m : Member)
    (hQ : Project.findById t pid = some Q) (hA : Q.isAdmin A = true)
    (hm : Q.members.find? (fun m => m.user.toStringEq u) = some m)
    (hrole : m.role ≠ Role.admin) :
    handle t (Request.promoteMember A pid u)
      = (Project.save t
          { Q with
            members :=
              Q.members.set (Q.members.findIdx fun m => m.user.toStringEq u)
                { m with role := Role.admin } },
          ⟨200, true, "Member promoted to admin successfully",
            Payload.project
              { Q with
                members :=
                  Q.members.set (Q.members.findIdx fun m => m.user.toStringEq u)
                    { m with role := Role.admin } }⟩) := by
  simp [handle, behindAdmin, checkProjectAdmin, hQ, hA, promoteMember, hm, hrole]

/-- An admin removes a user who has an entry and is not the creator: the first entry of the
user is erased. -/
theorem removeMember_by_admin (t : Store) (A pid u i : Nat) (Q : Project)
    (hQ : Project.findById t pid = some Q) (hA : Q.isAdmin A = true)
    (hi : Q.members.findIdx? (fun m => m.user.toStringEq u) = some i)
    (hcreator : Q.createdBy ≠ u) :
    handle t (Request.removeMember A pid u)
      = (Project.save t { Q with members := Q.members.eraseIdx i },
          ⟨200, true, "Member removed successfully",
            Payload.project { Q with members := Q.members.eraseIdx i }⟩) := by
  simp [handle, behindAdmin, checkProjectAdmin, hQ, hA, removeMember, hi, hcreator]

/-- The three membership requests of the round trip, from a store in which the project has
the single entry of its creator `A`: the member is added, promoted and removed, and the
project saved last is the one before the add. -/
theorem round_trip_steps (t : Store) (A pid now now2 : Nat) (email : String) (M : User)
    (Q0 : Project) (hQ : Project.findById t pid = some Q0)
    (hmem : Q0.members = [⟨UserRef.bare A, Role.admin, now⟩]) (hcr : Q0.createdBy = A)
    (hemail : email ≠ "") (hM : User.findOne t email = some M) (hne : M._id ≠ A) :
    ∃ P1 P2 : Project,
      P1._id = pid ∧ P2._id = pid ∧
      P1.members
        = [⟨UserRef.bare A, Role.admin, now⟩, ⟨UserRef.bare M._id, Role.member, now2⟩] ∧
      P2.members
        = [⟨UserRef.bare A, Role.admin, now⟩, ⟨UserRef.bare M._id, Role.admin, now2⟩] ∧
      handle t (Request.addMember A pid ⟨some email⟩ now2)
        = (Project.save t P1, ⟨200, true, "Member added successfully", Payload.project P1⟩) ∧
      handle (Project.save t P1) (Request.promoteMember A pid M._id)
        = (Project.save (Project.save t P1) P2,
            ⟨200, true, "Member promoted to admin successfully", Payload.project P2⟩) ∧
      handle (Project.save (Project.save t P1) P2) (Request.removeMember A pid M._id)
        = (Project.save (Project.save (Project.save t P1) P2) Q0,
            ⟨200, true, "Member removed successfully", Payload.project Q0⟩) := by
  have hid : Q0._id = pid := (mem_of_findById hQ).2
  have hAM : ¬ A = M._id := Ne.symm hne
  cases Q0 with
  | mk id0 name desc cb members ca =>
    simp only at hmem hcr hid
    subst hmem hcr hid
    have hM1 : User.findOne (Project.save t ⟨id0, name, desc, cb,
        [⟨UserRef.bare cb, Role.admin, now⟩, ⟨UserRef.bare M._id, Role.member, now2⟩], ca⟩) email
        = some M := hM
    have hf1 := project_findById_save_self t id0 _
      ⟨id0, name, desc, cb,
        [⟨UserRef.bare cb, Role.admin, now⟩, ⟨UserRef.bare M._id, Role.member, now2⟩], ca⟩
      hQ rfl
    have hf2 := project_findById_save_self _ id0 _
      ⟨id0, name, desc, cb,
        [⟨UserRef.bare cb, Role.admin, now⟩, ⟨UserRef.bare M._id, Role.admin, now2⟩], ca⟩
      hf1 rfl
    refine ⟨⟨id0, name, desc, cb,
        [⟨UserRef.bare cb, Role.admin, now⟩, ⟨UserRef.bare M._id, Role.member, now2⟩], ca⟩,
      ⟨id0, name, desc, cb,
        [⟨UserRef.bare cb, Role.admin, now⟩, ⟨UserRef.bare M._id, Role.admin, now2⟩], ca⟩,
      rfl, rfl, rfl, rfl, ?_, ?_, ?_⟩
    · rw [addMember_by_admin t cb id0 now2 email _ M hQ (by simp [Project.isAdmin, UserRef.id])
        hemail hM (by simp [UserRef.toStringEq, hAM])]
      rfl
    · rw [promoteMember_by_admin _ cb id0 M._id _ ⟨UserRef.bare M._id, Role.member, now2⟩ hf1
        (by simp [Project.isAdmin, UserRef.id]) (by simp [UserRef.toStringEq, hAM])
        (fun h => (by cases h))]
      have hAMb : (cb == M._id) = false := by simpa using hAM
      simp [UserRef.toStringEq, hAMb, List.findIdx_cons]
    · rw [removeMember_by_admin _ cb id0 M._id 1 _ hf2
        (by simp [Project.isAdmin, UserRef.id])
        (by simp [UserRef.toStringEq, hAM, List.findIdx?_cons]) hAM]
      rfl

/-- C25. Round trip. From a store with unique ids, `A` creates a project with a valid name
(it gets the next id and the single entry of `A` as admin), adds an existing user `M` other
than `A` by email, promotes `M` and removes `M`: every request succeeds; after the add `M`
is a member with an entry of role member and `isAdmin` is false; after the promotion
`isAdmin` is true; the removal, `M` not being the creator, answers 200; afterwards `M` is
not a member and the stored project, with its members list, is the one right after
creation. -/
theorem membership_round_trip (s : Store) (A now now2 : Nat) (body : ProjectBody)
    (email : String) (M : User) (hU : UniqueIds s) (hname : falsy body.name = false)
    (htrim : trim (body.name.getD "") ≠ "") (hemail : email ≠ "")
    (hM : User.findOne s email = some M) (hne : M._id ≠ A) :
    ∃ P0 P1 P2 : Project,
      P0.members = [⟨UserRef.bare A, Role.admin, now⟩] ∧ P0.createdBy = A ∧
      P0._id = s.nextId ∧
      (handle s (Request.createProject A body now)).2
        = ⟨201, true, "Project created successfully", Payload.project P0⟩ ∧
      Project.findById (run s [Request.createProject A body now]) s.nextId = some P0 ∧
      (handle (run s [Request.createProject A body now])
          (Request.addMember A s.nextId ⟨some email⟩ now2)).2
        = ⟨200, true, "Member added successfully", Payload.project P1⟩ ∧
      Project.findById (run s [Request.createProject A body now,
          Request.addMember A s.nextId ⟨some email⟩ now2]) s.nextId = some P1 ∧
      P1.members = [⟨UserRef.bare A, Role.admin, now⟩, ⟨UserRef.bare M._id, Role.member, now2⟩] ∧
      P1.isMember M._id = true ∧ P1.isAdmin M._id = false ∧
      (handle (run s [Request.createProject A body now,
          Request.addMember A s.nextId ⟨some email⟩ now2])
          (Request.promoteMember A s.nextId M._id)).2
        = ⟨200, true, "Member promoted to admin successfully", Payload.project P2⟩ ∧
      Project.findById (run s [Request.createProject A body now,
          Request.addMember A s.nextId ⟨some email⟩ now2,
          Request.promoteMember A s.nextId M._id]) s.nextId = some P2 ∧
      P2.isAdmin M._id = true ∧
      (handle (run s [Request.createProject A body now,
          Request.addMember A s.nextId ⟨some email⟩ now2,
          Request.promoteMember A s.nextId M._id])
          (Request.removeMember A s.nextId M._id)).2
        = ⟨200, true, "Member removed successfully", Payload.project P0⟩ ∧
      Project.findById (run s [Request.createProject A body now,
          Request.addMember A s.nextId ⟨some email⟩ now2,
          Request.promoteMember A s.nextId M._id,
          Request.removeMember A s.nextId M._id]) s.nextId = some P0 ∧
      P0.isMember M._id = false := by
  have hfresh : ∀ p ∈ s.projects, p._id ≠ s.nextId := fun p hp => Nat.ne_of_lt (hU.2.2.1 p hp)
  have hAM : ¬ A = M._id := Ne.symm hne
  have h1 : handle s (Request.createProject A body now)
      = (⟨s.users, s.projects ++ [⟨s.nextId, trim (body.name.getD ""),
            body.description.map trim, A, [⟨UserRef.bare A, Role.admin, now⟩], now⟩], s.tasks,
            s.nextId + 1⟩,
          ⟨201, true, "Project created successfully",
            Payload.project ⟨s.nextId, trim (body.name.getD ""), body.description.map trim,
              A, [⟨UserRef.bare A, Role.admin, now⟩], now⟩⟩) := by
    simp [handle, createProject, hname, htrim]
  have hf0 : Project.findById (handle s (Request.createProject A body now)).1 s.nextId
      = some ⟨s.nextId, trim (body.name.getD ""), body.description.map trim, A,
          [⟨UserRef.bare A, Role.admin, now⟩], now⟩ := by
    rw [h1]
    exact find?_append_fresh s.projects ⟨s.nextId, trim (body.name.getD ""),
      body.description.map trim, A, [⟨UserRef.bare A, Role.admin, now⟩], now⟩ hfresh
  have hu1 : User.findOne (handle s (Request.createProject A body now)).1 email = some M := by
    rw [user_findOne_of_users (handle_users s _), hM]
  obtain ⟨P1, P2, hid1, hid2, hm1, hm2, h2, h3, h4⟩ :=
    round_trip_steps (handle s (Request.createProject A body now)).1 A s.nextId now now2 email
      M _ hf0 rfl rfl hemail hu1 hne
  have hf1 := project_findById_save_self _ s.nextId _ P1 hf0 hid1
  have hf2 := project_findById_save_self _ s.nextId _ P2 hf1 hid2
  have hf3 := project_findById_save_self _ s.nextId _
    (⟨s.nextId, trim (body.name.getD ""), body.description.map trim, A,
      [⟨UserRef.bare A, Role.admin, now⟩], now⟩ : Project) hf2 rfl
  refine ⟨⟨s.nextId, trim (body.name.getD ""), body.description.map trim, A,
      [⟨UserRef.bare A, Role.admin, now⟩], now⟩, P1, P2, rfl, rfl, rfl, ?_, hf0, ?_, ?_, hm1,
    ?_, ?_, ?_, ?_, ?_, ?_, ?_, ?_⟩
  · rw [h1]
  · simp only [run]
    rw [h2]
  · simp only [run]
    rw [h2]
    exact hf1
  · simp [Project.isMember, hm1, UserRef.id]
  · simp [Project.isAdmin, hm1, UserRef.id, hAM]
  · simp only [run]
    rw [h2, h3]
  · simp only [run]
    rw [h2, h3]
    exact hf2
  · simp [Project.isAdmin, hm2, UserRef.id]
  · simp only [run]
    rw [h2, h3, h4]
  · simp only [run]
    rw [h2, h3, h4]
    exact hf3
  · simp [Project.isMember, UserRef.id, hAM]

/-- C25, on the users of the scenario: Alice creates a project, adds Bob, promotes him and
removes him; the project found afterwards has the single admin entry of Alice, as right
after creation. -/
theorem membership_round_trip_witness :
    (Project.findById (run demoInit [Request.createProject 1 ⟨some "Apollo", none⟩ 100,
        Request.addMember 1 10 ⟨some "bob@example.com"⟩ 101,
        Request.promoteMember 1 10 2,
        Request.removeMember 1 10 2]) 10).map (fun p => p.members)
      = some [⟨UserRef.bare 1, Role.admin, 100⟩] :=
  match membership_round_trip demoInit 1 100 101 ⟨some "Apollo", none⟩ "bob@example.com"
      ⟨2, "Bob", "bob@example.com"⟩ ⟨List.nodup_nil, List.nodup_nil, by decide, by decide⟩
      (by decide) (by decide) (by decide) (by decide) (by decide) with
  | ⟨P0, _, _, h⟩ => by
    have hf : Project.findById (run demoInit [Request.createProject 1 ⟨some "Apollo", none⟩ 100,
        Request.addMember 1 10 ⟨some "bob@example.com"⟩ 101,
        Request.promoteMember 1 10 2,
        Request.removeMember 1 10 2]) 10 = some P0 := h.2.2.2.2.2.2.2.2.2.2.2.2.2.2.1
    rw [hf, Option.map_some', h.1]


end TaskManager
